import Mathlib

/-!
# Verification of the geodesic BVH ray-casting core

Shallow embedding of the library's core in Lean 4 over exact rational
arithmetic (`ℚ` stands for the scalar type `T`, which is `f32`/`f64` in the
source; IEEE rounding and NaN behaviour are outside the embedding, all
algebraic steps are modelled exactly).  Sources embedded here:

* `src/geometry/aabb.rs` — `Aabb`: constructor, `empty`, `centre`,
  `surface_area`, `merge`, `intersect_any`, `intersect_distance`, and the
  `Traceable` impl.
* `src/rt/ray.rs` — `Ray` with derived reciprocal directions and sign bits.
* `src/rt/hit.rs` / geometry usage — `Hit` record (distance and the two
  normals read by the traversal).
* `src/geometry/sphere.rs` — `Sphere::new` (`debug_assert` only).
* `src/geometry/triangle.rs` — `Triangle::new` and Möller–Trumbore
  `Triangle::intersect`.
* `src/bvh/bvh_config.rs` — `BvhConfig::new` validation.
* `src/bvh/bvh.rs` — `Bvh`, `intersect_recursive`, `intersect_any_recursive`.
* `src/bvh/bvh_builder.rs` — `BvhBuilder::build`, `update_bounds`,
  `subdivide`, `find_best_split`, and the Hoare partition loop.

Floating-point specifics are modelled as follows: `T::max_value()` is the
largest finite `f64` (an exact rational); `T::default_epsilon()` is the `f64`
machine epsilon `2⁻⁵²`; `1/0` (an infinite reciprocal in IEEE) is flagged by
the explicit `direction i = 0` test that mirrors `is_finite`;
`x.sqrt()` appears only inside comparisons, which are encoded by their
exact square-free equivalents (noted at each use site).
-/

/- Batteries marks the `Rat` arithmetic operations `@[irreducible]`, which
blocks `decide`-style evaluation of the executable definitions below on
concrete rationals; restore the default reducibility for them. -/
set_option allowUnsafeReducibility true in
attribute [semireducible] Rat.add Rat.sub Rat.mul Rat.inv Rat.ofScientific

set_option maxRecDepth 4000

namespace Geodesic

/-- Scalar vectors/points in ℝ³, indexed by axis as in the source
(`mins[i]`, `centroid[axis]`, …). -/
def Vec3 : Type := Fin 3 → ℚ

instance : DecidableEq Vec3 := fun a b =>
  decidable_of_iff (a 0 = b 0 ∧ a 1 = b 1 ∧ a 2 = b 2)
    (by
      constructor
      · rintro ⟨h0, h1, h2⟩
        funext i
        fin_cases i
        · exact h0
        · exact h1
        · exact h2
      · intro h
        exact ⟨congrFun h 0, congrFun h 1, congrFun h 2⟩)

instance : Sub Vec3 := ⟨fun a b i => a i - b i⟩
instance : Add Vec3 := ⟨fun a b i => a i + b i⟩

/-- Build a vector from three components. -/
def v3 (a b c : ℚ) : Vec3 := fun i => if i.val = 0 then a else if i.val = 1 then b else c

/-- Dot product. -/
def dot (a b : Vec3) : ℚ := a 0 * b 0 + a 1 * b 1 + a 2 * b 2

/-- Cross product. -/
def cross (a b : Vec3) : Vec3 :=
  v3 (a 1 * b 2 - a 2 * b 1) (a 2 * b 0 - a 0 * b 2) (a 0 * b 1 - a 1 * b 0)

/-- Scale a vector (`Vector3::scale`). -/
def vscale (c : ℚ) (a : Vec3) : Vec3 := fun i => c * a i

/-- `norm_squared`. -/
def normSq (a : Vec3) : ℚ := dot a a

/-- `T::max_value().unwrap()` for `T = f64`: the largest finite double,
`(2⁵³ − 1)·2⁹⁷¹`, used as the initial `t_max` / closest-distance sentinel. -/
def maxValue : ℚ :=
  179769313486231570814527423731704356798070567525844996598917476803157260780028538760589558632766878171540458953514382464234321326889464182768467546703537516986049910576551282076245490090389328944075868508455133942304583236903222948165808559332123348274797826204144723168738177180919299881250404026184124858368

/-- `T::min_value().unwrap()` for `T = f64` (`= -f64::MAX`). -/
def minValue : ℚ := -maxValue

/-- `T::default_epsilon()` for `T = f64` (machine epsilon `2⁻⁵²`). -/
def defaultEpsilon : ℚ := 1 / 4503599627370496

/-- Axis-aligned bounding box (`Aabb` in `src/geometry/aabb.rs`). -/
structure Aabb where
  mins : Vec3
  maxs : Vec3
deriving DecidableEq

/-- `Aabb::new`: the source only `debug_assert!`s the bound ordering and
returns the struct unconditionally (no error path). -/
def Aabb.new (mins maxs : Vec3) : Aabb := ⟨mins, maxs⟩

/-- The `debug_assert!` condition of `Aabb::new`
(`mins.x <= maxs.x && mins.y <= maxs.y && mins.z <= maxs.z`). -/
def Aabb.newAssert (mins maxs : Vec3) : Prop :=
  mins 0 ≤ maxs 0 ∧ mins 1 ≤ maxs 1 ∧ mins 2 ≤ maxs 2

instance (mins maxs : Vec3) : Decidable (Aabb.newAssert mins maxs) :=
  inferInstanceAs (Decidable (_ ∧ _ ∧ _))

/-- `Aabb::empty()`: inverted extreme bounds. -/
def Aabb.empty : Aabb :=
  ⟨v3 maxValue maxValue maxValue, v3 minValue minValue minValue⟩

/-- `Aabb::centre`. -/
def Aabb.centre (b : Aabb) : Vec3 := fun i => (b.mins i + b.maxs i) / 2

/-- `Aabb::surface_area`. -/
def Aabb.surfaceArea (b : Aabb) : ℚ :=
  let e : Fin 3 → ℚ := fun i => b.maxs i - b.mins i
  2 * (e 0 * e 1 + e 1 * e 2 + e 2 * e 0)

/-- `Aabb::merge`: componentwise min/max (via `Aabb::new`). -/
def Aabb.merge (b o : Aabb) : Aabb :=
  Aabb.new (fun i => min (b.mins i) (o.mins i)) (fun i => max (b.maxs i) (o.maxs i))

/-- Geometric ray (`Ray` in `src/rt/ray.rs`).  `inv_direction` and `sign`
are stored precomputed in the source; here they are the derived functions
`Ray.invDirection` and `Ray.sign` of the stored direction, which is what
`Ray::new` computes. -/
structure Ray where
  origin : Vec3
  direction : Vec3
deriving DecidableEq

/-- `inv_direction[i] = 1/direction[i]` (infinite in IEEE when
`direction[i] = 0`; that case is guarded by the `is_finite` test below and
the rational value is never used there). -/
def Ray.invDirection (r : Ray) : Vec3 := fun i => 1 / r.direction i

/-- `sign[i] = 1` iff `inv_direction[i] < 0`. -/
def Ray.sign (r : Ray) (i : Fin 3) : ℕ := if r.invDirection i < 0 then 1 else 0

/-- `inv_direction[i].is_finite()`: the reciprocal of a (nonzero) finite
scalar is finite; it is ±∞ exactly when `direction[i] = 0`. -/
def Ray.invFinite (r : Ray) (i : Fin 3) : Prop := r.direction i ≠ 0

instance (r : Ray) (i : Fin 3) : Decidable (r.invFinite i) :=
  inferInstanceAs (Decidable (_ ≠ _))

/-- Intersection record (`Hit`): distance plus geometric and interpolated
normals.  Normal vectors are kept unnormalised where the source calls
`Unit::new_normalize` (normalisation is a positive rescaling, not
representable in ℚ and never inspected by the traversal). -/
structure Hit where
  distance : ℚ
  geometricNormal : Vec3
  interpolatedNormal : Vec3
deriving DecidableEq

/-- One axis of the shared ray/slab loop of `Aabb::intersect_any` and
`Aabb::intersect_distance`: `none` is the early `return` (parallel miss or
`t_min > t_max`), `some` carries the accumulated `(t_min, t_max)`. -/
def slabStep (b : Aabb) (r : Ray) (acc : ℚ × ℚ) (i : Fin 3) : Option (ℚ × ℚ) :=
  if r.direction i = 0 then
    -- parallel ray: inv_direction is not finite
    if r.origin i < b.mins i ∨ b.maxs i < r.origin i then none else some acc
  else
    let t0 := (b.mins i - r.origin i) * r.invDirection i
    let t1 := (b.maxs i - r.origin i) * r.invDirection i
    let tNear := if r.sign i = 0 then t0 else t1
    let tFar := if r.sign i = 0 then t1 else t0
    let tMin := max acc.1 tNear
    let tMax := min acc.2 tFar
    if tMax < tMin then none else some (tMin, tMax)

/-- The three-axis slab accumulation, starting from
`t_min = 0`, `t_max = T::max_value()`. -/
def slabFold (b : Aabb) (r : Ray) : Option (ℚ × ℚ) :=
  List.foldlM (slabStep b r) ((0 : ℚ), maxValue) [(0 : Fin 3), 1, 2]

/-- `Aabb::intersect_any`. -/
def Aabb.intersectAny (b : Aabb) (r : Ray) : Bool :=
  match slabFold b r with
  | none => false
  | some (_, tMax) => if tMax < 0 then false else true

/-- `Aabb::intersect_distance`. -/
def Aabb.intersectDistance (b : Aabb) (r : Ray) : Option ℚ :=
  match slabFold b r with
  | none => none
  | some (tMin, tMax) =>
    if tMax < 0 then none
    else some (if 0 ≤ tMin then tMin else tMax)

/-- The `Traceable` impl for `Aabb` (`src/geometry/aabb.rs`): the slab loop
additionally tracking the entered face, used as a concrete primitive kernel. -/
def Aabb.traceIntersect (b : Aabb) (r : Ray) : Option Hit :=
  traceGo b r 0 maxValue 0 1 [(0 : Fin 3), 1, 2]
where
  /-- `t_far` of one axis (used by the exit-face recomputation). -/
  tFarAt (i : Fin 3) : ℚ :=
    let t0 := (b.mins i - r.origin i) * r.invDirection i
    let t1 := (b.maxs i - r.origin i) * r.invDirection i
    if r.sign i = 0 then t1 else t0
  /-- The per-axis loop with face tracking. -/
  traceGo (b : Aabb) (r : Ray) (tMin tMax : ℚ) (normalAxis : Fin 3)
      (normalSign : ℚ) : List (Fin 3) → Option Hit
  | [] =>
    if tMax < 0 then none
    else
      let distance := if 0 ≤ tMin then tMin else tMax
      let (axis, sgn) :=
        if tMin < 0 then
          -- ray starts inside the box: recompute the exit face
          match [(0 : Fin 3), 1, 2].find? (fun i =>
              decide (r.direction i ≠ 0) &&
                decide (|tFarAt i - tMax| < defaultEpsilon)) with
          | some i => (i, if r.sign i = 0 then (1 : ℚ) else -1)
          | none => (normalAxis, normalSign)
        else (normalAxis, normalSign)
      let normal : Vec3 := fun j => if j = axis then sgn else 0
      some ⟨distance, normal, normal⟩
  | i :: rest =>
    if r.direction i = 0 then
      if r.origin i < b.mins i ∨ b.maxs i < r.origin i then none
      else traceGo b r tMin tMax normalAxis normalSign rest
    else
      let t0 := (b.mins i - r.origin i) * r.invDirection i
      let t1 := (b.maxs i - r.origin i) * r.invDirection i
      let tNear := if r.sign i = 0 then t0 else t1
      let tFar := if r.sign i = 0 then t1 else t0
      let (tMin', axis', sgn') :=
        if tMin < tNear then (tNear, i, if r.sign i = 0 then (-1 : ℚ) else 1)
        else (tMin, normalAxis, normalSign)
      let tMax' := min tMax tFar
      if tMax' < tMin' then none
      else traceGo b r tMin' tMax' axis' sgn' rest

/-- `Sphere` (`src/geometry/sphere.rs`). -/
structure Sphere where
  center : Vec3
  radius : ℚ
deriving DecidableEq

/-- `Sphere::new`: the source only `debug_assert!`s non-negativity of the
radius and returns the struct unconditionally (no error path). -/
def Sphere.new (center : Vec3) (radius : ℚ) : Sphere := ⟨center, radius⟩

/-- The `debug_assert!` condition of `Sphere::new` (`radius >= 0`). -/
def Sphere.newAssert (_center : Vec3) (radius : ℚ) : Prop := 0 ≤ radius

instance (c : Vec3) (radius : ℚ) : Decidable (Sphere.newAssert c radius) :=
  inferInstanceAs (Decidable (_ ≤ _))

/-- `Triangle` (`src/geometry/triangle.rs`): first vertex, vertex normals,
precomputed edges and geometric normal (stored unnormalised, see `Hit`). -/
structure Triangle where
  vertex0 : Vec3
  normals : Fin 3 → Vec3
  edge1 : Vec3
  edge2 : Vec3
  geometricNormal : Vec3

/-- `Triangle::new`. -/
def Triangle.new (vertices : Fin 3 → Vec3) (normals : Fin 3 → Vec3) : Triangle :=
  let edge1 := vertices 1 - vertices 0
  let edge2 := vertices 2 - vertices 0
  { vertex0 := vertices 0
    normals := normals
    edge1 := edge1
    edge2 := edge2
    geometricNormal := cross edge1 edge2 }

/-- Stand-in for the hit `Triangle::intersect` produces on its f64
division-by-zero path (`a = 0` with `epsilon = 0`, i.e. both edges zero):
there `inv_a = 1/0 = ∞`, the numerators `s·h`, `D·q`, `e2·q` are exactly
`0` (dot/cross of the zero edges), so `u`, `v`, `t` all evaluate to
`0·∞ = NaN`, every following guard (`u<0`, `u>1`, `v<0`, `u+v>1`,
`t<=epsilon`) compares false on NaN, and the function returns a hit whose
distance and interpolated normal are NaN (`Hit::new`'s
`debug_assert!(distance >= 0)` also fails on NaN in debug builds).  ℚ has
no NaN, so the model records the fall-through with `0` stand-ins for the
NaN components; only the `some`-ness is meaningful. -/
def Triangle.nanHit (tri : Triangle) : Hit :=
  ⟨0, tri.geometricNormal, fun _ => 0⟩

/-- `Triangle::intersect` (Möller–Trumbore).  The source compares against
`epsilon = T::default_epsilon() * edge_length_sq.sqrt()`; since `sqrt` leaves
ℚ, the two comparisons involving `epsilon` are encoded by their exact
square-free equivalents:
`|a| < ε ↔ a² < ε₀²·m` and `t ≤ ε ↔ t < 0 ∨ t² ≤ ε₀²·m`
(where `ε₀ = defaultEpsilon ≥ 0`, `m = edge_length_sq ≥ 0`, `ε = ε₀·√m`).
The one place the f64 arithmetic leaves the finite domain is `inv_a = 1/a`
when `a = 0` — the guard only rejected `|a| < ε`, so this happens exactly
when `ε = 0` (both edges zero, forcing `a = 0`): that IEEE path is modelled
explicitly by the `a = 0` branch returning `Triangle.nanHit` (see there for
the NaN trace); for `a ≠ 0` the arithmetic is exact and `1/a` agrees with
the source. -/
def Triangle.intersect (tri : Triangle) (r : Ray) : Option Hit :=
  let m := max (normSq tri.edge1) (normSq tri.edge2)
  let h := cross r.direction tri.edge2
  let a := dot tri.edge1 h
  -- `a.abs() < epsilon`
  if a ^ 2 < defaultEpsilon ^ 2 * m then none
  else if a = 0 then
    -- f64: `inv_a = ∞`, `u = v = t = NaN`, all guards false — falls
    -- through to a NaN-component hit
    some tri.nanHit
  else
    let invA := 1 / a
    let s := r.origin - tri.vertex0
    let u := invA * dot s h
    if u < 0 ∨ 1 < u then none
    else
      let q := cross s tri.edge1
      let v := invA * dot r.direction q
      if v < 0 ∨ 1 < u + v then none
      else
        let t := invA * dot tri.edge2 q
        -- `t <= epsilon`
        if t < 0 ∨ t ^ 2 ≤ defaultEpsilon ^ 2 * m then none
        else
          let w := 1 - u - v
          let interpolated :=
            vscale w (tri.normals 0) + vscale u (tri.normals 1) + vscale v (tri.normals 2)
          some ⟨t, tri.geometricNormal, interpolated⟩

/-- `BvhConfigError` (`src/error/bvh_config.rs`); the source stores the
offending cost formatted as a string, modelled by the value itself. -/
inductive BvhConfigError where
  | invalidTraverseCost (cost : ℚ)
  | invalidIntersectCost (cost : ℚ)
  | invalidSahBuckets (buckets : ℕ)
  | invalidMaxShapesPerNode (count : ℕ)
  | invalidMaxDepth (depth : ℕ)
deriving DecidableEq

/-- `BvhConfig` (`src/bvh/bvh_config.rs`). -/
structure BvhConfig where
  traverseCost : ℚ
  intersectCost : ℚ
  sahBuckets : ℕ
  maxShapesPerNode : ℕ
  maxDepth : ℕ
deriving DecidableEq

/-- `BvhConfig::new` with its sequential validation. -/
def BvhConfig.new (traverseCost intersectCost : ℚ) (sahBuckets maxShapesPerNode maxDepth : ℕ) :
    Except BvhConfigError BvhConfig :=
  if traverseCost ≤ 0 then .error (.invalidTraverseCost traverseCost)
  else if intersectCost ≤ 0 then .error (.invalidIntersectCost intersectCost)
  else if sahBuckets = 0 then .error (.invalidSahBuckets sahBuckets)
  else if maxShapesPerNode ≤ 2 then .error (.invalidMaxShapesPerNode maxShapesPerNode)
  else if maxDepth = 0 then .error (.invalidMaxDepth maxDepth)
  else .ok ⟨traverseCost, intersectCost, sahBuckets, maxShapesPerNode, maxDepth⟩

/-- BVH node (`BvhNode` in `src/bvh/bvh.rs`): bounding box, left child index
(right child is `left_child + 1`), and contained-object count (`count > 0`
marks a leaf). -/
structure BvhNode where
  aabb : Aabb
  leftChild : ℕ
  count : ℕ
deriving DecidableEq

/-- The pool initialiser value used by `BvhBuilder::build`
(`BvhNode { aabb: Aabb::empty(), left_child: 0, count: 0 }`). -/
instance : Inhabited BvhNode := ⟨⟨Aabb.empty, 0, 0⟩⟩

/-- `Bvh`: permuted index array, node array, recorded depth. -/
structure Bvh where
  indices : List ℕ
  nodes : List BvhNode
  depth : ℕ

/-- A bounded, traceable primitive: the dictionary of the
`B: Bounded<T> + Traceable<T>` bound the traversal and builder are generic
over (`aabb` and `intersect` methods). -/
structure Prim where
  aabb : Aabb
  intersect : Ray → Option Hit

/-- Inert default primitive used for out-of-bounds `getD` reads; built BVHs
only ever index in bounds (proved below), so this value never surfaces. -/
instance : Inhabited Prim := ⟨⟨Aabb.empty, fun _ => none⟩⟩

/-- The `Bounded` + `Traceable` impls of `Aabb` packaged as a primitive. -/
def Aabb.toPrim (b : Aabb) : Prim := ⟨b, b.traceIntersect⟩

/-- The leaf loop of `Bvh::intersect_recursive`: scan the `count` indices
starting at `left_child`, keeping the strictly closest hit
(`closest_distance` starts at `T::max_value()`). -/
def Bvh.leafScanStep (bvh : Bvh) (prims : List Prim) (r : Ray) (lc : ℕ)
    (acc : Option (ℕ × Hit) × ℚ) (i : ℕ) : Option (ℕ × Hit) × ℚ :=
  let shapeIndex := bvh.indices.getD (lc + i) 0
  match (prims.getD shapeIndex default).intersect r with
  | some hit =>
    if hit.distance < acc.2 then (some (shapeIndex, hit), hit.distance) else acc
  | none => acc

def Bvh.leafScan (bvh : Bvh) (prims : List Prim) (r : Ray) (lc cnt : ℕ) :
    Option (ℕ × Hit) :=
  ((List.range cnt).foldl (bvh.leafScanStep prims r lc) (none, maxValue)).1

/-- `Bvh::intersect_recursive`.  The extra `fuel` argument is a termination
artifact of the embedding: the `fuel = 0` branch is unreachable for the fuel
chosen by `Bvh.intersect` on any tree a builder produces (the source
recursion is unbounded). -/
def Bvh.intersectRec (bvh : Bvh) (prims : List Prim) (r : Ray) :
    ℕ → ℕ → Option (ℕ × Hit)
  | 0, _ => none
  | fuel + 1, k =>
    if bvh.nodes.length ≤ k then none
    else
      let node := bvh.nodes.getD k default
      if node.aabb.intersectAny r = false then none
      else if 0 < node.count then bvh.leafScan prims r node.leftChild node.count
      else
        match bvh.intersectRec prims r fuel node.leftChild,
            bvh.intersectRec prims r fuel (node.leftChild + 1) with
        | some (li, lhit), some (ri, rhit) =>
          if lhit.distance ≤ rhit.distance then some (li, lhit) else some (ri, rhit)
        | some x, none => some x
        | none, some x => some x
        | none, none => none

/-- `Bvh::intersect`: closest hit, entered at the root node 0. -/
def Bvh.intersect (bvh : Bvh) (r : Ray) (prims : List Prim) : Option (ℕ × Hit) :=
  bvh.intersectRec prims r (bvh.indices.length + 1) 0

/-- `Bvh::intersect_any_recursive` (same fuel artifact as above). -/
def Bvh.intersectAnyRec (bvh : Bvh) (prims : List Prim) (r : Ray) (maxDistance : ℚ) :
    ℕ → ℕ → Bool
  | 0, _ => false
  | fuel + 1, k =>
    if bvh.nodes.length ≤ k then false
    else
      let node := bvh.nodes.getD k default
      match node.aabb.intersectDistance r with
      | none => false
      | some distance =>
        if maxDistance < distance then false
        else if 0 < node.count then
          (List.range node.count).any (fun i =>
            match (prims.getD (bvh.indices.getD (node.leftChild + i) 0) default).intersect r with
            | some hit => decide (hit.distance ≤ maxDistance)
            | none => false)
        else
          bvh.intersectAnyRec prims r maxDistance fuel node.leftChild ||
            bvh.intersectAnyRec prims r maxDistance fuel (node.leftChild + 1)

/-- `Bvh::intersect_any`: shadow-ray query, entered at the root node 0. -/
def Bvh.intersectAny (bvh : Bvh) (r : Ray) (prims : List Prim) (maxDistance : ℚ) : Bool :=
  bvh.intersectAnyRec prims r maxDistance (bvh.indices.length + 1) 0

/-! ## The builder (`src/bvh/bvh_builder.rs`) -/

/-- The mutable state of `BvhBuilder` during a build. -/
structure BuildState where
  indices : List ℕ
  nodes : List BvhNode
  nodesUsed : ℕ

/-- `SplitCandidate`. -/
structure SplitCandidate where
  axis : Fin 3
  position : ℚ
  cost : ℚ

/-- `shapes[i].aabb()` through the stored index array. -/
def primAabb (prims : List Prim) (i : ℕ) : Aabb := (prims.getD i default).aabb

/-- `BvhBuilder::update_bounds`: fold the contained shapes' boxes into the
node's current box (which is `Aabb::empty()` for freshly allocated nodes). -/
def updateBounds (prims : List Prim) (st : BuildState) (k : ℕ) : BuildState :=
  let nd := st.nodes.getD k default
  let aabb' := (List.range nd.count).foldl
    (fun acc i => acc.merge (primAabb prims (st.indices.getD (nd.leftChild + i) 0))) nd.aabb
  { st with nodes := st.nodes.set k { nd with aabb := aabb' } }

/-- SAH bucket selection:
`((centroid[axis] − mins[axis]) / extent · B).floor().to_usize().unwrap_or(0).min(B − 1)`
(`to_usize` is `None`, hence 0, for negatives and values ≥ 2⁶⁴). -/
def bucketIndex (sahBuckets : ℕ) (mn extent c : ℚ) : ℕ :=
  let f := Int.floor ((c - mn) / extent * (sahBuckets : ℚ))
  (if f < 0 ∨ (2 ^ 64 : ℤ) ≤ f then 0 else f.toNat).min (sahBuckets - 1)

/-- One bucket update: increment the count; install the shape's box if the
bucket was empty, otherwise merge it in. -/
def bucketUpdate (bkts : List (ℕ × Aabb)) (bi : ℕ) (shapeAabb : Aabb) :
    List (ℕ × Aabb) :=
  let bc := (bkts.getD bi (0, Aabb.empty)).1
  let bb := (bkts.getD bi (0, Aabb.empty)).2
  bkts.set bi (bc + 1, if bc + 1 = 1 then shapeAabb else bb.merge shapeAabb)

/-- Assign the node's shapes to the SAH buckets along one axis. -/
def fillBuckets (sahBuckets : ℕ) (inds : List ℕ) (prims : List Prim)
    (node : BvhNode) (axis : Fin 3) (extent : ℚ) : List (ℕ × Aabb) :=
  (List.range node.count).foldl (fun bkts i =>
    let shapeAabb := primAabb prims (inds.getD (node.leftChild + i) 0)
    bucketUpdate bkts
      (bucketIndex sahBuckets (node.aabb.mins axis) extent (shapeAabb.centre axis))
      shapeAabb)
    (List.replicate sahBuckets (0, Aabb.empty))

/-- Accumulate one side of a candidate split: total count and merged box of
the non-empty buckets (`None` when every bucket on the side is empty). -/
def sideAcc (bkts : List (ℕ × Aabb)) : ℕ × Option Aabb :=
  bkts.foldl (fun acc b =>
    if 0 < b.1 then
      (acc.1 + b.1, some (match acc.2 with | none => b.2 | some a => a.merge b.2))
    else acc) (0, none)

/-- `left_aabb.map_or_else(T::zero, Aabb::surface_area)`. -/
def sideSurfaceArea (side : Option Aabb) : ℚ :=
  match side with
  | none => 0
  | some bb => bb.surfaceArea

/-- `BvhBuilder::find_best_split`: binned SAH over the three axes, keeping
the strictly cheapest candidate. -/
def findBestSplit (cfg : BvhConfig) (nodes : List BvhNode) (inds : List ℕ)
    (prims : List Prim) (k : ℕ) : Option SplitCandidate :=
  let node := nodes.getD k default
  let nodeSurfaceArea := node.aabb.surfaceArea
  if nodeSurfaceArea ≤ 0 then none
  else
    [(0 : Fin 3), 1, 2].foldl (fun best axis =>
      let extent := node.aabb.maxs axis - node.aabb.mins axis
      if extent ≤ 0 then best
      else
        let bkts := fillBuckets cfg.sahBuckets inds prims node axis extent
        (List.range' 1 (cfg.sahBuckets - 1)).foldl (fun best splitBucket =>
          let l := sideAcc (bkts.take splitBucket)
          let rt := sideAcc (bkts.drop splitBucket)
          if l.1 = 0 ∨ rt.1 = 0 then best
          else
            let cost := cfg.traverseCost
              + sideSurfaceArea l.2 / nodeSurfaceArea * (l.1 : ℚ) * cfg.intersectCost
              + sideSurfaceArea rt.2 / nodeSurfaceArea * (rt.1 : ℚ) * cfg.intersectCost
            let position := node.aabb.mins axis
              + extent * (splitBucket : ℚ) / (cfg.sahBuckets : ℚ)
            match best with
            | none => some ⟨axis, position, cost⟩
            | some b => if cost < b.cost then some ⟨axis, position, cost⟩ else best) best)
      none

/-- `Vec::swap` on the index array. -/
def listSwap (l : List ℕ) (i j : ℕ) : List ℕ :=
  (l.set i (l.getD j 0)).set j (l.getD i 0)

/-- Structural-recursion core of the partition loop.  `fuel` is a
termination artifact (see `Bvh.intersectRec`); the wrapper `partitionLoop`
passes `j + 1 - i`, the loop's exact iteration count, and
`partitionLoopAux_fuel` shows any sufficient fuel gives the same result. -/
def partitionLoopAux (prims : List Prim) (axis : Fin 3) (position : ℚ) :
    ℕ → List ℕ → ℕ → ℕ → List ℕ × Option ℕ
  | 0, inds, i, _j => (inds, some i)
  | fuel + 1, inds, i, j =>
    if i ≤ j then
      if (primAabb prims (inds.getD i 0)).centre axis < position then
        partitionLoopAux prims axis position fuel inds (i + 1) j
      else
        let inds' := listSwap inds i j
        if j = 0 then (inds', none)
        else partitionLoopAux prims axis position fuel inds' i (j - 1)
    else (inds, some i)

/-- The Hoare two-pointer partition loop of `BvhBuilder::subdivide`
(lines 105–118).  Returns the (possibly reordered) index array together
with `some i` on normal exit, or `none` for the `j == 0` early return. -/
def partitionLoop (prims : List Prim) (axis : Fin 3) (position : ℚ)
    (inds : List ℕ) (i j : ℕ) : List ℕ × Option ℕ :=
  partitionLoopAux prims axis position (j + 1 - i) inds i j

/-- Fuel never binds in the partition loop: any fuel at least the iteration
count gives the wrapper's result. -/
theorem partitionLoopAux_fuel (prims : List Prim) (axis : Fin 3) (position : ℚ) :
    ∀ f1 f2 (inds : List ℕ) (i j : ℕ), j + 1 - i ≤ f1 → j + 1 - i ≤ f2 →
      partitionLoopAux prims axis position f1 inds i j =
        partitionLoopAux prims axis position f2 inds i j := by
  intro f1
  induction f1 with
  | zero =>
    intro f2 inds i j h1 h2
    have hij : ¬ i ≤ j := by omega
    cases f2 with
    | zero => rfl
    | succ g =>
      show (inds, some i) =
        if i ≤ j then _ else (inds, some i)
      rw [if_neg hij]
  | succ f ih =>
    intro f2 inds i j h1 h2
    by_cases hij : i ≤ j
    · cases f2 with
      | zero => exact absurd h2 (by omega)
      | succ g =>
        show (if i ≤ j then _ else _) = if i ≤ j then _ else _
        rw [if_pos hij, if_pos hij]
        by_cases hc : (primAabb prims (inds.getD i 0)).centre axis < position
        · rw [if_pos hc, if_pos hc]
          exact ih g inds (i + 1) j (by omega) (by omega)
        · rw [if_neg hc, if_neg hc]
          by_cases hj0 : j = 0
          · rw [if_pos hj0, if_pos hj0]
          · rw [if_neg hj0, if_neg hj0]
            exact ih g (listSwap inds i j) i (j - 1) (by omega) (by omega)
    · cases f2 with
      | zero =>
        show (if i ≤ j then _ else (inds, some i)) = (inds, some i)
        rw [if_neg hij]
      | succ g =>
        show (if i ≤ j then _ else (inds, some i)) =
          if i ≤ j then _ else (inds, some i)
        rw [if_neg hij, if_neg hij]

/-- `BvhBuilder::subdivide`.  `fuel` is a termination artifact (see
`Bvh.intersectRec`); the depth-cap check `current_depth >= max_depth` is the
source's own and is modelled verbatim. -/
def subdivide (cfg : BvhConfig) (prims : List Prim) :
    ℕ → BuildState → ℕ → ℕ → BuildState × ℕ
  | fuel, st, k, d =>
    let nd := st.nodes.getD k default
    if nd.count ≤ cfg.maxShapesPerNode ∨ cfg.maxDepth ≤ d then (st, d)
    else
      match fuel with
      | 0 => (st, d)
      | fuel + 1 =>
        match findBestSplit cfg st.nodes st.indices prims k with
        | none => (st, d)
        | some best =>
          let leafCost := (nd.count : ℚ) * cfg.intersectCost
          if leafCost ≤ best.cost then (st, d)
          else
            let pr := partitionLoop prims best.axis best.position st.indices
              nd.leftChild (nd.leftChild + nd.count - 1)
            let st' := { st with indices := pr.1 }
            match pr.2 with
            | none => (st', d)
            | some i =>
              let leftCount := i - nd.leftChild
              if leftCount = 0 ∨ leftCount = nd.count then (st', d)
              else
                let u := st'.nodesUsed
                let leftNode := st'.nodes.getD u default
                let rightNode := st'.nodes.getD (u + 1) default
                let nodes1 := st'.nodes.set u
                  { leftNode with leftChild := nd.leftChild, count := leftCount }
                let nodes2 := nodes1.set (u + 1)
                  { rightNode with leftChild := i, count := nd.count - leftCount }
                let nodes3 := nodes2.set k { nd with leftChild := u, count := 0 }
                let st2 : BuildState := { st' with nodes := nodes3, nodesUsed := u + 2 }
                let st3 := updateBounds prims st2 u
                let st4 := updateBounds prims st3 (u + 1)
                let resL := subdivide cfg prims fuel st4 u (d + 1)
                let resR := subdivide cfg prims fuel resL.1 (u + 1) (d + 1)
                (resR.1, max resL.2 resR.2)

/-- `BvhBuilder::build` before truncation: preallocate `2N − 1` pool nodes,
root holding all indices, update root bounds, subdivide from the root. -/
def buildState (cfg : BvhConfig) (prims : List Prim) : BuildState × ℕ :=
  let n := prims.length
  let nodes1 := (List.replicate (2 * n - 1) (default : BvhNode)).set 0
    { aabb := Aabb.empty, leftChild := 0, count := n }
  let st1 := updateBounds prims ⟨List.range n, nodes1, 1⟩ 0
  subdivide cfg prims n st1 0 0

/-- `BvhBuilder::build`: truncate the pool to the used prefix. -/
def build (cfg : BvhConfig) (prims : List Prim) : Bvh :=
  let res := buildState cfg prims
  ⟨res.1.indices, res.1.nodes.take res.1.nodesUsed, res.2⟩

/-- Number of shapes of the node's range whose centroid lies strictly below
a split position (the set-level meaning of the partition's `left_count`). -/
def countLt (prims : List Prim) (inds : List ℕ) (axis : Fin 3) (position : ℚ)
    (start cnt : ℕ) : ℕ :=
  ((List.range cnt).filter (fun p =>
    decide ((primAabb prims (inds.getD (start + p) 0)).centre axis < position))).length

/-- The disjunction of `subdivide`'s non-leaf-cap, non-depth-cap early
returns, evaluated at a node of a (final) BVH state: no SAH candidate
exists, or the best candidate is not strictly cheaper than the leaf cost,
or partitioning by it is degenerate (all centroids on one side). -/
def noBeneficialSplitB (cfg : BvhConfig) (nodes : List BvhNode) (inds : List ℕ)
    (prims : List Prim) (k : ℕ) : Bool :=
  let nd := nodes.getD k default
  match findBestSplit cfg nodes inds prims k with
  | none => true
  | some s =>
    decide ((nd.count : ℚ) * cfg.intersectCost ≤ s.cost) ||
      decide (countLt prims inds s.axis s.position nd.leftChild nd.count = 0) ||
      decide (countLt prims inds s.axis s.position nd.leftChild nd.count = nd.count)

/-- Propositional form of `noBeneficialSplitB`. -/
def NoBeneficialSplit (cfg : BvhConfig) (nodes : List BvhNode) (inds : List ℕ)
    (prims : List Prim) (k : ℕ) : Prop :=
  noBeneficialSplitB cfg nodes inds prims k = true

instance (cfg : BvhConfig) (nodes : List BvhNode) (inds : List ℕ)
    (prims : List Prim) (k : ℕ) : Decidable (NoBeneficialSplit cfg nodes inds prims k) :=
  inferInstanceAs (Decidable (_ = _))

/-! ## Basic component lemmas -/

theorem v3_app0 (a b c : ℚ) : v3 a b c 0 = a := rfl

theorem v3_app1 (a b c : ℚ) : v3 a b c 1 = b := rfl

theorem v3_app2 (a b c : ℚ) : v3 a b c 2 = c := rfl

theorem vsub_app (a b : Vec3) (i : Fin 3) : (a - b) i = a i - b i := rfl

theorem vadd_app (a b : Vec3) (i : Fin 3) : (a + b) i = a i + b i := rfl

theorem vscale_app (c : ℚ) (a : Vec3) (i : Fin 3) : vscale c a i = c * a i := rfl

/-- `normSq` is a sum of squares. -/
theorem normSq_nonneg (a : Vec3) : 0 ≤ normSq a := by
  unfold normSq dot
  nlinarith [mul_self_nonneg (a 0), mul_self_nonneg (a 1), mul_self_nonneg (a 2)]

/-- `sign i = 0` means the direction component is positive (given it is
nonzero). -/
theorem sign_eq_zero_pos (r : Ray) (i : Fin 3) (hd : r.direction i ≠ 0)
    (hs : r.sign i = 0) : 0 < r.direction i := by
  unfold Ray.sign Ray.invDirection at hs
  rcases lt_trichotomy (r.direction i) 0 with hlt | hz | hgt
  · rw [if_pos (one_div_neg.mpr hlt)] at hs
    exact absurd hs one_ne_zero
  · exact absurd hz hd
  · exact hgt

/-- `sign i ≠ 0` means the direction component is negative. -/
theorem sign_ne_zero_neg (r : Ray) (i : Fin 3) (hs : r.sign i ≠ 0) :
    r.direction i < 0 := by
  unfold Ray.sign Ray.invDirection at hs
  split_ifs at hs with h
  · exact one_div_neg.mp h
  · exact absurd rfl hs

/-- A successful slab step never decreases the accumulated `t_min`. -/
theorem slabStep_fst_mono (b : Aabb) (r : Ray) (acc : ℚ × ℚ) (i : Fin 3)
    (acc' : ℚ × ℚ) (h : slabStep b r acc i = some acc') : acc.1 ≤ acc'.1 := by
  simp only [slabStep] at h
  split_ifs at h
  all_goals injection h with h'
  all_goals subst h'
  all_goals first
    | exact le_refl _
    | exact le_max_left _ _

/-- The accumulated `t_min` never drops below its initial value 0. -/
theorem slabFold_tmin_nonneg (b : Aabb) (r : Ray) :
    ∀ (axes : List (Fin 3)) (acc : ℚ × ℚ), 0 ≤ acc.1 →
      ∀ res, List.foldlM (slabStep b r) acc axes = some res → 0 ≤ res.1 := by
  intro axes
  induction axes with
  | nil =>
    intro acc h res hres
    simp only [List.foldlM_nil, Option.pure_def, Option.some_inj] at hres
    exact hres ▸ h
  | cons i rest ih =>
    intro acc h res hres
    rw [List.foldlM_cons] at hres
    cases hstep : slabStep b r acc i with
    | none => rw [hstep] at hres; exact absurd hres (by simp)
    | some acc' =>
      rw [hstep] at hres
      simp only [Option.bind_eq_bind, Option.some_bind] at hres
      refine ih acc' ?_ res hres
      exact le_trans h (slabStep_fst_mono b r acc i acc' hstep)

/-- When the ray origin lies (weakly) inside the box, every slab step keeps
`t_min = 0` and a non-negative `t_max`. -/
theorem slabFold_inside (b : Aabb) (r : Ray)
    (hin : ∀ i, b.mins i ≤ r.origin i ∧ r.origin i ≤ b.maxs i) :
    ∀ (axes : List (Fin 3)) (m : ℚ), 0 ≤ m →
      ∃ m', List.foldlM (slabStep b r) ((0 : ℚ), m) axes = some (0, m') ∧ 0 ≤ m' := by
  intro axes
  induction axes with
  | nil => intro m hm; exact ⟨m, by simp [List.foldlM_nil, pure], hm⟩
  | cons i rest ih =>
    intro m hm
    rw [List.foldlM_cons]
    by_cases hd : r.direction i = 0
    · have hnm : ¬(r.origin i < b.mins i ∨ b.maxs i < r.origin i) := by
        push_neg
        exact ⟨(hin i).1, (hin i).2⟩
      have hstep : slabStep b r (0, m) i = some (0, m) := by
        unfold slabStep
        rw [if_pos hd, if_neg hnm]
      rw [hstep]
      simpa using ih m hm
    · have hmins : b.mins i - r.origin i ≤ 0 := by linarith [(hin i).1]
      have hmaxs : 0 ≤ b.maxs i - r.origin i := by linarith [(hin i).2]
      have hkey : ∃ m', slabStep b r (0, m) i = some (0, m') ∧ 0 ≤ m' := by
        unfold slabStep
        rw [if_neg hd]
        have hnear : (if r.sign i = 0
            then (b.mins i - r.origin i) * r.invDirection i
            else (b.maxs i - r.origin i) * r.invDirection i) ≤ 0 := by
          split_ifs with hs
          · have hpos : 0 < r.invDirection i := by
              unfold Ray.invDirection
              exact one_div_pos.mpr (sign_eq_zero_pos r i hd hs)
            exact mul_nonpos_iff.mpr (Or.inr ⟨hmins, le_of_lt hpos⟩)
          · have hneg : r.invDirection i < 0 := by
              unfold Ray.invDirection
              exact one_div_neg.mpr (sign_ne_zero_neg r i hs)
            exact mul_nonpos_iff.mpr (Or.inl ⟨hmaxs, le_of_lt hneg⟩)
        have hfar : 0 ≤ (if r.sign i = 0
            then (b.maxs i - r.origin i) * r.invDirection i
            else (b.mins i - r.origin i) * r.invDirection i) := by
          split_ifs with hs
          · have hpos : 0 < r.invDirection i := by
              unfold Ray.invDirection
              exact one_div_pos.mpr (sign_eq_zero_pos r i hd hs)
            exact mul_nonneg hmaxs (le_of_lt hpos)
          · have hneg : r.invDirection i < 0 := by
              unfold Ray.invDirection
              exact one_div_neg.mpr (sign_ne_zero_neg r i hs)
            exact mul_nonneg_iff.mpr (Or.inr ⟨hmins, le_of_lt hneg⟩)
        simp only
        rw [max_eq_left hnear]
        have hm' : 0 ≤ min m (if r.sign i = 0
            then (b.maxs i - r.origin i) * r.invDirection i
            else (b.mins i - r.origin i) * r.invDirection i) :=
          le_min hm hfar
        rw [if_neg (not_lt.mpr hm')]
        exact ⟨_, rfl, hm'⟩
      obtain ⟨m', hstep, hm'⟩ := hkey
      rw [hstep]
      simpa using ih m' hm'

theorem maxValue_pos : (0 : ℚ) < maxValue := by norm_num [maxValue]

/-- C2, counterexample: for the unit cube and a ray starting at the origin
(inside the box) with direction `(0,0,1)`, `Aabb::intersect_distance`
returns `Some 0` (the accumulated `t_min`, which starts at 0), not the exit
distance `t_max = 1` the claim prescribes for an inside origin. -/
theorem claim_c2_counterexample :
    Aabb.intersectDistance ⟨v3 (-1) (-1) (-1), v3 1 1 1⟩ ⟨v3 0 0 0, v3 0 0 1⟩ = some 0 ∧
    Aabb.intersectDistance ⟨v3 (-1) (-1) (-1), v3 1 1 1⟩ ⟨v3 0 0 0, v3 0 0 1⟩ ≠ some 1 := by
  constructor
  · decide
  · decide

/-- C2 (amended): in `Aabb::intersect_distance` the accumulator `t_min`
starts at 0 and never decreases, so every returned distance is the
non-negative `t_min`; in particular, when the ray origin lies inside the
box the function returns `Some 0` — not the exit distance `t_max` — and the
final `t_max < 0` check and the `t_min < 0` fallback are unreachable. -/
theorem claim_c2_intersect_distance :
    (∀ (b : Aabb) (r : Ray), (∀ i, b.mins i ≤ r.origin i ∧ r.origin i ≤ b.maxs i) →
      b.intersectDistance r = some 0) ∧
    (∀ (b : Aabb) (r : Ray) (t : ℚ), b.intersectDistance r = some t → 0 ≤ t) := by
  constructor
  · intro b r hin
    obtain ⟨m', hfold, hm'⟩ :=
      slabFold_inside b r hin [(0 : Fin 3), 1, 2] maxValue (le_of_lt maxValue_pos)
    unfold Aabb.intersectDistance slabFold
    rw [hfold]
    simp [not_lt.mpr hm']
  · intro b r t h
    unfold Aabb.intersectDistance at h
    cases hf : slabFold b r with
    | none => rw [hf] at h; cases h
    | some p =>
      rw [hf] at h
      have h0 : 0 ≤ p.1 := by
        unfold slabFold at hf
        exact slabFold_tmin_nonneg b r [(0 : Fin 3), 1, 2] (0, maxValue) (le_refl 0) p hf
      obtain ⟨tMin, tMax⟩ := p
      simp only at h h0
      by_cases h1 : tMax < 0
      · rw [if_pos h1] at h
        cases h
      · rw [if_neg h1, if_pos h0] at h
        exact (Option.some_inj.mp h) ▸ h0

/-- C2 witness: the inside-origin ray of the counterexample discharges the
first conjunct; the slab scenario S4 (box `[-1,1]³`, ray from `(-3,0,0)`
along `+x`, entry distance 2) discharges the second. -/
theorem claim_c2_intersect_distance_witness :
    Aabb.intersectDistance ⟨v3 (-1) (-1) (-1), v3 1 1 1⟩ ⟨v3 0 0 0, v3 0 0 1⟩ = some 0 ∧
    (0 : ℚ) ≤ 2 := by
  constructor
  · exact claim_c2_intersect_distance.1 _ _ (by decide)
  · exact claim_c2_intersect_distance.2 ⟨v3 (-1) (-1) (-1), v3 1 1 1⟩
      ⟨v3 (-3) 0 0, v3 1 0 0⟩ 2 (by decide)

/-- C3: contrary to the claim (and the spec's failure semantics),
`Sphere::new` with a negative radius and `Aabb::new` with inverted bounds do
not return an error: both only `debug_assert!` (compiled out of release
builds) and return the constructed value, even though the assertion
condition is violated.  The repo's own error enum
(`GeometryError::InvalidRadius` / `InvalidAabbBounds`) and callers
(`scene_builder.rs` applies `?` to `Sphere::new`) expect a `Result`. -/
theorem claim_c3_construction_no_error :
    Sphere.new (v3 0 0 0) (-1) = { center := v3 0 0 0, radius := -1 } ∧
    ¬ Sphere.newAssert (v3 0 0 0) (-1) ∧
    Aabb.new (v3 1 1 1) (v3 0 0 0) = { mins := v3 1 1 1, maxs := v3 0 0 0 } ∧
    ¬ Aabb.newAssert (v3 1 1 1) (v3 0 0 0) :=
  ⟨rfl, by decide, rfl, by decide⟩

/-- C7: `BvhConfig::new` errors exactly when `traverse_cost ≤ 0`,
`intersect_cost ≤ 0`, `num_buckets = 0`, `max_primitives_per_leaf < 3`, or
`max_depth = 0`; otherwise it succeeds and stores the given values
unchanged. -/
theorem claim_c7_config_validation (tc ic : ℚ) (b m d : ℕ) :
    ((∃ e, BvhConfig.new tc ic b m d = .error e) ↔
      (tc ≤ 0 ∨ ic ≤ 0 ∨ b = 0 ∨ m < 3 ∨ d = 0)) ∧
    (∀ cfg, BvhConfig.new tc ic b m d = .ok cfg → cfg = ⟨tc, ic, b, m, d⟩) := by
  unfold BvhConfig.new
  constructor
  · constructor
    · rintro ⟨e, he⟩
      split_ifs at he with h1 h2 h3 h4 h5
      · exact Or.inl h1
      · exact Or.inr (Or.inl h2)
      · exact Or.inr (Or.inr (Or.inl h3))
      · exact Or.inr (Or.inr (Or.inr (Or.inl (by omega))))
      · exact Or.inr (Or.inr (Or.inr (Or.inr h5)))
    · intro hcond
      split_ifs with h1 h2 h3 h4 h5
      · exact ⟨_, rfl⟩
      · exact ⟨_, rfl⟩
      · exact ⟨_, rfl⟩
      · exact ⟨_, rfl⟩
      · exact ⟨_, rfl⟩
      · rcases hcond with hc | hc | hc | hc | hc
        · exact absurd hc h1
        · exact absurd hc h2
        · exact absurd hc h3
        · exact absurd (by omega : m ≤ 2) h4
        · exact absurd hc h5
  · intro cfg hcfg
    split_ifs at hcfg
    all_goals cases hcfg
    rfl

/-- C7 witness: an invalid leaf cap (2 < 3) yields an error; the default
configuration values are accepted and stored unchanged. -/
theorem claim_c7_config_validation_witness :
    (∃ e, BvhConfig.new 1 1 16 2 64 = .error e) ∧
    BvhConfig.new 1 (5 / 4) 16 4 64 = .ok ⟨1, 5 / 4, 16, 4, 64⟩ := by
  constructor
  · exact (claim_c7_config_validation 1 1 16 2 64).1.mpr (by decide)
  · rfl

/-- A vector whose three components vanish is zero at every index. -/
theorem vec3_eq_zero_of_components (x : Vec3) (h0 : x 0 = 0) (h1 : x 1 = 0)
    (h2 : x 2 = 0) : ∀ i, x i = 0 := by
  intro i
  match i with
  | ⟨0, _⟩ => exact h0
  | ⟨1, _⟩ => exact h1
  | ⟨2, _⟩ => exact h2

/-- A vector with a nonzero component has positive squared norm. -/
theorem normSq_pos_of_ne (x : Vec3) (h : ¬ (x 0 = 0 ∧ x 1 = 0 ∧ x 2 = 0)) :
    0 < normSq x := by
  unfold normSq dot
  rcases not_and_or.mp h with h | h
  · nlinarith [mul_self_pos.mpr h, mul_self_nonneg (x 1), mul_self_nonneg (x 2)]
  · rcases not_and_or.mp h with h | h
    · nlinarith [mul_self_pos.mpr h, mul_self_nonneg (x 0), mul_self_nonneg (x 2)]
    · nlinarith [mul_self_pos.mpr h, mul_self_nonneg (x 0), mul_self_nonneg (x 1)]

/-- A triangle with colinear vertices and at least one nonzero edge
component never reports a hit: `ε > 0`, the determinant `a` vanishes, and
the Möller–Trumbore guard `|a| < ε` rejects the ray. -/
theorem triangle_intersect_colinear (tri : Triangle) (r : Ray)
    (hcol : ∀ i, cross tri.edge1 tri.edge2 i = 0)
    (hnz : ¬ ∀ i, tri.edge1 i = 0 ∧ tri.edge2 i = 0) : tri.intersect r = none := by
  have ha : dot tri.edge1 (cross r.direction tri.edge2) = 0 := by
    have h0 := hcol 0
    have h1 := hcol 1
    have h2 := hcol 2
    simp only [cross, v3_app0, v3_app1, v3_app2] at h0 h1 h2
    unfold dot cross
    simp only [v3_app0, v3_app1, v3_app2]
    linear_combination (-(r.direction 0)) * h0 - r.direction 1 * h1 - r.direction 2 * h2
  have hm : (0 : ℚ) < max (normSq tri.edge1) (normSq tri.edge2) := by
    push_neg at hnz
    obtain ⟨i, hi⟩ := hnz
    by_cases h1 : tri.edge1 i = 0
    · have h2 := hi h1
      refine lt_of_lt_of_le (normSq_pos_of_ne _ ?_) (le_max_right _ _)
      rintro ⟨ha0, ha1, ha2⟩
      exact h2 (vec3_eq_zero_of_components _ ha0 ha1 ha2 i)
    · refine lt_of_lt_of_le (normSq_pos_of_ne _ ?_) (le_max_left _ _)
      rintro ⟨ha0, ha1, ha2⟩
      exact h1 (vec3_eq_zero_of_components _ ha0 ha1 ha2 i)
  simp only [Triangle.intersect, ha]
  rw [if_pos]
  have hε : (0 : ℚ) < defaultEpsilon := by norm_num [defaultEpsilon]
  have := mul_pos (pow_pos hε 2) hm
  simpa using this

/-- The point triangle (both edges zero) takes the division-by-zero path
and falls through to the NaN stand-in hit. -/
theorem triangle_intersect_point (tri : Triangle) (r : Ray)
    (hz : ∀ i, tri.edge1 i = 0 ∧ tri.edge2 i = 0) :
    tri.intersect r = some tri.nanHit := by
  have he1 : ∀ i, tri.edge1 i = 0 := fun i => (hz i).1
  have he2 : ∀ i, tri.edge2 i = 0 := fun i => (hz i).2
  have ha : dot tri.edge1 (cross r.direction tri.edge2) = 0 := by
    unfold dot
    rw [he1 0, he1 1, he1 2]
    ring
  have hm : max (normSq tri.edge1) (normSq tri.edge2) = 0 := by
    have hn1 : normSq tri.edge1 = 0 := by
      unfold normSq dot
      rw [he1 0, he1 1, he1 2]
      ring
    have hn2 : normSq tri.edge2 = 0 := by
      unfold normSq dot
      rw [he2 0, he2 1, he2 2]
      ring
    rw [hn1, hn2, max_self]
  simp only [Triangle.intersect, ha, hm]
  rw [if_neg (by norm_num), if_pos trivial]

/-- C6: for every triangle constructed from colinear vertices and every
ray, `Triangle::intersect` returns no hit *as long as some edge component
is nonzero* (so `ε > 0` and the `|a| < ε` guard fires); but for the point
triangle (all vertices equal — the claim's "zero-length edges" case) the
source divides by zero, `u`, `v`, `t` become NaN, every rejection guard is
false, and it *returns a hit* with NaN distance, contradicting the claim. -/
theorem claim_c6_degenerate_triangle (vertices normals : Fin 3 → Vec3) (r : Ray)
    (hcol : ∀ i, cross (vertices 1 - vertices 0) (vertices 2 - vertices 0) i = 0) :
    ((¬ ∀ i, (vertices 1 - vertices 0) i = 0 ∧ (vertices 2 - vertices 0) i = 0) →
      (Triangle.new vertices normals).intersect r = none) ∧
    ((∀ i, (vertices 1 - vertices 0) i = 0 ∧ (vertices 2 - vertices 0) i = 0) →
      (Triangle.new vertices normals).intersect r =
        some (Triangle.new vertices normals).nanHit) :=
  ⟨fun hnz => triangle_intersect_colinear (Triangle.new vertices normals) r hcol hnz,
   fun hz => triangle_intersect_point (Triangle.new vertices normals) r hz⟩

/-- C6 witness: the colinear triangle `(0,0,0),(1,0,0),(2,0,0)` under a
downward ray through it yields no hit, while the point triangle at the
origin *does* report the (NaN-path) hit under the same ray. -/
theorem claim_c6_degenerate_triangle_witness :
    ((Triangle.new
        (fun i => if i.val = 0 then v3 0 0 0 else if i.val = 1 then v3 1 0 0 else v3 2 0 0)
        (fun _ => v3 0 0 1)).intersect ⟨v3 1 0 1, v3 0 0 (-1)⟩ = none) ∧
    ((Triangle.new (fun _ => v3 0 0 0) (fun _ => v3 0 0 1)).intersect
        ⟨v3 1 0 1, v3 0 0 (-1)⟩ =
      some (Triangle.new (fun _ => v3 0 0 0) (fun _ => v3 0 0 1)).nanHit) :=
  ⟨(claim_c6_degenerate_triangle
      (fun i => if i.val = 0 then v3 0 0 0 else if i.val = 1 then v3 1 0 0 else v3 2 0 0)
      (fun _ => v3 0 0 1) ⟨v3 1 0 1, v3 0 0 (-1)⟩ (by decide)).1 (by decide),
   (claim_c6_degenerate_triangle (fun _ => v3 0 0 0) (fun _ => v3 0 0 1)
      ⟨v3 1 0 1, v3 0 0 (-1)⟩ (by decide)).2 (by decide)⟩

/-! ## Any-hit monotonicity (C4) and traversal soundness (C9) -/

/-- `intersect_any_recursive` is monotone in `max_distance`: both the
box-distance pruning test and the leaf distance test only become more
permissive as the bound grows. -/
theorem intersectAnyRec_mono (bvh : Bvh) (prims : List Prim) (r : Ray)
    (d1 d2 : ℚ) (h12 : d1 ≤ d2) :
    ∀ (fuel k : ℕ), bvh.intersectAnyRec prims r d1 fuel k = true →
      bvh.intersectAnyRec prims r d2 fuel k = true := by
  intro fuel
  induction fuel with
  | zero => intro k h; simp [Bvh.intersectAnyRec] at h
  | succ fuel ih =>
    intro k h
    simp only [Bvh.intersectAnyRec] at h ⊢
    by_cases hk : bvh.nodes.length ≤ k
    · rw [if_pos hk] at h
      cases h
    · rw [if_neg hk] at h ⊢
      cases hdist : ((bvh.nodes.getD k default).aabb.intersectDistance r) with
      | none =>
        simp only [hdist] at h
        exact Bool.noConfusion h
      | some dist =>
        simp only [hdist] at h ⊢
        by_cases hprune : d1 < dist
        · rw [if_pos hprune] at h
          cases h
        · rw [if_neg hprune] at h
          rw [if_neg (by linarith : ¬ d2 < dist)]
          by_cases hleaf : 0 < (bvh.nodes.getD k default).count
          · rw [if_pos hleaf] at h ⊢
            rw [List.any_eq_true] at h ⊢
            obtain ⟨p, hp, hhit⟩ := h
            refine ⟨p, hp, ?_⟩
            cases hint : (prims.getD (bvh.indices.getD
                ((bvh.nodes.getD k default).leftChild + p) 0) default).intersect r with
            | none =>
              simp only [hint] at hhit
              exact Bool.noConfusion hhit
            | some hit =>
              simp only [hint, decide_eq_true_iff] at hhit ⊢
              linarith
          · rw [if_neg hleaf] at h ⊢
            rw [Bool.or_eq_true] at h ⊢
            rcases h with h | h
            · exact Or.inl (ih _ h)
            · exact Or.inr (ih _ h)

/-- C4: for every configuration, primitive list, ray and distances
`d1 ≤ d2`, if the BVH built over the primitives reports an any-hit within
`d1` then it also reports one within `d2`. -/
theorem claim_c4_any_hit_monotone (cfg : BvhConfig) (prims : List Prim) (r : Ray)
    (d1 d2 : ℚ) (h12 : d2 ≥ d1)
    (h1 : (build cfg prims).intersectAny r prims d1 = true) :
    (build cfg prims).intersectAny r prims d2 = true :=
  intersectAnyRec_mono (build cfg prims) prims r d1 d2 h12 _ 0 h1

/-- Fixtures for the concrete witnesses: two unit cubes in front of a ray
marching along `+z` from `(1/2, 1/2, 0)`, hitting them at distances 2
and 5, under the default configuration. -/
def sampleBoxA : Aabb := ⟨v3 0 0 2, v3 1 1 3⟩

def sampleBoxB : Aabb := ⟨v3 0 0 5, v3 1 1 6⟩

def samplePrims : List Prim := [sampleBoxA.toPrim, sampleBoxB.toPrim]

def sampleConfig : BvhConfig := ⟨1, 5 / 4, 16, 4, 64⟩

def sampleRay : Ray := ⟨v3 (1 / 2) (1 / 2) 0, v3 0 0 1⟩

/-- C4 witness: the sample scene's any-hit holds at distance 2 and hence,
by monotonicity, at distance 10. -/
theorem claim_c4_any_hit_monotone_witness :
    (2 : ℚ) ≤ 10 ∧
    (build sampleConfig samplePrims).intersectAny sampleRay samplePrims 10 = true :=
  ⟨by norm_num,
    claim_c4_any_hit_monotone sampleConfig samplePrims sampleRay 2 10 (by norm_num)
      (by decide)⟩

/-- The inert default primitive reports no hit. -/
theorem default_prim_no_hit (r : Ray) : (default : Prim).intersect r = none := rfl

/-- Every hit the leaf scan returns comes verbatim from the scanned
primitive at the returned index. -/
theorem leafScanStep_inv (bvh : Bvh) (prims : List Prim) (r : Ray) (lc : ℕ)
    (acc : Option (ℕ × Hit) × ℚ) (x : ℕ)
    (hacc : ∀ p q, acc.1 = some (p, q) → (prims.getD p default).intersect r = some q) :
    ∀ p q, (bvh.leafScanStep prims r lc acc x).1 = some (p, q) →
      (prims.getD p default).intersect r = some q := by
  intro p q hpq
  simp only [Bvh.leafScanStep] at hpq
  cases hint : (prims.getD (bvh.indices.getD (lc + x) 0) default).intersect r with
  | none =>
    rw [hint] at hpq
    exact hacc p q hpq
  | some hit =>
    rw [hint] at hpq
    by_cases hcl : hit.distance < acc.2
    · simp only [if_pos hcl] at hpq
      obtain ⟨hp1, hp2⟩ := Prod.mk.injEq .. ▸ Option.some_inj.mp hpq
      subst hp1
      subst hp2
      exact hint
    · simp only [if_neg hcl] at hpq
      exact hacc p q hpq

theorem leafScan_sound (bvh : Bvh) (prims : List Prim) (r : Ray) (lc cnt : ℕ)
    (i : ℕ) (h : Hit) (hres : bvh.leafScan prims r lc cnt = some (i, h)) :
    (prims.getD i default).intersect r = some h := by
  unfold Bvh.leafScan at hres
  suffices H : ∀ (l : List ℕ) (acc : Option (ℕ × Hit) × ℚ),
      (∀ p q, acc.1 = some (p, q) → (prims.getD p default).intersect r = some q) →
      ∀ p q, (l.foldl (bvh.leafScanStep prims r lc) acc).1 = some (p, q) →
        (prims.getD p default).intersect r = some q by
    exact H (List.range cnt) (none, maxValue) (by intro p q hpq; cases hpq) i h hres
  intro l
  induction l with
  | nil => intro acc hacc p q hpq; exact hacc p q hpq
  | cons x xs ih =>
    intro acc hacc p q hpq
    rw [List.foldl_cons] at hpq
    exact ih _ (leafScanStep_inv bvh prims r lc acc x hacc) p q hpq

/-- `intersect_recursive` never fabricates or alters a hit: any returned
pair is a verbatim primitive hit. -/
theorem intersectRec_sound (bvh : Bvh) (prims : List Prim) (r : Ray) :
    ∀ (fuel k i : ℕ) (h : Hit),
      bvh.intersectRec prims r fuel k = some (i, h) →
      (prims.getD i default).intersect r = some h := by
  intro fuel
  induction fuel with
  | zero => intro k i h hres; simp [Bvh.intersectRec] at hres
  | succ fuel ih =>
    intro k i h hres
    simp only [Bvh.intersectRec] at hres
    by_cases hk : bvh.nodes.length ≤ k
    · rw [if_pos hk] at hres
      cases hres
    · rw [if_neg hk] at hres
      by_cases hbox : (bvh.nodes.getD k default).aabb.intersectAny r = false
      · rw [if_pos hbox] at hres
        cases hres
      · rw [if_neg hbox] at hres
        by_cases hleaf : 0 < (bvh.nodes.getD k default).count
        · rw [if_pos hleaf] at hres
          exact leafScan_sound bvh prims r _ _ i h hres
        · rw [if_neg hleaf] at hres
          cases hl : bvh.intersectRec prims r fuel (bvh.nodes.getD k default).leftChild with
          | none =>
            cases hr : bvh.intersectRec prims r fuel
                ((bvh.nodes.getD k default).leftChild + 1) with
            | none =>
              simp only [hl, hr] at hres
              exact Option.noConfusion hres
            | some pr =>
              simp only [hl, hr] at hres
              obtain ⟨ri, rhit⟩ := pr
              cases hres
              exact ih _ _ _ hr
          | some pl =>
            obtain ⟨li, lhit⟩ := pl
            cases hr : bvh.intersectRec prims r fuel
                ((bvh.nodes.getD k default).leftChild + 1) with
            | none =>
              simp only [hl, hr] at hres
              cases hres
              exact ih _ _ _ hl
            | some pr =>
              obtain ⟨ri, rhit⟩ := pr
              simp only [hl, hr] at hres
              by_cases hcmp : lhit.distance ≤ rhit.distance
              · rw [if_pos hcmp] at hres
                cases hres
                exact ih _ _ _ hl
              · rw [if_neg hcmp] at hres
                cases hres
                exact ih _ _ _ hr

/-- C9: whenever `bvh.intersect(ray, shapes)` returns `Some((i, hit))`, the
index is in bounds for the shape list and the hit is exactly the one
returned by `shapes[i].intersect(ray)`. -/
theorem claim_c9_traversal_faithful (bvh : Bvh) (prims : List Prim) (r : Ray)
    (i : ℕ) (h : Hit) (hres : bvh.intersect r prims = some (i, h)) :
    i < prims.length ∧ (prims.getD i default).intersect r = some h := by
  have hsound := intersectRec_sound bvh prims r (bvh.indices.length + 1) 0 i h hres
  refine ⟨?_, hsound⟩
  by_contra hge
  rw [List.getD_eq_default _ _ (le_of_not_lt hge)] at hsound
  rw [default_prim_no_hit] at hsound
  cases hsound

/-- C9 witness: the sample scene returns the hit of primitive 0 (the front
cube, entered at distance 2 through its `-z` face), and the theorem
certifies it is that primitive's own hit. -/
theorem claim_c9_traversal_faithful_witness :
    0 < samplePrims.length ∧
    (samplePrims.getD 0 default).intersect sampleRay =
      some ⟨2, fun j => if j = 2 then -1 else 0, fun j => if j = 2 then -1 else 0⟩ :=
  claim_c9_traversal_faithful (build sampleConfig samplePrims) samplePrims sampleRay
    0 ⟨2, fun j => if j = 2 then -1 else 0, fun j => if j = 2 then -1 else 0⟩ (by rfl)

/-! ## Box ordering and slab monotonicity -/

/-- `a` is contained in `b` (componentwise). -/
def AabbLe (a b : Aabb) : Prop :=
  ∀ i, b.mins i ≤ a.mins i ∧ a.maxs i ≤ b.maxs i

theorem AabbLe.refl (a : Aabb) : AabbLe a a := fun _ => ⟨le_rfl, le_rfl⟩

theorem AabbLe.trans {a b c : Aabb} (hab : AabbLe a b) (hbc : AabbLe b c) :
    AabbLe a c := fun i =>
  ⟨le_trans (hbc i).1 (hab i).1, le_trans (hab i).2 (hbc i).2⟩

theorem aabbLe_merge_left (a b : Aabb) : AabbLe a (a.merge b) := by
  intro i
  unfold Aabb.merge Aabb.new
  exact ⟨min_le_left _ _, le_max_left _ _⟩

theorem aabbLe_merge_right (a b : Aabb) : AabbLe b (a.merge b) := by
  intro i
  unfold Aabb.merge Aabb.new
  exact ⟨min_le_right _ _, le_max_right _ _⟩

theorem merge_le_of_le {a b c : Aabb} (hac : AabbLe a c) (hbc : AabbLe b c) :
    AabbLe (a.merge b) c := by
  intro i
  unfold Aabb.merge Aabb.new
  exact ⟨le_min (hac i).1 (hbc i).1, max_le (hac i).2 (hbc i).2⟩

/-- The merge fold only grows the accumulator. -/
theorem aabbLe_foldl_merge (f : ℕ → Aabb) :
    ∀ (l : List ℕ) (acc : Aabb),
      AabbLe acc (l.foldl (fun a i => a.merge (f i)) acc) := by
  intro l
  induction l with
  | nil => intro acc; exact AabbLe.refl acc
  | cons x xs ih =>
    intro acc
    rw [List.foldl_cons]
    exact AabbLe.trans (aabbLe_merge_left acc (f x)) (ih (acc.merge (f x)))

/-- Every folded element's box is contained in the merge fold's result. -/
theorem aabbLe_mem_foldl_merge (f : ℕ → Aabb) :
    ∀ (l : List ℕ) (acc : Aabb) (x : ℕ), x ∈ l →
      AabbLe (f x) (l.foldl (fun a i => a.merge (f i)) acc) := by
  intro l
  induction l with
  | nil => intro acc x hx; cases hx
  | cons y ys ih =>
    intro acc x hx
    rw [List.foldl_cons]
    rcases List.mem_cons.mp hx with h | h
    · subst h
      exact AabbLe.trans (aabbLe_merge_right acc (f x)) (aabbLe_foldl_merge f ys _)
    · exact ih _ x h

/-- One slab step of the larger box succeeds whenever the smaller box's
does, with an interval at least as wide. -/
theorem slabStep_mono {a b : Aabb} (hab : AabbLe a b) (r : Ray) (i : Fin 3)
    (accA accB : ℚ × ℚ) (h1 : accB.1 ≤ accA.1) (h2 : accA.2 ≤ accB.2)
    (resA : ℚ × ℚ) (hstep : slabStep a r accA i = some resA) :
    ∃ resB, slabStep b r accB i = some resB ∧ resB.1 ≤ resA.1 ∧ resA.2 ≤ resB.2 := by
  simp only [slabStep] at hstep ⊢
  by_cases hd : r.direction i = 0
  · rw [if_pos hd] at hstep ⊢
    split_ifs at hstep with hout
    have hin : ¬(r.origin i < b.mins i ∨ b.maxs i < r.origin i) := by
      push_neg at hout ⊢
      exact ⟨le_trans (hab i).1 hout.1, le_trans hout.2 (hab i).2⟩
    rw [if_neg hin]
    exact ⟨accB, rfl, (Option.some_inj.mp hstep) ▸ h1, (Option.some_inj.mp hstep) ▸ h2⟩
  · rw [if_neg hd] at hstep ⊢
    have hnear : (if r.sign i = 0 then (b.mins i - r.origin i) * r.invDirection i
          else (b.maxs i - r.origin i) * r.invDirection i) ≤
        (if r.sign i = 0 then (a.mins i - r.origin i) * r.invDirection i
          else (a.maxs i - r.origin i) * r.invDirection i) := by
      split_ifs with hs
      · have hpos : 0 < r.invDirection i := by
          unfold Ray.invDirection
          exact one_div_pos.mpr (sign_eq_zero_pos r i hd hs)
        exact mul_le_mul_of_nonneg_right (by linarith [(hab i).1]) (le_of_lt hpos)
      · have hneg : r.invDirection i < 0 := by
          unfold Ray.invDirection
          exact one_div_neg.mpr (sign_ne_zero_neg r i hs)
        exact mul_le_mul_of_nonpos_right (by linarith [(hab i).2]) (le_of_lt hneg)
    have hfar : (if r.sign i = 0 then (a.maxs i - r.origin i) * r.invDirection i
          else (a.mins i - r.origin i) * r.invDirection i) ≤
        (if r.sign i = 0 then (b.maxs i - r.origin i) * r.invDirection i
          else (b.mins i - r.origin i) * r.invDirection i) := by
      split_ifs with hs
      · have hpos : 0 < r.invDirection i := by
          unfold Ray.invDirection
          exact one_div_pos.mpr (sign_eq_zero_pos r i hd hs)
        exact mul_le_mul_of_nonneg_right (by linarith [(hab i).2]) (le_of_lt hpos)
      · have hneg : r.invDirection i < 0 := by
          unfold Ray.invDirection
          exact one_div_neg.mpr (sign_ne_zero_neg r i hs)
        exact mul_le_mul_of_nonpos_right (by linarith [(hab i).1]) (le_of_lt hneg)
    set nA := (if r.sign i = 0 then (a.mins i - r.origin i) * r.invDirection i
      else (a.maxs i - r.origin i) * r.invDirection i) with hnA
    set fA := (if r.sign i = 0 then (a.maxs i - r.origin i) * r.invDirection i
      else (a.mins i - r.origin i) * r.invDirection i) with hfA
    set nB := (if r.sign i = 0 then (b.mins i - r.origin i) * r.invDirection i
      else (b.maxs i - r.origin i) * r.invDirection i) with hnB
    set fB := (if r.sign i = 0 then (b.maxs i - r.origin i) * r.invDirection i
      else (b.mins i - r.origin i) * r.invDirection i) with hfB
    by_cases hex : min accA.2 fA < max accA.1 nA
    · rw [if_pos hex] at hstep
      exact absurd hstep (by simp)
    · rw [if_neg hex] at hstep
      have hminle : max accB.1 nB ≤ max accA.1 nA := max_le_max h1 hnear
      have hmaxle : min accA.2 fA ≤ min accB.2 fB := min_le_min h2 hfar
      have hexB : ¬ min accB.2 fB < max accB.1 nB := by
        push_neg at hex ⊢
        exact le_trans hminle (le_trans hex hmaxle)
      rw [if_neg hexB]
      refine ⟨_, rfl, ?_, ?_⟩
      · rw [← Option.some_inj.mp hstep]
        exact hminle
      · rw [← Option.some_inj.mp hstep]
        exact hmaxle

/-- The slab fold of the larger box succeeds with a wider interval. -/
theorem slabFoldAux_mono {a b : Aabb} (hab : AabbLe a b) (r : Ray) :
    ∀ (axes : List (Fin 3)) (accA accB : ℚ × ℚ),
      accB.1 ≤ accA.1 → accA.2 ≤ accB.2 →
      ∀ resA, List.foldlM (slabStep a r) accA axes = some resA →
        ∃ resB, List.foldlM (slabStep b r) accB axes = some resB ∧
          resB.1 ≤ resA.1 ∧ resA.2 ≤ resB.2 := by
  intro axes
  induction axes with
  | nil =>
    intro accA accB h1 h2 resA hres
    simp only [List.foldlM_nil, Option.pure_def, Option.some_inj] at hres ⊢
    exact ⟨accB, rfl, hres ▸ h1, hres ▸ h2⟩
  | cons i rest ih =>
    intro accA accB h1 h2 resA hres
    rw [List.foldlM_cons] at hres ⊢
    cases hstep : slabStep a r accA i with
    | none => rw [hstep] at hres; exact absurd hres (by simp)
    | some accA' =>
      rw [hstep] at hres
      simp only [Option.bind_eq_bind, Option.some_bind] at hres
      obtain ⟨accB', hstepB, hb1, hb2⟩ := slabStep_mono hab r i accA accB h1 h2 accA' hstep
      rw [hstepB]
      simp only [Option.bind_eq_bind, Option.some_bind]
      exact ih accA' accB' hb1 hb2 resA hres

/-- `intersect_any` is monotone under box containment. -/
theorem intersectAny_mono {a b : Aabb} (hab : AabbLe a b) (r : Ray)
    (h : a.intersectAny r = true) : b.intersectAny r = true := by
  unfold Aabb.intersectAny slabFold at h ⊢
  cases hf : List.foldlM (slabStep a r) ((0 : ℚ), maxValue) [(0 : Fin 3), 1, 2] with
  | none => rw [hf] at h; cases h
  | some resA =>
    rw [hf] at h
    obtain ⟨tMinA, tMaxA⟩ := resA
    obtain ⟨resB, hfB, hb1, hb2⟩ := slabFoldAux_mono hab r [(0 : Fin 3), 1, 2]
      (0, maxValue) (0, maxValue) le_rfl le_rfl (tMinA, tMaxA) hf
    rw [hfB]
    obtain ⟨tMinB, tMaxB⟩ := resB
    simp only at h hb1 hb2 ⊢
    split_ifs at h with hA
    have hB : ¬ tMaxB < 0 := by
      push_neg at hA ⊢
      linarith
    rw [if_neg hB]

/-! ## Index-array windows -/

/-- The window of an index array over positions `[start, start + cnt)`. -/
def wlist (l : List ℕ) (start cnt : ℕ) : List ℕ := (l.drop start).take cnt

theorem wlist_length (l : List ℕ) (start cnt : ℕ) (h : start + cnt ≤ l.length) :
    (wlist l start cnt).length = cnt := by
  unfold wlist
  rw [List.length_take, List.length_drop]
  omega

theorem wlist_getElem (l : List ℕ) (start cnt p : ℕ) (hp : p < cnt)
    (h : start + cnt ≤ l.length) :
    (wlist l start cnt).getD p 0 = l.getD (start + p) 0 := by
  unfold wlist
  have h1 : p < ((l.drop start).take cnt).length := by
    rw [List.length_take, List.length_drop]; omega
  have h2 : start + p < l.length := by omega
  rw [List.getD_eq_getElem _ _ h1, List.getD_eq_getElem _ _ h2]
  rw [List.getElem_take, List.getElem_drop]

theorem wlist_split (l : List ℕ) (start cl cnt : ℕ) (hcl : cl ≤ cnt) :
    wlist l start cnt = wlist l start cl ++ wlist l (start + cl) (cnt - cl) := by
  unfold wlist
  have h : cnt = cl + (cnt - cl) := by omega
  conv_lhs => rw [h]
  rw [List.take_add, List.drop_drop]

theorem wlist_congr (l l' : List ℕ) (start cnt : ℕ)
    (hl : start + cnt ≤ l.length) (hl' : start + cnt ≤ l'.length)
    (heq : ∀ p, start ≤ p → p < start + cnt → l'.getD p 0 = l.getD p 0) :
    wlist l' start cnt = wlist l start cnt := by
  apply List.ext_getElem
  · rw [wlist_length _ _ _ hl', wlist_length _ _ _ hl]
  · intro i h1 h2
    have hi : i < cnt := by rwa [wlist_length _ _ _ hl'] at h1
    have e1 : (wlist l' start cnt).getD i 0 = l'.getD (start + i) 0 :=
      wlist_getElem l' start cnt i hi hl'
    have e2 : (wlist l start cnt).getD i 0 = l.getD (start + i) 0 :=
      wlist_getElem l start cnt i hi hl
    rw [List.getD_eq_getElem _ _ h1] at e1
    rw [List.getD_eq_getElem _ _ h2] at e2
    rw [e1, e2]
    exact heq (start + i) (by omega) (by omega)

/-- `l'` agrees with `l` outside `[start, start + cnt)` and permutes it
inside. -/
def SegPerm (l l' : List ℕ) (start cnt : ℕ) : Prop :=
  l'.length = l.length ∧
  (∀ p, p < start ∨ start + cnt ≤ p → l'.getD p 0 = l.getD p 0) ∧
  (wlist l' start cnt).Perm (wlist l start cnt)

theorem segPerm_refl (l : List ℕ) (start cnt : ℕ) : SegPerm l l start cnt :=
  ⟨rfl, fun _ _ => rfl, List.Perm.refl _⟩

theorem segPerm_trans {l1 l2 l3 : List ℕ} {start cnt : ℕ}
    (h12 : SegPerm l1 l2 start cnt) (h23 : SegPerm l2 l3 start cnt) :
    SegPerm l1 l3 start cnt :=
  ⟨h23.1.trans h12.1, fun p hp => (h23.2.1 p hp).trans (h12.2.1 p hp),
    h23.2.2.trans h12.2.2⟩

/-- A permutation of a sub-window is a permutation of any enclosing
window. -/
theorem segPerm_of_sub {l l' : List ℕ} {s' c' start cnt : ℕ}
    (h : SegPerm l l' s' c') (h1 : start ≤ s') (h2 : s' + c' ≤ start + cnt)
    (hlen : start + cnt ≤ l.length) : SegPerm l l' start cnt := by
  obtain ⟨hlen', hout, hperm⟩ := h
  have hlen2 : start + cnt ≤ l'.length := by omega
  refine ⟨hlen', ?_, ?_⟩
  · intro p hp
    exact hout p (by omega)
  · have hsplit : ∀ m : List ℕ, start + cnt ≤ m.length →
        wlist m start cnt =
          wlist m start (s' - start) ++
            (wlist m s' c' ++ wlist m (s' + c') (start + cnt - (s' + c'))) := by
      intro m hm
      have e1 := wlist_split m start (s' - start) cnt (by omega)
      have e2 : start + (s' - start) = s' := by omega
      rw [e2] at e1
      have e3 := wlist_split m s' c' (cnt - (s' - start)) (by omega)
      have e4 : cnt - (s' - start) - c' = start + cnt - (s' + c') := by omega
      rw [e4] at e3
      rw [e1, e3]
    rw [hsplit l hlen, hsplit l' hlen2]
    have eq1 : wlist l' start (s' - start) = wlist l start (s' - start) :=
      wlist_congr l l' start (s' - start) (by omega) (by omega)
        (fun p hp1 hp2 => hout p (by omega))
    have eq3 : wlist l' (s' + c') (start + cnt - (s' + c')) =
        wlist l (s' + c') (start + cnt - (s' + c')) :=
      wlist_congr l l' (s' + c') (start + cnt - (s' + c')) (by omega) (by omega)
        (fun p hp1 hp2 => hout p (by omega))
    rw [eq1, eq3]
    exact List.Perm.append_left _ (List.Perm.append hperm (List.Perm.refl _))

/-- Transfer a pointwise property of the window values across a `SegPerm`. -/
theorem segPerm_value_mem {l l' : List ℕ} {start cnt : ℕ}
    (h : SegPerm l l' start cnt) (hlen : start + cnt ≤ l.length)
    (p : ℕ) (hp1 : start ≤ p) (hp2 : p < start + cnt) :
    ∃ q, start ≤ q ∧ q < start + cnt ∧ l.getD q 0 = l'.getD p 0 := by
  obtain ⟨hlen', hout, hperm⟩ := h
  have hlen2 : start + cnt ≤ l'.length := by omega
  have hmem : l'.getD p 0 ∈ wlist l' start cnt := by
    have hb : p - start < (wlist l' start cnt).length := by
      rw [wlist_length _ _ _ hlen2]; omega
    have he : (wlist l' start cnt).getD (p - start) 0 = l'.getD p 0 := by
      have := wlist_getElem l' start cnt (p - start) (by omega) hlen2
      rwa [Nat.add_sub_cancel' hp1] at this
    rw [← he, List.getD_eq_getElem _ _ hb]
    exact List.getElem_mem hb
  have hmem2 : l'.getD p 0 ∈ wlist l start cnt := hperm.mem_iff.mp hmem
  obtain ⟨i, hi, hval⟩ := List.getElem_of_mem hmem2
  rw [wlist_length _ _ _ hlen] at hi
  refine ⟨start + i, by omega, by omega, ?_⟩
  rw [← wlist_getElem l start cnt i hi hlen]
  rw [List.getD_eq_getElem _ _ (by rw [wlist_length _ _ _ hlen]; omega)]
  exact hval

theorem take_eq_of_getD (l l' : List ℕ) (n : ℕ) (hl : n ≤ l.length)
    (hl' : n ≤ l'.length) (h : ∀ p, p < n → l'.getD p 0 = l.getD p 0) :
    l'.take n = l.take n := by
  apply List.ext_getElem
  · rw [List.length_take, List.length_take]; omega
  · intro i h1 h2
    rw [List.length_take] at h1 h2
    have hb' : i < l'.length := by omega
    have hb : i < l.length := by omega
    rw [List.getElem_take, List.getElem_take]
    have := h i (by omega)
    rwa [List.getD_eq_getElem _ _ hb', List.getD_eq_getElem _ _ hb] at this

theorem drop_eq_of_getD (l l' : List ℕ) (n : ℕ) (hlen : l'.length = l.length)
    (h : ∀ p, n ≤ p → l'.getD p 0 = l.getD p 0) :
    l'.drop n = l.drop n := by
  apply List.ext_getElem
  · rw [List.length_drop, List.length_drop, hlen]
  · intro i h1 h2
    rw [List.length_drop] at h1 h2
    have hb' : n + i < l'.length := by omega
    have hb : n + i < l.length := by omega
    rw [List.getElem_drop, List.getElem_drop]
    have := h (n + i) (by omega)
    rwa [List.getD_eq_getElem _ _ hb', List.getD_eq_getElem _ _ hb] at this

/-- A window permutation with agreement outside is a permutation of the
whole lists. -/
theorem segPerm_to_perm {l l' : List ℕ} {start cnt : ℕ}
    (h : SegPerm l l' start cnt) (hlen : start + cnt ≤ l.length) :
    l'.Perm l := by
  obtain ⟨hlen', hout, hperm⟩ := h
  have hlen2 : start + cnt ≤ l'.length := by omega
  have hdec : ∀ m : List ℕ, start + cnt ≤ m.length →
      m = m.take start ++ (wlist m start cnt ++ m.drop (start + cnt)) := by
    intro m hm
    unfold wlist
    conv_lhs => rw [← List.take_append_drop start m]
    congr 1
    conv_lhs => rw [← List.take_append_drop cnt (m.drop start)]
    rw [List.drop_drop]
  rw [hdec l hlen, hdec l' hlen2]
  have eqtake : l'.take start = l.take start :=
    take_eq_of_getD l l' start (by omega) (by omega)
      (fun p hp => hout p (Or.inl hp))
  have eqdrop : l'.drop (start + cnt) = l.drop (start + cnt) :=
    drop_eq_of_getD l l' (start + cnt) hlen'
      (fun p hp => hout p (Or.inr hp))
  rw [eqtake, eqdrop]
  exact List.Perm.append_left _ (List.Perm.append hperm (List.Perm.refl _))

/-! ## Leaf scan characterisation -/

/-- Shorthand: the hit of the shape referenced at leaf offset `x`. -/
def hitAt (bvh : Bvh) (prims : List Prim) (r : Ray) (lc x : ℕ) : Option Hit :=
  (prims.getD (bvh.indices.getD (lc + x) 0) default).intersect r

/-- The scan accumulator is coherent: its cached distance is `maxValue`
while empty and the stored hit's distance once filled. -/
def AccOk (acc : Option (ℕ × Hit) × ℚ) : Prop :=
  (acc.1 = none → acc.2 = maxValue) ∧ (∀ p q, acc.1 = some (p, q) → acc.2 = q.distance)

theorem leafScanStep_accOk (bvh : Bvh) (prims : List Prim) (r : Ray) (lc : ℕ)
    (acc : Option (ℕ × Hit) × ℚ) (x : ℕ) (h : AccOk acc) :
    AccOk (bvh.leafScanStep prims r lc acc x) := by
  simp only [Bvh.leafScanStep]
  cases hint : (prims.getD (bvh.indices.getD (lc + x) 0) default).intersect r with
  | none => exact h
  | some hit =>
    dsimp only
    by_cases hcl : hit.distance < acc.2
    · rw [if_pos hcl]
      constructor
      · intro hn; cases hn
      · intro p q hpq
        obtain ⟨hp1, hp2⟩ := Prod.mk.injEq .. ▸ Option.some_inj.mp hpq
        rw [← hp2]
    · rw [if_neg hcl]
      exact h

theorem leafScanStep_snd_le (bvh : Bvh) (prims : List Prim) (r : Ray) (lc : ℕ)
    (acc : Option (ℕ × Hit) × ℚ) (x : ℕ) :
    (bvh.leafScanStep prims r lc acc x).2 ≤ acc.2 := by
  simp only [Bvh.leafScanStep]
  cases hint : (prims.getD (bvh.indices.getD (lc + x) 0) default).intersect r with
  | none => exact le_rfl
  | some hit =>
    dsimp only
    by_cases hcl : hit.distance < acc.2
    · rw [if_pos hcl]
      exact le_of_lt hcl
    · rw [if_neg hcl]

theorem leafScanFold_snd_le (bvh : Bvh) (prims : List Prim) (r : Ray) (lc : ℕ) :
    ∀ (l : List ℕ) (acc : Option (ℕ × Hit) × ℚ),
      (l.foldl (bvh.leafScanStep prims r lc) acc).2 ≤ acc.2 := by
  intro l
  induction l with
  | nil => intro acc; exact le_rfl
  | cons x xs ih =>
    intro acc
    rw [List.foldl_cons]
    exact le_trans (ih _) (leafScanStep_snd_le bvh prims r lc acc x)

theorem leafScanFold_accOk (bvh : Bvh) (prims : List Prim) (r : Ray) (lc : ℕ) :
    ∀ (l : List ℕ) (acc : Option (ℕ × Hit) × ℚ), AccOk acc →
      AccOk (l.foldl (bvh.leafScanStep prims r lc) acc) := by
  intro l
  induction l with
  | nil => intro acc h; exact h
  | cons x xs ih =>
    intro acc h
    rw [List.foldl_cons]
    exact ih _ (leafScanStep_accOk bvh prims r lc acc x h)

/-- The final cached distance is below every hit distance in the scanned
list. -/
theorem leafScanFold_dominates (bvh : Bvh) (prims : List Prim) (r : Ray) (lc : ℕ) :
    ∀ (l : List ℕ) (acc : Option (ℕ × Hit) × ℚ) (x : ℕ), x ∈ l →
      ∀ h', hitAt bvh prims r lc x = some h' →
        (l.foldl (bvh.leafScanStep prims r lc) acc).2 ≤ h'.distance := by
  intro l
  induction l with
  | nil => intro acc x hx; cases hx
  | cons y ys ih =>
    intro acc x hx h' hhit
    rw [List.foldl_cons]
    rcases List.mem_cons.mp hx with h | h
    · subst h
      have hstep : (bvh.leafScanStep prims r lc acc x).2 ≤ h'.distance := by
        simp only [Bvh.leafScanStep]
        unfold hitAt at hhit
        rw [hhit]
        dsimp only
        by_cases hcl : h'.distance < acc.2
        · rw [if_pos hcl]
        · rw [if_neg hcl]
          push_neg at hcl
          exact hcl
      exact le_trans (leafScanFold_snd_le bvh prims r lc ys _) hstep
    · exact ih _ x h h' hhit

/-- Once the accumulator holds a hit it stays filled. -/
theorem leafScanFold_isSome (bvh : Bvh) (prims : List Prim) (r : Ray) (lc : ℕ) :
    ∀ (l : List ℕ) (acc : Option (ℕ × Hit) × ℚ), acc.1.isSome →
      ((l.foldl (bvh.leafScanStep prims r lc) acc).1).isSome := by
  intro l
  induction l with
  | nil => intro acc h; exact h
  | cons x xs ih =>
    intro acc h
    rw [List.foldl_cons]
    refine ih _ ?_
    simp only [Bvh.leafScanStep]
    cases hint : (prims.getD (bvh.indices.getD (lc + x) 0) default).intersect r with
    | none => exact h
    | some hit =>
      dsimp only
      by_cases hcl : hit.distance < acc.2
      · rw [if_pos hcl]; rfl
      · rw [if_neg hcl]; exact h

/-- The scan result is empty exactly when the accumulator was empty and no
scanned shape hits (given all hit distances stay below the sentinel). -/
theorem leafScanFold_none_iff (bvh : Bvh) (prims : List Prim) (r : Ray) (lc : ℕ) :
    ∀ (l : List ℕ) (acc : Option (ℕ × Hit) × ℚ), AccOk acc →
      (∀ x ∈ l, ∀ h', hitAt bvh prims r lc x = some h' → h'.distance < maxValue) →
      ((l.foldl (bvh.leafScanStep prims r lc) acc).1 = none ↔
        (acc.1 = none ∧ ∀ x ∈ l, hitAt bvh prims r lc x = none)) := by
  intro l
  induction l with
  | nil =>
    intro acc hok hmax
    simp only [List.foldl_nil]
    constructor
    · intro h; exact ⟨h, fun x hx => absurd hx (List.not_mem_nil x)⟩
    · intro h; exact h.1
  | cons y ys ih =>
    intro acc hok hmax
    rw [List.foldl_cons]
    cases hint : hitAt bvh prims r lc y with
    | none =>
      have hstep : bvh.leafScanStep prims r lc acc y = acc := by
        simp only [Bvh.leafScanStep]
        unfold hitAt at hint
        rw [hint]
      rw [hstep, ih acc hok (fun x hx => hmax x (List.mem_cons_of_mem y hx))]
      constructor
      · rintro ⟨h1, h2⟩
        refine ⟨h1, fun x hx => ?_⟩
        rcases List.mem_cons.mp hx with h | h
        · exact h ▸ hint
        · exact h2 x h
      · rintro ⟨h1, h2⟩
        exact ⟨h1, fun x hx => h2 x (List.mem_cons_of_mem y hx)⟩
    | some hit =>
      constructor
      · intro h
        exfalso
        cases hacc : acc.1 with
        | some p =>
          have := leafScanFold_isSome bvh prims r lc ys (bvh.leafScanStep prims r lc acc y)
            (by
              simp only [Bvh.leafScanStep]
              unfold hitAt at hint
              rw [hint]
              dsimp only
              by_cases hcl : hit.distance < acc.2
              · rw [if_pos hcl]; rfl
              · rw [if_neg hcl]; rw [hacc]; rfl)
          rw [h] at this
          cases this
        | none =>
          have h2 : acc.2 = maxValue := hok.1 hacc
          have hcl : hit.distance < acc.2 := by
            rw [h2]
            exact hmax y (List.mem_cons_self y ys) hit hint
          have hsome : (bvh.leafScanStep prims r lc acc y).1.isSome := by
            simp only [Bvh.leafScanStep]
            unfold hitAt at hint
            rw [hint]
            dsimp only
            rw [if_pos hcl]
            rfl
          have := leafScanFold_isSome bvh prims r lc ys _ hsome
          rw [h] at this
          cases this
      · rintro ⟨h1, h2⟩
        exact absurd (h2 y (List.mem_cons_self y ys)) (by rw [hint]; simp)

/-- Any final hit is either the initial accumulator's or comes from some
scanned offset. -/
theorem leafScanFold_witness (bvh : Bvh) (prims : List Prim) (r : Ray) (lc : ℕ) :
    ∀ (l : List ℕ) (acc : Option (ℕ × Hit) × ℚ) (i : ℕ) (h : Hit),
      (l.foldl (bvh.leafScanStep prims r lc) acc).1 = some (i, h) →
      acc.1 = some (i, h) ∨
        ∃ x ∈ l, bvh.indices.getD (lc + x) 0 = i ∧ hitAt bvh prims r lc x = some h := by
  intro l
  induction l with
  | nil =>
    intro acc i h hres
    exact Or.inl hres
  | cons y ys ih =>
    intro acc i h hres
    rw [List.foldl_cons] at hres
    rcases ih _ i h hres with hcase | ⟨x, hx, hix, hhit⟩
    · simp only [Bvh.leafScanStep] at hcase
      cases hint : (prims.getD (bvh.indices.getD (lc + y) 0) default).intersect r with
      | none =>
        rw [hint] at hcase
        exact Or.inl hcase
      | some hit =>
        rw [hint] at hcase
        dsimp only at hcase
        by_cases hcl : hit.distance < acc.2
        · rw [if_pos hcl] at hcase
          obtain ⟨hp1, hp2⟩ := Prod.mk.injEq .. ▸ Option.some_inj.mp hcase
          refine Or.inr ⟨y, List.mem_cons_self y ys, hp1, ?_⟩
          unfold hitAt
          rw [hint, hp2]
        · rw [if_neg hcl] at hcase
          exact Or.inl hcase
    · exact Or.inr ⟨x, List.mem_cons_of_mem y hx, hix, hhit⟩

/-- Full specification of the leaf scan (`Bvh::intersect_recursive`'s leaf
loop): `none` exactly when no scanned shape hits, and any returned pair is a
genuine minimal-distance hit of a scanned shape. -/
theorem leafScan_spec (bvh : Bvh) (prims : List Prim) (r : Ray) (lc cnt : ℕ)
    (hmax : ∀ x, x < cnt → ∀ h', hitAt bvh prims r lc x = some h' →
      h'.distance < maxValue) :
    (bvh.leafScan prims r lc cnt = none ↔
      ∀ x, x < cnt → hitAt bvh prims r lc x = none) ∧
    (∀ i h, bvh.leafScan prims r lc cnt = some (i, h) →
      (∃ x, x < cnt ∧ bvh.indices.getD (lc + x) 0 = i ∧
        hitAt bvh prims r lc x = some h) ∧
      (∀ y, y < cnt → ∀ h', hitAt bvh prims r lc y = some h' →
        h.distance ≤ h'.distance)) := by
  have hok : AccOk ((none, maxValue) : Option (ℕ × Hit) × ℚ) :=
    ⟨fun _ => rfl, fun p q hpq => by cases hpq⟩
  constructor
  · unfold Bvh.leafScan
    rw [leafScanFold_none_iff bvh prims r lc (List.range cnt) (none, maxValue) hok
      (fun x hx => hmax x (List.mem_range.mp hx))]
    constructor
    · rintro ⟨_, h2⟩
      exact fun x hx => h2 x (List.mem_range.mpr hx)
    · intro h
      exact ⟨rfl, fun x hx => h x (List.mem_range.mp hx)⟩
  · intro i h hres
    unfold Bvh.leafScan at hres
    constructor
    · rcases leafScanFold_witness bvh prims r lc (List.range cnt) (none, maxValue) i h hres
        with hcase | ⟨x, hx, hix, hhit⟩
      · cases hcase
      · exact ⟨x, List.mem_range.mp hx, hix, hhit⟩
    · intro y hy h' hhit
      have hdom := leafScanFold_dominates bvh prims r lc (List.range cnt) (none, maxValue)
        y (List.mem_range.mpr hy) h' hhit
      have hok' := leafScanFold_accOk bvh prims r lc (List.range cnt) (none, maxValue) hok
      rw [hok'.2 i h hres] at hdom
      exact hdom

/-! ## Congruence of the SAH split search -/

theorem fillBuckets_congr (sahBuckets : ℕ) (inds inds' : List ℕ) (prims : List Prim)
    (node : BvhNode) (axis : Fin 3) (extent : ℚ)
    (hseg : ∀ i, i < node.count →
      inds'.getD (node.leftChild + i) 0 = inds.getD (node.leftChild + i) 0) :
    fillBuckets sahBuckets inds' prims node axis extent =
      fillBuckets sahBuckets inds prims node axis extent := by
  unfold fillBuckets
  apply List.foldl_ext
  intro bkts i hi
  rw [hseg i (List.mem_range.mp hi)]

theorem findBestSplit_congr (cfg : BvhConfig) (nodes nodes' : List BvhNode)
    (inds inds' : List ℕ) (prims : List Prim) (k : ℕ)
    (hnode : nodes'.getD k default = nodes.getD k default)
    (hseg : ∀ i, i < (nodes.getD k default).count →
      inds'.getD ((nodes.getD k default).leftChild + i) 0 =
        inds.getD ((nodes.getD k default).leftChild + i) 0) :
    findBestSplit cfg nodes' inds' prims k = findBestSplit cfg nodes inds prims k := by
  have hfb : ∀ axis extent, fillBuckets cfg.sahBuckets inds' prims
      (nodes.getD k default) axis extent =
      fillBuckets cfg.sahBuckets inds prims (nodes.getD k default) axis extent :=
    fun axis extent => fillBuckets_congr cfg.sahBuckets inds inds' prims _ axis extent hseg
  simp only [findBestSplit, hnode, hfb]

theorem countLt_congr (prims : List Prim) (inds inds' : List ℕ) (axis : Fin 3)
    (position : ℚ) (start cnt : ℕ)
    (hseg : ∀ i, i < cnt → inds'.getD (start + i) 0 = inds.getD (start + i) 0) :
    countLt prims inds' axis position start cnt =
      countLt prims inds axis position start cnt := by
  unfold countLt
  congr 1
  apply List.filter_congr
  intro p hp
  rw [hseg p (List.mem_range.mp hp)]

theorem noBeneficialSplitB_congr (cfg : BvhConfig) (nodes nodes' : List BvhNode)
    (inds inds' : List ℕ) (prims : List Prim) (k : ℕ)
    (hnode : nodes'.getD k default = nodes.getD k default)
    (hseg : ∀ i, i < (nodes.getD k default).count →
      inds'.getD ((nodes.getD k default).leftChild + i) 0 =
        inds.getD ((nodes.getD k default).leftChild + i) 0) :
    noBeneficialSplitB cfg nodes' inds' prims k = noBeneficialSplitB cfg nodes inds prims k := by
  unfold noBeneficialSplitB
  rw [findBestSplit_congr cfg nodes nodes' inds inds' prims k hnode hseg, hnode]
  cases findBestSplit cfg nodes inds prims k with
  | none => rfl
  | some s =>
    dsimp only
    rw [countLt_congr prims inds inds' s.axis s.position
      (nodes.getD k default).leftChild (nodes.getD k default).count hseg]

/-! ## The well-formed-subtree invariant -/

/-- `Tree cfg nodes inds prims k d start cnt w`: node `k` (at depth `d`)
roots a well-formed BVH subtree over index positions `[start, start + cnt)`
whose node indices form exactly the set `w`.  Each node's box bounds every
primitive below it; leaves are in-bounds and record why subdivision
stopped. -/
inductive Tree (cfg : BvhConfig) (nodes : List BvhNode) (inds : List ℕ)
    (prims : List Prim) : ℕ → ℕ → ℕ → ℕ → Finset ℕ → Prop
  | leaf (k d start cnt : ℕ)
      (hk : k < nodes.length)
      (hcnt : (nodes.getD k default).count = cnt)
      (hlc : (nodes.getD k default).leftChild = start)
      (hpos : 0 < cnt)
      (hlen : start + cnt ≤ inds.length)
      (hvalid : ∀ p, start ≤ p → p < start + cnt → inds.getD p 0 < prims.length)
      (hbound : ∀ p, start ≤ p → p < start + cnt →
        AabbLe (primAabb prims (inds.getD p 0)) (nodes.getD k default).aabb)
      (hreason : cnt ≤ cfg.maxShapesPerNode ∨ cfg.maxDepth ≤ d ∨
        NoBeneficialSplit cfg nodes inds prims k) :
      Tree cfg nodes inds prims k d start cnt {k}
  | internal (k d start cnt cl u : ℕ) (wl wr : Finset ℕ)
      (hk : k < nodes.length)
      (hcnt0 : (nodes.getD k default).count = 0)
      (hlc : (nodes.getD k default).leftChild = u)
      (hku : k < u)
      (hclpos : 0 < cl) (hcllt : cl < cnt)
      (hbound : ∀ p, start ≤ p → p < start + cnt →
        AabbLe (primAabb prims (inds.getD p 0)) (nodes.getD k default).aabb)
      (hl : Tree cfg nodes inds prims u (d + 1) start cl wl)
      (hr : Tree cfg nodes inds prims (u + 1) (d + 1) (start + cl) (cnt - cl) wr)
      (hdisj : Disjoint wl wr) (hkl : k ∉ wl) (hkr : k ∉ wr) :
      Tree cfg nodes inds prims k d start cnt (insert k (wl ∪ wr))

/-- A subtree's positions window lies inside the index array. -/
theorem Tree.len_le {cfg nodes inds prims k d start cnt w}
    (t : Tree cfg nodes inds prims k d start cnt w) : start + cnt ≤ inds.length := by
  induction t with
  | leaf k d start cnt hk hcnt hlc hpos hlen hvalid hbound hreason => exact hlen
  | internal k d start cnt cl u wl wr hk hcnt0 hlc hku hclpos hcllt hbound hl hr
      hdisj hkl hkr ihl ihr =>
    have := ihr
    omega

/-- A subtree's position count is positive. -/
theorem Tree.cnt_pos {cfg nodes inds prims k d start cnt w}
    (t : Tree cfg nodes inds prims k d start cnt w) : 0 < cnt := by
  induction t with
  | leaf k d start cnt hk hcnt hlc hpos hlen hvalid hbound hreason => exact hpos
  | internal k d start cnt cl u wl wr hk hcnt0 hlc hku hclpos hcllt hbound hl hr
      hdisj hkl hkr ihl ihr => omega

/-- Transport a subtree to new arrays that agree pointwise on its node set
and its positions window. -/
theorem Tree.transport {cfg nodes inds prims k d start cnt w}
    (t : Tree cfg nodes inds prims k d start cnt w)
    (nodes' : List BvhNode) (inds' : List ℕ)
    (hnlen : nodes'.length = nodes.length) (hilen : inds'.length = inds.length)
    (hn : ∀ j ∈ w, nodes'.getD j default = nodes.getD j default)
    (hi : ∀ p, start ≤ p → p < start + cnt → inds'.getD p 0 = inds.getD p 0) :
    Tree cfg nodes' inds' prims k d start cnt w := by
  induction t with
  | leaf k d start cnt hk hcnt hlc hpos hlen hvalid hbound hreason =>
    have hk' := hn k (Finset.mem_singleton_self k)
    refine Tree.leaf k d start cnt (by omega) (by rw [hk', hcnt]) (by rw [hk', hlc])
      hpos (by omega) ?_ ?_ ?_
    · intro p h1 h2
      rw [hi p h1 h2]
      exact hvalid p h1 h2
    · intro p h1 h2
      rw [hi p h1 h2, hk']
      exact hbound p h1 h2
    · rcases hreason with h | h | h
      · exact Or.inl h
      · exact Or.inr (Or.inl h)
      · refine Or.inr (Or.inr ?_)
        unfold NoBeneficialSplit at h ⊢
        rw [noBeneficialSplitB_congr cfg nodes nodes' inds inds' prims k hk' ?_]
        · exact h
        · intro i hic
          rw [hcnt] at hic
          rw [hlc]
          exact hi (start + i) (by omega) (by omega)
  | internal k d start cnt cl u wl wr hk hcnt0 hlc hku hclpos hcllt hbound hl hr
      hdisj hkl hkr ihl ihr =>
    have hkmem : k ∈ insert k (wl ∪ wr) := Finset.mem_insert_self k _
    have hk' := hn k hkmem
    refine Tree.internal k d start cnt cl u wl wr (by omega) (by rw [hk', hcnt0])
      (by rw [hk', hlc]) hku hclpos hcllt ?_ ?_ ?_ hdisj hkl hkr
    · intro p h1 h2
      rw [hi p h1 h2, hk']
      exact hbound p h1 h2
    · refine ihl (fun j hj => hn j (Finset.mem_insert_of_mem (Finset.mem_union_left _ hj)))
        (fun p h1 h2 => hi p h1 (by omega))
    · refine ihr (fun j hj => hn j (Finset.mem_insert_of_mem (Finset.mem_union_right _ hj)))
        (fun p h1 h2 => hi p (by omega) (by omega))

/-! ## Traversal equals brute force over a well-formed subtree -/

/-- If a node's box misses the ray, no primitive below it hits (using the
`Bounded` contract `H1`: a hitting primitive's own box passes the slab
test). -/
theorem seg_none_of_box_miss (bvh : Bvh) (prims : List Prim) (r : Ray)
    (nd : BvhNode) (start cnt : ℕ)
    (hbound : ∀ p, start ≤ p → p < start + cnt →
      AabbLe (primAabb prims (bvh.indices.getD p 0)) nd.aabb)
    (H1 : ∀ i h', (prims.getD i default).intersect r = some h' →
      (prims.getD i default).aabb.intersectAny r = true)
    (hbox : nd.aabb.intersectAny r = false) :
    ∀ p, start ≤ p → p < start + cnt →
      (prims.getD (bvh.indices.getD p 0) default).intersect r = none := by
  intro p h1 h2
  cases hcase : (prims.getD (bvh.indices.getD p 0) default).intersect r with
  | none => rfl
  | some h' =>
    exfalso
    have hb := H1 _ _ hcase
    have hmono := intersectAny_mono (hbound p h1 h2) r (by
      unfold primAabb at hbound ⊢
      exact hb)
    rw [hmono] at hbox
    cases hbox

/-- Over a well-formed subtree, `intersect_recursive` returns `none` exactly
when no primitive of the subtree hits, and otherwise a genuine
minimal-distance hit with its owning primitive index. -/
theorem tree_intersect_spec (cfg : BvhConfig) (bvh : Bvh) (prims : List Prim) (r : Ray)
    {k d start cnt : ℕ} {w : Finset ℕ}
    (t : Tree cfg bvh.nodes bvh.indices prims k d start cnt w)
    (H1 : ∀ i h', (prims.getD i default).intersect r = some h' →
      (prims.getD i default).aabb.intersectAny r = true)
    (H2 : ∀ i h', (prims.getD i default).intersect r = some h' →
      h'.distance < maxValue) :
    ∀ fuel, cnt ≤ fuel →
      (bvh.intersectRec prims r fuel k = none ↔
        ∀ p, start ≤ p → p < start + cnt →
          (prims.getD (bvh.indices.getD p 0) default).intersect r = none) ∧
      (∀ i h, bvh.intersectRec prims r fuel k = some (i, h) →
        (∃ p, start ≤ p ∧ p < start + cnt ∧ bvh.indices.getD p 0 = i ∧
          (prims.getD i default).intersect r = some h) ∧
        (∀ p, start ≤ p → p < start + cnt → ∀ h',
          (prims.getD (bvh.indices.getD p 0) default).intersect r = some h' →
          h.distance ≤ h'.distance)) := by
  induction t with
  | leaf k d start cnt hk hcnt hlc hpos hlen hvalid hbound hreason =>
    intro fuel hfuel
    obtain ⟨fuel', rfl⟩ : ∃ fuel', fuel = fuel' + 1 := ⟨fuel - 1, by omega⟩
    simp only [Bvh.intersectRec]
    rw [if_neg (not_le.mpr hk)]
    by_cases hbox : (bvh.nodes.getD k default).aabb.intersectAny r = false
    · rw [if_pos hbox]
      have hnone := seg_none_of_box_miss bvh prims r (bvh.nodes.getD k default)
        start cnt hbound H1 hbox
      constructor
      · exact ⟨fun _ => hnone, fun _ => rfl⟩
      · intro i h hres
        cases hres
    · rw [if_neg hbox, if_pos (by rw [hcnt]; exact hpos), hlc, hcnt]
      have hmax : ∀ x, x < cnt → ∀ h', hitAt bvh prims r start x = some h' →
          h'.distance < maxValue := by
        intro x hx h' hh'
        exact H2 _ _ hh'
      obtain ⟨hiff, hsome⟩ := leafScan_spec bvh prims r start cnt hmax
      constructor
      · rw [hiff]
        constructor
        · intro hall p h1 h2
          have := hall (p - start) (by omega)
          unfold hitAt at this
          rwa [Nat.add_sub_cancel' h1] at this
        · intro hall x hx
          unfold hitAt
          exact hall (start + x) (by omega) (by omega)
      · intro i h hres
        obtain ⟨⟨x, hx, hix, hhit⟩, hmin⟩ := hsome i h hres
        constructor
        · refine ⟨start + x, by omega, by omega, hix, ?_⟩
          unfold hitAt at hhit
          rwa [hix] at hhit
        · intro p h1 h2 h' hh'
          have := hmin (p - start) (by omega) h'
          unfold hitAt at this
          rw [Nat.add_sub_cancel' h1] at this
          exact this hh'
  | internal k d start cnt cl u wl wr hk hcnt0 hlc hku hclpos hcllt hbound hl hr
      hdisj hkl hkr ihl ihr =>
    intro fuel hfuel
    have hcnt2 : 2 ≤ cnt := by
      have := Tree.cnt_pos hr
      omega
    obtain ⟨fuel', rfl⟩ : ∃ fuel', fuel = fuel' + 1 := ⟨fuel - 1, by omega⟩
    obtain ⟨iffL, someL⟩ := ihl fuel' (by omega)
    obtain ⟨iffR, someR⟩ := ihr fuel' (by
      have := Tree.cnt_pos hl
      omega)
    have hsum : start + cl + (cnt - cl) = start + cnt := by omega
    simp only [Bvh.intersectRec]
    rw [if_neg (not_le.mpr hk)]
    by_cases hbox : (bvh.nodes.getD k default).aabb.intersectAny r = false
    · rw [if_pos hbox]
      have hnone := seg_none_of_box_miss bvh prims r (bvh.nodes.getD k default)
        start cnt hbound H1 hbox
      constructor
      · exact ⟨fun _ => hnone, fun _ => rfl⟩
      · intro i h hres
        cases hres
    · rw [if_neg hbox, if_neg (by rw [hcnt0]; exact lt_irrefl 0), hlc]
      cases hresL : bvh.intersectRec prims r fuel' u with
      | none =>
        cases hresR : bvh.intersectRec prims r fuel' (u + 1) with
        | none =>
          constructor
          · constructor
            · intro _ p h1 h2
              by_cases hp : p < start + cl
              · exact (iffL.mp hresL) p h1 hp
              · exact (iffR.mp hresR) p (by omega) (by omega)
            · intro _
              rfl
          · intro i h hres
            cases hres
        | some pr =>
          obtain ⟨ri, rhit⟩ := pr
          obtain ⟨⟨q, hq1, hq2, hqi, hqhit⟩, hminR⟩ := someR ri rhit hresR
          constructor
          · constructor
            · intro hres
              cases hres
            · intro hall
              exfalso
              have := hall q (by omega) (by omega)
              rw [hqi, hqhit] at this
              cases this
          · intro i h hres
            obtain ⟨hi1, hi2⟩ := Prod.mk.injEq .. ▸ Option.some_inj.mp hres
            subst hi1
            subst hi2
            constructor
            · exact ⟨q, by omega, by omega, hqi, hqhit⟩
            · intro p' h1 h2 h' hh'
              by_cases hp' : p' < start + cl
              · rw [(iffL.mp hresL) p' h1 hp'] at hh'
                cases hh'
              · exact hminR p' (by omega) (by omega) h' hh'
      | some pl =>
        obtain ⟨li, lhit⟩ := pl
        obtain ⟨⟨p, hp1, hp2, hpi, hphit⟩, hminL⟩ := someL li lhit hresL
        cases hresR : bvh.intersectRec prims r fuel' (u + 1) with
        | none =>
          constructor
          · constructor
            · intro hres
              cases hres
            · intro hall
              exfalso
              have := hall p (by omega) (by omega)
              rw [hpi, hphit] at this
              cases this
          · intro i h hres
            obtain ⟨hi1, hi2⟩ := Prod.mk.injEq .. ▸ Option.some_inj.mp hres
            subst hi1
            subst hi2
            constructor
            · exact ⟨p, by omega, by omega, hpi, hphit⟩
            · intro p' h1 h2 h' hh'
              by_cases hp' : p' < start + cl
              · exact hminL p' h1 hp' h' hh'
              · rw [(iffR.mp hresR) p' (by omega) (by omega)] at hh'
                cases hh'
        | some pr =>
          obtain ⟨ri, rhit⟩ := pr
          obtain ⟨⟨q, hq1, hq2, hqi, hqhit⟩, hminR⟩ := someR ri rhit hresR
          dsimp only
          by_cases hcmp : lhit.distance ≤ rhit.distance
          · rw [if_pos hcmp]
            constructor
            · constructor
              · intro hres
                cases hres
              · intro hall
                exfalso
                have := hall p (by omega) (by omega)
                rw [hpi, hphit] at this
                cases this
            · intro i h hres
              obtain ⟨hi1, hi2⟩ := Prod.mk.injEq .. ▸ Option.some_inj.mp hres
              subst hi1
              subst hi2
              constructor
              · exact ⟨p, by omega, by omega, hpi, hphit⟩
              · intro p' h1 h2 h' hh'
                by_cases hp' : p' < start + cl
                · exact hminL p' h1 hp' h' hh'
                · exact le_trans hcmp (hminR p' (by omega) (by omega) h' hh')
          · rw [if_neg hcmp]
            push_neg at hcmp
            constructor
            · constructor
              · intro hres
                cases hres
              · intro hall
                exfalso
                have := hall p (by omega) (by omega)
                rw [hpi, hphit] at this
                cases this
            · intro i h hres
              obtain ⟨hi1, hi2⟩ := Prod.mk.injEq .. ▸ Option.some_inj.mp hres
              subst hi1
              subst hi2
              constructor
              · exact ⟨q, by omega, by omega, hqi, hqhit⟩
              · intro p' h1 h2 h' hh'
                by_cases hp' : p' < start + cl
                · exact le_trans (le_of_lt hcmp) (hminL p' h1 hp' h' hh')
                · exact hminR p' (by omega) (by omega) h' hh'

/-! ## Swap lemmas for the partition loop -/

theorem getD_set_eq (l : List ℕ) (i a : ℕ) (h : i < l.length) :
    (l.set i a).getD i 0 = a := by
  rw [List.getD_eq_getElem _ _ (by rw [List.length_set]; exact h)]
  exact List.getElem_set_self _

theorem getD_set_ne (l : List ℕ) (i a p : ℕ) (h : p ≠ i) :
    (l.set i a).getD p 0 = l.getD p 0 := by
  by_cases hp : p < l.length
  · rw [List.getD_eq_getElem _ _ (by rw [List.length_set]; exact hp),
      List.getD_eq_getElem _ _ hp]
    exact List.getElem_set_ne (fun he => h he.symm) _
  · rw [List.getD_eq_default _ _ (by rw [List.length_set]; omega),
      List.getD_eq_default _ _ (by omega)]

theorem listSwap_length (l : List ℕ) (i j : ℕ) :
    (listSwap l i j).length = l.length := by
  unfold listSwap
  rw [List.length_set, List.length_set]

theorem listSwap_getD (l : List ℕ) (i j p : ℕ) (hi : i < l.length) (hj : j < l.length) :
    (listSwap l i j).getD p 0 =
      if p = j then l.getD i 0 else if p = i then l.getD j 0 else l.getD p 0 := by
  unfold listSwap
  by_cases hpj : p = j
  · subst hpj
    rw [if_pos rfl]
    exact getD_set_eq _ _ _ (by rw [List.length_set]; exact hj)
  · rw [if_neg hpj, getD_set_ne _ _ _ _ hpj]
    by_cases hpi : p = i
    · subst hpi
      rw [if_pos rfl]
      exact getD_set_eq _ _ _ hi
    · rw [if_neg hpi, getD_set_ne _ _ _ _ hpi]

theorem set_getD_self (l : List ℕ) (i : ℕ) (h : i < l.length) :
    l.set i (l.getD i 0) = l := by
  apply List.ext_getElem
  · rw [List.length_set]
  · intro p h1 h2
    by_cases hp : p = i
    · subst hp
      rw [List.getElem_set_self _, List.getD_eq_getElem _ _ h2]
    · exact List.getElem_set_ne (fun he => hp he.symm) _

theorem set_set_decomp (l : List ℕ) (i j a b : ℕ) (hij : i < j) (hj : j < l.length) :
    (l.set i a).set j b =
      l.take i ++ a :: ((l.drop (i + 1)).take (j - (i + 1))) ++ b :: l.drop (j + 1) := by
  have hi : i < l.length := by omega
  rw [List.set_eq_take_cons_drop b (by rw [List.length_set]; exact hj)]
  rw [List.drop_set_of_lt _ _ (by omega)]
  rw [List.set_take]
  rw [List.set_eq_take_cons_drop a (by rw [List.length_take]; omega)]
  rw [List.take_take, min_eq_left (by omega : i ≤ j), List.drop_take]

theorem listSwap_perm (l : List ℕ) (i j : ℕ) (hij : i ≤ j) (hj : j < l.length) :
    (listSwap l i j).Perm l := by
  rcases lt_or_eq_of_le hij with hlt | heq
  · unfold listSwap
    have hi : i < l.length := by omega
    have hdecomp := set_set_decomp l i j (l.getD j 0) (l.getD i 0) hlt hj
    have hdecomp' : l =
        l.take i ++ l.getD i 0 :: ((l.drop (i + 1)).take (j - (i + 1))) ++
          l.getD j 0 :: l.drop (j + 1) := by
      have h0 := set_set_decomp l i j (l.getD i 0) (l.getD j 0) hlt hj
      rw [set_getD_self l i hi, set_getD_self l j hj] at h0
      exact h0
    rw [hdecomp]
    conv_rhs => rw [hdecomp']
    simp only [List.append_assoc, List.cons_append]
    apply List.Perm.append_left
    exact (List.Perm.cons _ List.perm_middle).trans
      ((List.Perm.swap _ _ _).trans (List.Perm.cons _ List.perm_middle.symm))
  · subst heq
    unfold listSwap
    rw [List.set_set, set_getD_self l i hj]

/-- Swapping two in-window positions is a window permutation. -/
theorem segPerm_listSwap (l : List ℕ) (start cnt i j : ℕ)
    (h1 : start ≤ i) (hij : i ≤ j) (h2 : j < start + cnt)
    (hlen : start + cnt ≤ l.length) : SegPerm l (listSwap l i j) start cnt := by
  have hi : i < l.length := by omega
  have hj : j < l.length := by omega
  refine ⟨listSwap_length l i j, ?_, ?_⟩
  · intro p hp
    rw [listSwap_getD l i j p hi hj, if_neg (by omega), if_neg (by omega)]
  · have hw : wlist (listSwap l i j) start cnt =
        listSwap (wlist l start cnt) (i - start) (j - start) := by
      apply List.ext_getElem
      · rw [wlist_length _ _ _ (by rw [listSwap_length]; exact hlen),
          listSwap_length, wlist_length _ _ _ hlen]
      · intro p hp1 hp2
        have hpc : p < cnt := by
          have h := hp1
          rwa [wlist_length _ _ _ (by rw [listSwap_length]; exact hlen)] at h
        have hwi : i - start < (wlist l start cnt).length := by
          rw [wlist_length _ _ _ hlen]; omega
        have hwj : j - start < (wlist l start cnt).length := by
          rw [wlist_length _ _ _ hlen]; omega
        have e1 : (wlist (listSwap l i j) start cnt).getD p 0 =
            (listSwap l i j).getD (start + p) 0 :=
          wlist_getElem _ start cnt p hpc (by rw [listSwap_length]; exact hlen)
        have e2 : (listSwap (wlist l start cnt) (i - start) (j - start)).getD p 0 =
            if p = j - start then (wlist l start cnt).getD (i - start) 0
            else if p = i - start then (wlist l start cnt).getD (j - start) 0
            else (wlist l start cnt).getD p 0 :=
          listSwap_getD _ (i - start) (j - start) p hwi hwj
        rw [List.getD_eq_getElem _ _ hp1] at e1
        rw [List.getD_eq_getElem _ _ hp2] at e2
        rw [e1, e2, listSwap_getD l i j (start + p) hi hj]
        rw [wlist_getElem _ start cnt (i - start) (by omega) hlen,
          wlist_getElem _ start cnt (j - start) (by omega) hlen,
          wlist_getElem _ start cnt p hpc hlen]
        rw [Nat.add_sub_cancel' (by omega : start ≤ i),
          Nat.add_sub_cancel' (by omega : start ≤ j)]
        by_cases hpj : start + p = j
        · have hpj' : p = j - start := by omega
          rw [if_pos hpj, if_pos hpj']
        · have hpj' : ¬ p = j - start := by omega
          rw [if_neg hpj, if_neg hpj']
          by_cases hpi : start + p = i
          · have hpi' : p = i - start := by omega
            rw [if_pos hpi, if_pos hpi']
          · have hpi' : ¬ p = i - start := by omega
            rw [if_neg hpi, if_neg hpi']
    rw [hw]
    exact listSwap_perm (wlist l start cnt) (i - start) (j - start)
      (by omega) (by rw [wlist_length _ _ _ hlen]; omega)

/-! ## The partition loop -/

/-- The partition predicate: the centroid of the shape referenced at
position `p` lies strictly left of the split position. -/
def centrLt (prims : List Prim) (axis : Fin 3) (position : ℚ)
    (inds : List ℕ) (p : ℕ) : Prop :=
  (primAabb prims (inds.getD p 0)).centre axis < position

instance (prims : List Prim) (axis : Fin 3) (position : ℚ)
    (inds : List ℕ) (p : ℕ) : Decidable (centrLt prims axis position inds p) :=
  inferInstanceAs (Decidable (_ < _))

theorem partitionLoop_eq (prims : List Prim) (axis : Fin 3) (position : ℚ)
    (inds : List ℕ) (i j : ℕ) :
    partitionLoop prims axis position inds i j =
      if i ≤ j then
        if centrLt prims axis position inds i then
          partitionLoop prims axis position inds (i + 1) j
        else if j = 0 then (listSwap inds i j, none)
        else partitionLoop prims axis position (listSwap inds i j) i (j - 1)
      else (inds, some i) := by
  have key : ∀ f, j + 1 - i ≤ f →
      partitionLoop prims axis position inds i j =
        partitionLoopAux prims axis position f inds i j := by
    intro f hf
    exact partitionLoopAux_fuel prims axis position (j + 1 - i) f inds i j le_rfl hf
  by_cases hij : i ≤ j
  · rw [key (j - i + 1) (by omega), partitionLoopAux, if_pos hij, if_pos hij]
    by_cases hc : centrLt prims axis position inds i
    · rw [if_pos hc,
        if_pos (show (primAabb prims (inds.getD i 0)).centre axis < position from hc)]
      exact partitionLoopAux_fuel prims axis position (j - i) (j + 1 - (i + 1))
        inds (i + 1) j (by omega) le_rfl
    · rw [if_neg hc,
        if_neg (show ¬ (primAabb prims (inds.getD i 0)).centre axis < position from hc)]
      dsimp only
      by_cases hj0 : j = 0
      · rw [if_pos hj0, if_pos hj0]
      · rw [if_neg hj0, if_neg hj0]
        exact partitionLoopAux_fuel prims axis position (j - i) (j - 1 + 1 - i)
          (listSwap inds i j) i (j - 1) (by omega) le_rfl
  · rw [key 0 (by omega), if_neg hij]
    rfl

theorem partitionLoop_exit (prims : List Prim) (axis : Fin 3) (position : ℚ)
    (inds : List ℕ) (i j : ℕ) (h : ¬ i ≤ j) :
    partitionLoop prims axis position inds i j = (inds, some i) := by
  unfold partitionLoop
  rw [show j + 1 - i = 0 from by omega]
  rfl

/-- Full specification of the Hoare partition loop: the index array is
permuted inside the window only, and on normal exit `some i'` the window
splits at `i'` into a strictly-left prefix and a not-strictly-left suffix;
on the `j == 0` abort the whole window is not-strictly-left. -/
theorem partitionLoop_spec (prims : List Prim) (axis : Fin 3) (position : ℚ)
    (start cnt : ℕ) :
    ∀ (n : ℕ) (inds : List ℕ) (i j : ℕ),
      j + 1 - i ≤ n →
      start ≤ i → i ≤ j + 1 → j < start + cnt → start + cnt ≤ inds.length →
      (∀ p, start ≤ p → p < i → centrLt prims axis position inds p) →
      (∀ p, j < p → p < start + cnt → ¬ centrLt prims axis position inds p) →
      SegPerm inds (partitionLoop prims axis position inds i j).1 start cnt ∧
      (∀ i', (partitionLoop prims axis position inds i j).2 = some i' →
        i ≤ i' ∧ i' ≤ start + cnt ∧
        (∀ p, start ≤ p → p < i' →
          centrLt prims axis position (partitionLoop prims axis position inds i j).1 p) ∧
        (∀ p, i' ≤ p → p < start + cnt →
          ¬ centrLt prims axis position (partitionLoop prims axis position inds i j).1 p)) ∧
      ((partitionLoop prims axis position inds i j).2 = none →
        ∀ p, start ≤ p → p < start + cnt →
          ¬ centrLt prims axis position (partitionLoop prims axis position inds i j).1 p) := by
  intro n
  induction n with
  | zero =>
    intro inds i j hfuel h1 h2 h3 h4 hP1 hP2
    have hij : ¬ i ≤ j := by omega
    rw [partitionLoop_exit prims axis position inds i j hij]
    refine ⟨segPerm_refl _ _ _, ?_, ?_⟩
    · intro i' hi'
      have hii : i' = i := by
        exact (Option.some_inj.mp hi').symm
      subst hii
      exact ⟨le_rfl, by omega, fun p hp1 hp2 => hP1 p hp1 hp2,
        fun p hp1 hp2 => hP2 p (by omega) hp2⟩
    · intro hnone
      exact absurd hnone (by simp)
  | succ n ih =>
    intro inds i j hfuel h1 h2 h3 h4 hP1 hP2
    by_cases hij : i ≤ j
    · rw [partitionLoop_eq, if_pos hij]
      by_cases hc : centrLt prims axis position inds i
      · rw [if_pos hc]
        have hrec := ih inds (i + 1) j (by omega) (by omega) (by omega) h3 h4
          (fun p hp1 hp2 => by
            rcases Nat.lt_succ_iff_lt_or_eq.mp hp2 with h | h
            · exact hP1 p hp1 h
            · subst h; exact hc)
          hP2
        refine ⟨hrec.1, ?_, hrec.2.2⟩
        intro i' hi'
        obtain ⟨ha, hb, hcc, hd⟩ := hrec.2.1 i' hi'
        exact ⟨by omega, hb, hcc, hd⟩
      · rw [if_neg hc]
        have hswap : SegPerm inds (listSwap inds i j) start cnt :=
          segPerm_listSwap inds start cnt i j h1 hij h3 h4
        have hlen' : start + cnt ≤ (listSwap inds i j).length := by
          rw [listSwap_length]; exact h4
        have hgd : ∀ p, (listSwap inds i j).getD p 0 =
            if p = j then inds.getD i 0 else if p = i then inds.getD j 0
            else inds.getD p 0 :=
          fun p => listSwap_getD inds i j p (by omega) (by omega)
        by_cases hj0 : j = 0
        · rw [if_pos hj0]
          refine ⟨hswap, ?_, ?_⟩
          · intro i' hi'
            exact absurd hi' (by simp)
          · intro _ p hp1 hp2
            have hi0 : i = 0 := by omega
            have hstart0 : start = 0 := by omega
            unfold centrLt
            rw [hgd p]
            by_cases hpj : p = j
            · rw [if_pos hpj]
              exact hc
            · rw [if_neg hpj, if_neg (by omega)]
              exact hP2 p (by omega) hp2
        · rw [if_neg hj0]
          have hrec := ih (listSwap inds i j) i (j - 1) (by omega) h1 (by omega)
            (by omega) hlen'
            (fun p hp1 hp2 => by
              unfold centrLt
              rw [hgd p, if_neg (by omega), if_neg (by omega)]
              exact hP1 p hp1 hp2)
            (fun p hp1 hp2 => by
              unfold centrLt
              rw [hgd p]
              by_cases hpj : p = j
              · rw [if_pos hpj]
                exact hc
              · rw [if_neg hpj, if_neg (by omega)]
                exact hP2 p (by omega) hp2)
          exact ⟨segPerm_trans hswap hrec.1, hrec.2.1, hrec.2.2⟩
    · rw [partitionLoop_exit prims axis position inds i j hij]
      refine ⟨segPerm_refl _ _ _, ?_, ?_⟩
      · intro i' hi'
        have hii : i' = i := (Option.some_inj.mp hi').symm
        subst hii
        exact ⟨le_rfl, by omega, fun p hp1 hp2 => hP1 p hp1 hp2,
          fun p hp1 hp2 => hP2 p (by omega) hp2⟩
      · intro hnone
        exact absurd hnone (by simp)

/-! ## The SAH search is invariant under window permutation -/

theorem getD_set_at {α : Type} (l : List α) (i : ℕ) (a d : α) (h : i < l.length) :
    (l.set i a).getD i d = a := by
  rw [List.getD_eq_getElem _ _ (by rw [List.length_set]; exact h)]
  exact List.getElem_set_self _

theorem getD_set_other {α : Type} (l : List α) (i p : ℕ) (a d : α) (h : p ≠ i) :
    (l.set i a).getD p d = l.getD p d := by
  by_cases hp : p < l.length
  · rw [List.getD_eq_getElem _ _ (by rw [List.length_set]; exact hp),
      List.getD_eq_getElem _ _ hp]
    exact List.getElem_set_ne (fun he => h he.symm) _
  · rw [List.getD_eq_default _ _ (by rw [List.length_set]; omega),
      List.getD_eq_default _ _ (by omega)]

theorem Aabb.merge_comm (a b : Aabb) : a.merge b = b.merge a := by
  unfold Aabb.merge Aabb.new
  congr 1
  · funext i; exact min_comm _ _
  · funext i; exact max_comm _ _

theorem Aabb.merge_assoc (a b c : Aabb) : (a.merge b).merge c = a.merge (b.merge c) := by
  unfold Aabb.merge Aabb.new
  congr 1
  · funext i; exact min_assoc _ _ _
  · funext i; exact max_assoc _ _ _

theorem bucketUpdate_length (bkts : List (ℕ × Aabb)) (bi : ℕ) (s : Aabb) :
    (bucketUpdate bkts bi s).length = bkts.length := by
  unfold bucketUpdate
  rw [List.length_set]

/-- Two bucket insertions commute (pointwise on the bucket array). -/
theorem bucketUpdate_comm (bkts : List (ℕ × Aabb)) (bi bj : ℕ) (a b : Aabb) :
    bucketUpdate (bucketUpdate bkts bi a) bj b =
      bucketUpdate (bucketUpdate bkts bj b) bi a := by
  by_cases hij : bi = bj
  · subst hij
    by_cases hb : bi < bkts.length
    · unfold bucketUpdate
      rw [getD_set_at _ _ _ _ hb, getD_set_at _ _ _ _ hb]
      dsimp only
      rw [List.set_set, List.set_set]
      have h2 : ¬ (bkts.getD bi (0, Aabb.empty)).1 + 1 + 1 = 1 := by omega
      rw [if_neg h2, if_neg h2]
      by_cases h1 : (bkts.getD bi (0, Aabb.empty)).1 + 1 = 1
      · rw [if_pos h1, if_pos h1, Aabb.merge_comm]
      · rw [if_neg h1, if_neg h1, Aabb.merge_assoc, Aabb.merge_assoc,
          Aabb.merge_comm a b]
    · have hset : ∀ (l : List (ℕ × Aabb)) (v : ℕ × Aabb), l.length = bkts.length →
          l.set bi v = l := by
        intro l v hl
        exact List.set_eq_of_length_le (by omega)
      have e1 : ∀ s, bucketUpdate bkts bi s = bkts := by
        intro s
        unfold bucketUpdate
        exact hset bkts _ rfl
      rw [e1 a, e1 b]
      exact (e1 a).symm
  · unfold bucketUpdate
    rw [getD_set_other _ _ _ _ _ hij, getD_set_other _ _ _ _ _ (fun he => hij he.symm)]
    dsimp only
    exact List.set_comm _ _ _ hij

theorem range_map_getD (inds : List ℕ) (lc cnt : ℕ) (hlen : lc + cnt ≤ inds.length) :
    (List.range cnt).map (fun i => inds.getD (lc + i) 0) = wlist inds lc cnt := by
  apply List.ext_getElem
  · rw [List.length_map, List.length_range, wlist_length _ _ _ hlen]
  · intro p h1 h2
    rw [List.getElem_map, List.getElem_range]
    have hpc : p < cnt := by rwa [wlist_length _ _ _ hlen] at h2
    have := wlist_getElem inds lc cnt p hpc hlen
    rw [List.getD_eq_getElem _ _ h2] at this
    exact this.symm

/-- `fillBuckets` as a fold over the window of the index array. -/
theorem fillBuckets_eq_fold (sahBuckets : ℕ) (inds : List ℕ) (prims : List Prim)
    (node : BvhNode) (axis : Fin 3) (extent : ℚ)
    (hlen : node.leftChild + node.count ≤ inds.length) :
    fillBuckets sahBuckets inds prims node axis extent =
      (wlist inds node.leftChild node.count).foldl (fun bkts ix =>
        bucketUpdate bkts
          (bucketIndex sahBuckets (node.aabb.mins axis) extent
            ((primAabb prims ix).centre axis))
          (primAabb prims ix))
        (List.replicate sahBuckets (0, Aabb.empty)) := by
  rw [← range_map_getD inds node.leftChild node.count hlen, List.foldl_map]
  rfl

/-- `fillBuckets` is unchanged by a permutation of the node's window. -/
theorem fillBuckets_segPerm (sahBuckets : ℕ) (inds inds' : List ℕ)
    (prims : List Prim) (node : BvhNode) (axis : Fin 3) (extent : ℚ)
    (hperm : SegPerm inds inds' node.leftChild node.count)
    (hlen : node.leftChild + node.count ≤ inds.length) :
    fillBuckets sahBuckets inds' prims node axis extent =
      fillBuckets sahBuckets inds prims node axis extent := by
  have hlen' : node.leftChild + node.count ≤ inds'.length := by
    rw [hperm.1]; exact hlen
  rw [fillBuckets_eq_fold sahBuckets inds prims node axis extent hlen,
    fillBuckets_eq_fold sahBuckets inds' prims node axis extent hlen']
  exact List.Perm.foldl_eq' hperm.2.2
    (fun x _ y _ z => bucketUpdate_comm z _ _ _ _) _

/-- `findBestSplit` is unchanged by a permutation of the node's window. -/
theorem findBestSplit_segPerm (cfg : BvhConfig) (nodes : List BvhNode)
    (inds inds' : List ℕ) (prims : List Prim) (k : ℕ)
    (hperm : SegPerm inds inds' (nodes.getD k default).leftChild
      (nodes.getD k default).count)
    (hlen : (nodes.getD k default).leftChild + (nodes.getD k default).count ≤
      inds.length) :
    findBestSplit cfg nodes inds' prims k = findBestSplit cfg nodes inds prims k := by
  have hfb : ∀ axis extent, fillBuckets cfg.sahBuckets inds' prims
      (nodes.getD k default) axis extent =
      fillBuckets cfg.sahBuckets inds prims (nodes.getD k default) axis extent :=
    fun axis extent =>
      fillBuckets_segPerm cfg.sahBuckets inds inds' prims _ axis extent hperm hlen
  simp only [findBestSplit, hfb]

/-- A window with no strictly-left centroid has `countLt` zero. -/
theorem countLt_eq_zero (prims : List Prim) (inds : List ℕ) (axis : Fin 3)
    (position : ℚ) (start cnt : ℕ)
    (h : ∀ p, start ≤ p → p < start + cnt → ¬ centrLt prims axis position inds p) :
    countLt prims inds axis position start cnt = 0 := by
  unfold countLt
  rw [List.length_eq_zero]
  rw [List.filter_eq_nil_iff]
  intro p hp
  have hpc := List.mem_range.mp hp
  rw [decide_eq_true_eq]
  exact h (start + p) (by omega) (by omega)

/-- A window with every centroid strictly left has full `countLt`. -/
theorem countLt_eq_full (prims : List Prim) (inds : List ℕ) (axis : Fin 3)
    (position : ℚ) (start cnt : ℕ)
    (h : ∀ p, start ≤ p → p < start + cnt → centrLt prims axis position inds p) :
    countLt prims inds axis position start cnt = cnt := by
  unfold countLt
  rw [List.filter_eq_self.mpr, List.length_range]
  intro p hp
  have hpc := List.mem_range.mp hp
  rw [decide_eq_true_eq]
  exact h (start + p) (by omega) (by omega)

/-! ## `updateBounds` frame and bounding lemmas -/

theorem updateBounds_indices (prims : List Prim) (st : BuildState) (k : ℕ) :
    (updateBounds prims st k).indices = st.indices := rfl

theorem updateBounds_nodesUsed (prims : List Prim) (st : BuildState) (k : ℕ) :
    (updateBounds prims st k).nodesUsed = st.nodesUsed := rfl

theorem updateBounds_nodes_length (prims : List Prim) (st : BuildState) (k : ℕ) :
    (updateBounds prims st k).nodes.length = st.nodes.length := by
  unfold updateBounds
  exact List.length_set ..

theorem updateBounds_node_other (prims : List Prim) (st : BuildState) (k m : ℕ)
    (h : m ≠ k) :
    (updateBounds prims st k).nodes.getD m default = st.nodes.getD m default := by
  unfold updateBounds
  exact getD_set_other _ _ _ _ _ h

theorem updateBounds_node_self (prims : List Prim) (st : BuildState) (k : ℕ)
    (hk : k < st.nodes.length) :
    (updateBounds prims st k).nodes.getD k default =
      { st.nodes.getD k default with
        aabb := (List.range (st.nodes.getD k default).count).foldl
          (fun acc i => acc.merge (primAabb prims
            (st.indices.getD ((st.nodes.getD k default).leftChild + i) 0)))
          (st.nodes.getD k default).aabb } := by
  unfold updateBounds
  exact getD_set_at _ _ _ _ hk

theorem updateBounds_count (prims : List Prim) (st : BuildState) (k : ℕ) :
    ((updateBounds prims st k).nodes.getD k default).count =
      (st.nodes.getD k default).count := by
  by_cases hk : k < st.nodes.length
  · rw [updateBounds_node_self prims st k hk]
  · unfold updateBounds
    dsimp only
    rw [List.set_eq_of_length_le (by omega)]

theorem updateBounds_leftChild (prims : List Prim) (st : BuildState) (k : ℕ) :
    ((updateBounds prims st k).nodes.getD k default).leftChild =
      (st.nodes.getD k default).leftChild := by
  by_cases hk : k < st.nodes.length
  · rw [updateBounds_node_self prims st k hk]
  · unfold updateBounds
    dsimp only
    rw [List.set_eq_of_length_le (by omega)]

/-- After `updateBounds`, the node's box bounds every primitive referenced
by its window. -/
theorem updateBounds_bound (prims : List Prim) (st : BuildState) (k : ℕ)
    (hk : k < st.nodes.length) (p : ℕ)
    (h1 : (st.nodes.getD k default).leftChild ≤ p)
    (h2 : p < (st.nodes.getD k default).leftChild + (st.nodes.getD k default).count) :
    AabbLe (primAabb prims (st.indices.getD p 0))
      ((updateBounds prims st k).nodes.getD k default).aabb := by
  rw [updateBounds_node_self prims st k hk]
  have hp : p = (st.nodes.getD k default).leftChild +
      (p - (st.nodes.getD k default).leftChild) := by omega
  rw [hp]
  exact aabbLe_mem_foldl_merge
    (fun i => primAabb prims (st.indices.getD ((st.nodes.getD k default).leftChild + i) 0))
    (List.range (st.nodes.getD k default).count) (st.nodes.getD k default).aabb
    (p - (st.nodes.getD k default).leftChild) (List.mem_range.mpr (by omega))

/-! ## Branch equations for `subdivide` -/

theorem subdivide_guard (cfg : BvhConfig) (prims : List Prim) (fuel : ℕ)
    (st : BuildState) (k d : ℕ)
    (hg : (st.nodes.getD k default).count ≤ cfg.maxShapesPerNode ∨ cfg.maxDepth ≤ d) :
    subdivide cfg prims fuel st k d = (st, d) := by
  rw [subdivide.eq_def]
  dsimp only
  rw [if_pos hg]

theorem subdivide_fuel_zero (cfg : BvhConfig) (prims : List Prim)
    (st : BuildState) (k d : ℕ) :
    subdivide cfg prims 0 st k d = (st, d) := by
  rw [subdivide.eq_def]
  dsimp only
  by_cases hg : (st.nodes.getD k default).count ≤ cfg.maxShapesPerNode ∨ cfg.maxDepth ≤ d
  · rw [if_pos hg]
  · rw [if_neg hg]

theorem subdivide_nosplit (cfg : BvhConfig) (prims : List Prim) (fuel : ℕ)
    (st : BuildState) (k d : ℕ)
    (hg : ¬ ((st.nodes.getD k default).count ≤ cfg.maxShapesPerNode ∨ cfg.maxDepth ≤ d))
    (hbs : findBestSplit cfg st.nodes st.indices prims k = none) :
    subdivide cfg prims (fuel + 1) st k d = (st, d) := by
  rw [subdivide.eq_def]
  dsimp only
  rw [if_neg hg, hbs]

theorem subdivide_costly (cfg : BvhConfig) (prims : List Prim) (fuel : ℕ)
    (st : BuildState) (k d : ℕ) (best : SplitCandidate)
    (hg : ¬ ((st.nodes.getD k default).count ≤ cfg.maxShapesPerNode ∨ cfg.maxDepth ≤ d))
    (hbs : findBestSplit cfg st.nodes st.indices prims k = some best)
    (hcost : ((st.nodes.getD k default).count : ℚ) * cfg.intersectCost ≤ best.cost) :
    subdivide cfg prims (fuel + 1) st k d = (st, d) := by
  rw [subdivide.eq_def]
  dsimp only
  rw [if_neg hg, hbs]
  dsimp only
  rw [if_pos hcost]

theorem subdivide_abort (cfg : BvhConfig) (prims : List Prim) (fuel : ℕ)
    (st : BuildState) (k d : ℕ) (best : SplitCandidate)
    (hg : ¬ ((st.nodes.getD k default).count ≤ cfg.maxShapesPerNode ∨ cfg.maxDepth ≤ d))
    (hbs : findBestSplit cfg st.nodes st.indices prims k = some best)
    (hcost : ¬ ((st.nodes.getD k default).count : ℚ) * cfg.intersectCost ≤ best.cost)
    (hpr : (partitionLoop prims best.axis best.position st.indices
      (st.nodes.getD k default).leftChild
      ((st.nodes.getD k default).leftChild + (st.nodes.getD k default).count - 1)).2 =
        none) :
    subdivide cfg prims (fuel + 1) st k d =
      ({ st with indices := (partitionLoop prims best.axis best.position st.indices
        (st.nodes.getD k default).leftChild
        ((st.nodes.getD k default).leftChild + (st.nodes.getD k default).count - 1)).1 },
       d) := by
  rw [subdivide.eq_def]
  dsimp only
  rw [if_neg hg, hbs]
  dsimp only
  rw [if_neg hcost, hpr]

theorem subdivide_degenerate (cfg : BvhConfig) (prims : List Prim) (fuel : ℕ)
    (st : BuildState) (k d : ℕ) (best : SplitCandidate) (i : ℕ)
    (hg : ¬ ((st.nodes.getD k default).count ≤ cfg.maxShapesPerNode ∨ cfg.maxDepth ≤ d))
    (hbs : findBestSplit cfg st.nodes st.indices prims k = some best)
    (hcost : ¬ ((st.nodes.getD k default).count : ℚ) * cfg.intersectCost ≤ best.cost)
    (hpr : (partitionLoop prims best.axis best.position st.indices
      (st.nodes.getD k default).leftChild
      ((st.nodes.getD k default).leftChild + (st.nodes.getD k default).count - 1)).2 =
        some i)
    (hdeg : i - (st.nodes.getD k default).leftChild = 0 ∨
      i - (st.nodes.getD k default).leftChild = (st.nodes.getD k default).count) :
    subdivide cfg prims (fuel + 1) st k d =
      ({ st with indices := (partitionLoop prims best.axis best.position st.indices
        (st.nodes.getD k default).leftChild
        ((st.nodes.getD k default).leftChild + (st.nodes.getD k default).count - 1)).1 },
       d) := by
  rw [subdivide.eq_def]
  dsimp only
  rw [if_neg hg, hbs]
  dsimp only
  rw [if_neg hcost, hpr]
  dsimp only
  rw [if_pos hdeg]

/-- The child-allocation step of `subdivide` (the state transformation of
lines 120–137 given the already-partitioned index array and the split
point `i`). -/
def splitChildren (prims : List Prim) (st : BuildState) (k i : ℕ) : BuildState :=
  let nd := st.nodes.getD k default
  let u := st.nodesUsed
  let leftNode := st.nodes.getD u default
  let rightNode := st.nodes.getD (u + 1) default
  let nodes1 := st.nodes.set u
    { leftNode with leftChild := nd.leftChild, count := i - nd.leftChild }
  let nodes2 := nodes1.set (u + 1)
    { rightNode with leftChild := i, count := nd.count - (i - nd.leftChild) }
  let nodes3 := nodes2.set k { nd with leftChild := u, count := 0 }
  let st2 : BuildState := { st with nodes := nodes3, nodesUsed := u + 2 }
  updateBounds prims (updateBounds prims st2 u) (u + 1)

theorem subdivide_split (cfg : BvhConfig) (prims : List Prim) (fuel : ℕ)
    (st : BuildState) (k d : ℕ) (best : SplitCandidate) (i : ℕ)
    (hg : ¬ ((st.nodes.getD k default).count ≤ cfg.maxShapesPerNode ∨ cfg.maxDepth ≤ d))
    (hbs : findBestSplit cfg st.nodes st.indices prims k = some best)
    (hcost : ¬ ((st.nodes.getD k default).count : ℚ) * cfg.intersectCost ≤ best.cost)
    (hpr : (partitionLoop prims best.axis best.position st.indices
      (st.nodes.getD k default).leftChild
      ((st.nodes.getD k default).leftChild + (st.nodes.getD k default).count - 1)).2 =
        some i)
    (hdeg : ¬ (i - (st.nodes.getD k default).leftChild = 0 ∨
      i - (st.nodes.getD k default).leftChild = (st.nodes.getD k default).count)) :
    subdivide cfg prims (fuel + 1) st k d =
      (let st4 := splitChildren prims
        { st with indices := (partitionLoop prims best.axis best.position st.indices
          (st.nodes.getD k default).leftChild
          ((st.nodes.getD k default).leftChild + (st.nodes.getD k default).count - 1)).1 }
        k i
       let resL := subdivide cfg prims fuel st4 st.nodesUsed (d + 1)
       let resR := subdivide cfg prims fuel resL.1 (st.nodesUsed + 1) (d + 1)
       (resR.1, max resL.2 resR.2)) := by
  rw [subdivide.eq_def]
  dsimp only
  rw [if_neg hg, hbs]
  dsimp only
  rw [if_neg hcost, hpr]
  dsimp only
  rw [if_neg hdeg]
  rfl

theorem splitChildren_indices (prims : List Prim) (st : BuildState) (k i : ℕ) :
    (splitChildren prims st k i).indices = st.indices := rfl

theorem splitChildren_nodesUsed (prims : List Prim) (st : BuildState) (k i : ℕ) :
    (splitChildren prims st k i).nodesUsed = st.nodesUsed + 2 := rfl

theorem splitChildren_length (prims : List Prim) (st : BuildState) (k i : ℕ) :
    (splitChildren prims st k i).nodes.length = st.nodes.length := by
  unfold splitChildren
  dsimp only
  rw [updateBounds_nodes_length, updateBounds_nodes_length]
  dsimp only
  rw [List.length_set, List.length_set, List.length_set]

theorem splitChildren_node_other (prims : List Prim) (st : BuildState) (k i m : ℕ)
    (hmk : m ≠ k) (hmu : m ≠ st.nodesUsed) (hmu1 : m ≠ st.nodesUsed + 1) :
    (splitChildren prims st k i).nodes.getD m default = st.nodes.getD m default := by
  unfold splitChildren
  dsimp only
  rw [updateBounds_node_other _ _ _ _ hmu1, updateBounds_node_other _ _ _ _ hmu]
  dsimp only
  rw [getD_set_other _ _ _ _ _ hmk, getD_set_other _ _ _ _ _ hmu1,
    getD_set_other _ _ _ _ _ hmu]

theorem splitChildren_node_k (prims : List Prim) (st : BuildState) (k i : ℕ)
    (hk : k < st.nodes.length) (hku : k < st.nodesUsed) :
    (splitChildren prims st k i).nodes.getD k default =
      { st.nodes.getD k default with leftChild := st.nodesUsed, count := 0 } := by
  unfold splitChildren
  dsimp only
  rw [updateBounds_node_other _ _ _ _ (by omega), updateBounds_node_other _ _ _ _ (by omega)]
  dsimp only
  rw [getD_set_at _ _ _ _ (by rw [List.length_set, List.length_set]; exact hk)]

theorem splitChildren_left_count (prims : List Prim) (st : BuildState) (k i : ℕ)
    (hu : st.nodesUsed < st.nodes.length) (hku : k < st.nodesUsed) :
    ((splitChildren prims st k i).nodes.getD st.nodesUsed default).count =
      i - (st.nodes.getD k default).leftChild := by
  unfold splitChildren
  dsimp only
  rw [updateBounds_node_other _ _ _ _ (by omega), updateBounds_count]
  dsimp only
  rw [getD_set_other _ _ _ _ _ (by omega), getD_set_other _ _ _ _ _ (by omega),
    getD_set_at _ _ _ _ hu]

theorem splitChildren_left_lc (prims : List Prim) (st : BuildState) (k i : ℕ)
    (hu : st.nodesUsed < st.nodes.length) (hku : k < st.nodesUsed) :
    ((splitChildren prims st k i).nodes.getD st.nodesUsed default).leftChild =
      (st.nodes.getD k default).leftChild := by
  unfold splitChildren
  dsimp only
  rw [updateBounds_node_other _ _ _ _ (by omega), updateBounds_leftChild]
  dsimp only
  rw [getD_set_other _ _ _ _ _ (by omega), getD_set_other _ _ _ _ _ (by omega),
    getD_set_at _ _ _ _ hu]

theorem splitChildren_right_count (prims : List Prim) (st : BuildState) (k i : ℕ)
    (hu1 : st.nodesUsed + 1 < st.nodes.length) (hku : k < st.nodesUsed) :
    ((splitChildren prims st k i).nodes.getD (st.nodesUsed + 1) default).count =
      (st.nodes.getD k default).count - (i - (st.nodes.getD k default).leftChild) := by
  unfold splitChildren
  dsimp only
  rw [updateBounds_count, updateBounds_node_other _ _ _ _ (by omega)]
  dsimp only
  rw [getD_set_other _ _ _ _ _ (by omega),
    getD_set_at _ _ _ _ (by rw [List.length_set]; exact hu1)]

theorem splitChildren_right_lc (prims : List Prim) (st : BuildState) (k i : ℕ)
    (hu1 : st.nodesUsed + 1 < st.nodes.length) (hku : k < st.nodesUsed) :
    ((splitChildren prims st k i).nodes.getD (st.nodesUsed + 1) default).leftChild =
      i := by
  unfold splitChildren
  dsimp only
  rw [updateBounds_leftChild, updateBounds_node_other _ _ _ _ (by omega)]
  dsimp only
  rw [getD_set_other _ _ _ _ _ (by omega),
    getD_set_at _ _ _ _ (by rw [List.length_set]; exact hu1)]

theorem splitChildren_left_bound (prims : List Prim) (st : BuildState) (k i : ℕ)
    (hu : st.nodesUsed < st.nodes.length) (hku : k < st.nodesUsed) (p : ℕ)
    (h1 : (st.nodes.getD k default).leftChild ≤ p)
    (h2 : p < (st.nodes.getD k default).leftChild +
      (i - (st.nodes.getD k default).leftChild)) :
    AabbLe (primAabb prims (st.indices.getD p 0))
      ((splitChildren prims st k i).nodes.getD st.nodesUsed default).aabb := by
  unfold splitChildren
  dsimp only
  rw [updateBounds_node_other _ _ _ _ (by omega)]
  refine updateBounds_bound prims _ st.nodesUsed ?_ p ?_ ?_
  · dsimp only
    rw [List.length_set, List.length_set, List.length_set]
    exact hu
  · dsimp only
    rw [getD_set_other _ _ _ _ _ (by omega), getD_set_other _ _ _ _ _ (by omega),
      getD_set_at _ _ _ _ hu]
    exact h1
  · dsimp only
    rw [getD_set_other _ _ _ _ _ (by omega), getD_set_other _ _ _ _ _ (by omega),
      getD_set_at _ _ _ _ hu]
    exact h2

theorem splitChildren_right_bound (prims : List Prim) (st : BuildState) (k i : ℕ)
    (hu1 : st.nodesUsed + 1 < st.nodes.length) (hku : k < st.nodesUsed) (p : ℕ)
    (h1 : i ≤ p)
    (h2 : p < i + ((st.nodes.getD k default).count -
      (i - (st.nodes.getD k default).leftChild))) :
    AabbLe (primAabb prims (st.indices.getD p 0))
      ((splitChildren prims st k i).nodes.getD (st.nodesUsed + 1) default).aabb := by
  unfold splitChildren
  dsimp only
  refine updateBounds_bound prims _ (st.nodesUsed + 1) ?_ p ?_ ?_
  · rw [updateBounds_nodes_length]
    dsimp only
    rw [List.length_set, List.length_set, List.length_set]
    exact hu1
  · rw [updateBounds_node_other _ _ _ _ (by omega)]
    dsimp only
    rw [getD_set_other _ _ _ _ _ (by omega),
      getD_set_at _ _ _ _ (by rw [List.length_set]; exact hu1)]
    exact h1
  · rw [updateBounds_node_other _ _ _ _ (by omega)]
    dsimp only
    rw [getD_set_other _ _ _ _ _ (by omega),
      getD_set_at _ _ _ _ (by rw [List.length_set]; exact hu1)]
    exact h2

/-- Transfer a pointwise predicate over the window across a `SegPerm`. -/
theorem segPerm_window_pred {l l' : List ℕ} {start cnt : ℕ}
    (h : SegPerm l l' start cnt) (hlen : start + cnt ≤ l.length)
    (P : ℕ → Prop) (hP : ∀ p, start ≤ p → p < start + cnt → P (l.getD p 0)) :
    ∀ p, start ≤ p → p < start + cnt → P (l'.getD p 0) := by
  intro p h1 h2
  obtain ⟨q, hq1, hq2, hq⟩ := segPerm_value_mem h hlen p h1 h2
  rw [← hq]
  exact hP q hq1 hq2

/-- The conclusion bundle of `subdivide_spec` for a leaf outcome: the state
keeps its nodes and allocation and only permutes the window of the index
array. -/
theorem leaf_conclusions (cfg : BvhConfig) (prims : List Prim) (st : BuildState)
    (k d cnt start : ℕ) (inds' : List ℕ)
    (hk : k < st.nodes.length)
    (hcnt : (st.nodes.getD k default).count = cnt)
    (hlc : (st.nodes.getD k default).leftChild = start)
    (hpos : 0 < cnt)
    (hlen : start + cnt ≤ st.indices.length)
    (hvalid : ∀ p, start ≤ p → p < start + cnt → st.indices.getD p 0 < prims.length)
    (hbound : ∀ p, start ≤ p → p < start + cnt →
      AabbLe (primAabb prims (st.indices.getD p 0)) (st.nodes.getD k default).aabb)
    (hfresh : ∀ m, st.nodesUsed ≤ m → st.nodes.getD m default = default)
    (hseg : SegPerm st.indices inds' start cnt)
    (hreason : cnt ≤ cfg.maxShapesPerNode ∨ cfg.maxDepth ≤ d ∨
      NoBeneficialSplit cfg st.nodes inds' prims k) :
    (BuildState.mk inds' st.nodes st.nodesUsed).nodes.length = st.nodes.length ∧
    st.nodesUsed ≤ (BuildState.mk inds' st.nodes st.nodesUsed).nodesUsed ∧
    (BuildState.mk inds' st.nodes st.nodesUsed).nodesUsed + 2 ≤
      st.nodesUsed + 2 * cnt ∧
    (∀ m, m ≠ k → m < st.nodesUsed →
      (BuildState.mk inds' st.nodes st.nodesUsed).nodes.getD m default =
        st.nodes.getD m default) ∧
    (∀ m, (BuildState.mk inds' st.nodes st.nodesUsed).nodesUsed ≤ m →
      (BuildState.mk inds' st.nodes st.nodesUsed).nodes.getD m default = default) ∧
    SegPerm st.indices (BuildState.mk inds' st.nodes st.nodesUsed).indices start cnt ∧
    Tree cfg (BuildState.mk inds' st.nodes st.nodesUsed).nodes
      (BuildState.mk inds' st.nodes st.nodesUsed).indices prims k d start cnt
      (insert k (Finset.Ico st.nodesUsed
        (BuildState.mk inds' st.nodes st.nodesUsed).nodesUsed)) := by
  refine ⟨rfl, le_rfl, by dsimp only; omega, fun m _ _ => rfl,
    fun m hm => hfresh m hm, hseg, ?_⟩
  rw [Finset.Ico_self, LawfulSingleton.insert_emptyc_eq]
  refine Tree.leaf k d start cnt hk hcnt hlc hpos (by rw [hseg.1]; exact hlen)
    ?_ ?_ hreason
  · exact segPerm_window_pred hseg hlen (fun v => v < prims.length) hvalid
  · exact segPerm_window_pred hseg hlen
      (fun v => AabbLe (primAabb prims v) (st.nodes.getD k default).aabb) hbound

/-- Master invariant of `BvhBuilder::subdivide`: starting from a node whose
window is in bounds, whose box bounds its shapes, with a fresh pool beyond
`nodesUsed` and room for `2·cnt − 2` more nodes, subdivision preserves the
pool shape, allocates at most `2·cnt − 2` nodes, only permutes the window
of the index array, and leaves a well-formed subtree whose node set is
exactly the old node plus the freshly allocated ones. -/
theorem subdivide_spec (cfg : BvhConfig) (prims : List Prim) :
    ∀ (fuel : ℕ) (st : BuildState) (k d cnt start : ℕ),
      k < st.nodes.length →
      k < st.nodesUsed →
      (st.nodes.getD k default).count = cnt →
      (st.nodes.getD k default).leftChild = start →
      0 < cnt →
      cnt ≤ fuel →
      start + cnt ≤ st.indices.length →
      (∀ p, start ≤ p → p < start + cnt → st.indices.getD p 0 < prims.length) →
      (∀ p, start ≤ p → p < start + cnt →
        AabbLe (primAabb prims (st.indices.getD p 0)) (st.nodes.getD k default).aabb) →
      (∀ m, st.nodesUsed ≤ m → st.nodes.getD m default = default) →
      st.nodesUsed + 2 * cnt ≤ st.nodes.length + 2 →
      (subdivide cfg prims fuel st k d).1.nodes.length = st.nodes.length ∧
      st.nodesUsed ≤ (subdivide cfg prims fuel st k d).1.nodesUsed ∧
      (subdivide cfg prims fuel st k d).1.nodesUsed + 2 ≤ st.nodesUsed + 2 * cnt ∧
      (∀ m, m ≠ k → m < st.nodesUsed →
        (subdivide cfg prims fuel st k d).1.nodes.getD m default =
          st.nodes.getD m default) ∧
      (∀ m, (subdivide cfg prims fuel st k d).1.nodesUsed ≤ m →
        (subdivide cfg prims fuel st k d).1.nodes.getD m default = default) ∧
      SegPerm st.indices (subdivide cfg prims fuel st k d).1.indices start cnt ∧
      Tree cfg (subdivide cfg prims fuel st k d).1.nodes
        (subdivide cfg prims fuel st k d).1.indices prims k d start cnt
        (insert k (Finset.Ico st.nodesUsed
          (subdivide cfg prims fuel st k d).1.nodesUsed)) := by
  intro fuel
  induction fuel with
  | zero =>
    intro st k d cnt start hk hused hcnt hlc hpos hfuel hlen hvalid hbound hfresh hroom
    exact absurd hfuel (by omega)
  | succ fuel ih =>
    intro st k d cnt start hk hused hcnt hlc hpos hfuel hlen hvalid hbound hfresh hroom
    by_cases hg : (st.nodes.getD k default).count ≤ cfg.maxShapesPerNode ∨
        cfg.maxDepth ≤ d
    · rw [subdivide_guard cfg prims (fuel + 1) st k d hg]
      exact leaf_conclusions cfg prims st k d cnt start st.indices hk hcnt hlc hpos hlen
        hvalid hbound hfresh (segPerm_refl _ _ _)
        (by rcases hg with h | h
            · exact Or.inl (hcnt ▸ h)
            · exact Or.inr (Or.inl h))
    · cases hbs : findBestSplit cfg st.nodes st.indices prims k with
      | none =>
        rw [subdivide_nosplit cfg prims fuel st k d hg hbs]
        exact leaf_conclusions cfg prims st k d cnt start st.indices hk hcnt hlc hpos hlen
          hvalid hbound hfresh (segPerm_refl _ _ _)
          (Or.inr (Or.inr (by
            unfold NoBeneficialSplit noBeneficialSplitB
            rw [hbs])))
      | some best =>
        by_cases hcost : ((st.nodes.getD k default).count : ℚ) * cfg.intersectCost ≤
            best.cost
        · rw [subdivide_costly cfg prims fuel st k d best hg hbs hcost]
          exact leaf_conclusions cfg prims st k d cnt start st.indices hk hcnt hlc hpos
            hlen hvalid hbound hfresh (segPerm_refl _ _ _)
            (Or.inr (Or.inr (by
              unfold NoBeneficialSplit noBeneficialSplitB
              rw [hbs]
              dsimp only
              rw [decide_eq_true hcost]
              simp)))
        · obtain ⟨hsg, hsome, hnone⟩ :=
            partitionLoop_spec prims best.axis best.position start cnt cnt st.indices
              start (start + cnt - 1) (by omega) le_rfl (by omega) (by omega) hlen
              (fun p h1 h2 => absurd h2 (by omega))
              (fun p h1 h2 => absurd h1 (by omega))
          have hprlen : (partitionLoop prims best.axis best.position st.indices start
              (start + cnt - 1)).1.length = st.indices.length := hsg.1
          have hvalid' := segPerm_window_pred hsg hlen
            (fun v => v < prims.length) hvalid
          have hbound' := segPerm_window_pred hsg hlen
            (fun v => AabbLe (primAabb prims v) (st.nodes.getD k default).aabb) hbound
          cases hpr : (partitionLoop prims best.axis best.position st.indices start
              (start + cnt - 1)).2 with
          | none =>
            have hprnd : (partitionLoop prims best.axis best.position st.indices
                (st.nodes.getD k default).leftChild
                ((st.nodes.getD k default).leftChild +
                  (st.nodes.getD k default).count - 1)).2 = none := by
              rw [hlc, hcnt]; exact hpr
            rw [subdivide_abort cfg prims fuel st k d best hg hbs hcost hprnd]
            rw [hlc, hcnt]
            exact leaf_conclusions cfg prims st k d cnt start _ hk hcnt hlc hpos hlen
              hvalid hbound hfresh hsg
              (Or.inr (Or.inr (by
                unfold NoBeneficialSplit noBeneficialSplitB
                rw [findBestSplit_segPerm cfg st.nodes st.indices _ prims k
                  (by rw [hlc, hcnt]; exact hsg) (by rw [hlc, hcnt]; exact hlen), hbs]
                dsimp only
                rw [hlc, hcnt]
                rw [countLt_eq_zero prims _ best.axis best.position start cnt
                  (hnone hpr)]
                simp)))
          | some i2 =>
            obtain ⟨hge, hle, hltL, hgeR⟩ := hsome i2 hpr
            by_cases hdeg : i2 - start = 0 ∨ i2 - start = cnt
            · have hprnd : (partitionLoop prims best.axis best.position st.indices
                  (st.nodes.getD k default).leftChild
                  ((st.nodes.getD k default).leftChild +
                    (st.nodes.getD k default).count - 1)).2 = some i2 := by
                rw [hlc, hcnt]; exact hpr
              have hdegnd : i2 - (st.nodes.getD k default).leftChild = 0 ∨
                  i2 - (st.nodes.getD k default).leftChild =
                    (st.nodes.getD k default).count := by
                rw [hlc, hcnt]; exact hdeg
              rw [subdivide_degenerate cfg prims fuel st k d best i2 hg hbs hcost
                hprnd hdegnd]
              rw [hlc, hcnt]
              refine leaf_conclusions cfg prims st k d cnt start _ hk hcnt hlc hpos hlen
                hvalid hbound hfresh hsg
                (Or.inr (Or.inr (by
                  unfold NoBeneficialSplit noBeneficialSplitB
                  rw [findBestSplit_segPerm cfg st.nodes st.indices _ prims k
                    (by rw [hlc, hcnt]; exact hsg) (by rw [hlc, hcnt]; exact hlen), hbs]
                  dsimp only
                  rw [hlc, hcnt]
                  rcases hdeg with hdeg0 | hdegc
                  · rw [countLt_eq_zero prims _ best.axis best.position start cnt
                      (fun p h1 h2 => hgeR p (by omega) h2)]
                    simp
                  · rw [countLt_eq_full prims _ best.axis best.position start cnt
                      (fun p h1 h2 => hltL p h1 (by omega))]
                    simp)))
            · -- genuine split: allocate the two children and recurse
              have hprnd : (partitionLoop prims best.axis best.position st.indices
                  (st.nodes.getD k default).leftChild
                  ((st.nodes.getD k default).leftChild +
                    (st.nodes.getD k default).count - 1)).2 = some i2 := by
                rw [hlc, hcnt]; exact hpr
              have hdegnd : ¬ (i2 - (st.nodes.getD k default).leftChild = 0 ∨
                  i2 - (st.nodes.getD k default).leftChild =
                    (st.nodes.getD k default).count) := by
                rw [hlc, hcnt]; exact hdeg
              rw [subdivide_split cfg prims fuel st k d best i2 hg hbs hcost
                hprnd hdegnd]
              dsimp only
              rw [hlc, hcnt]
              have hcl1 : 0 < i2 - start := by omega
              have hcl2 : i2 - start < cnt := by omega
              have hcnt2 : 2 ≤ cnt := by omega
              have hu : st.nodesUsed < st.nodes.length := by omega
              have hu1 : st.nodesUsed + 1 < st.nodes.length := by omega
              set st1 : BuildState :=
                { st with indices := (partitionLoop prims best.axis best.position
                  st.indices start (start + cnt - 1)).1 } with hst1def
              have hst1_nodes : st1.nodes = st.nodes := by rw [hst1def]
              have hst1_used : st1.nodesUsed = st.nodesUsed := by rw [hst1def]
              have hst1_ind : st1.indices = (partitionLoop prims best.axis
                  best.position st.indices start (start + cnt - 1)).1 := by
                rw [hst1def]
              have hst1_hu : st1.nodesUsed < st1.nodes.length := by
                rw [hst1_used, hst1_nodes]; exact hu
              have hst1_hu1 : st1.nodesUsed + 1 < st1.nodes.length := by
                rw [hst1_used, hst1_nodes]; exact hu1
              have hst1_hku : k < st1.nodesUsed := by rw [hst1_used]; exact hused
              set st4 := splitChildren prims st1 k i2 with hst4def
              have hst4_len : st4.nodes.length = st.nodes.length := by
                rw [hst4def, splitChildren_length, hst1_nodes]
              have hst4_ind : st4.indices = (partitionLoop prims best.axis best.position
                  st.indices start (start + cnt - 1)).1 := by
                rw [hst4def, splitChildren_indices, hst1_ind]
              have hst4_used : st4.nodesUsed = st.nodesUsed + 2 := by
                rw [hst4def, splitChildren_nodesUsed, hst1_used]
              have hnodeu_cnt : (st4.nodes.getD st.nodesUsed default).count =
                  i2 - start := by
                rw [hst4def, ← hst1_used,
                  splitChildren_left_count prims st1 k i2 hst1_hu hst1_hku,
                  hst1_nodes, hlc]
              have hnodeu_lc : (st4.nodes.getD st.nodesUsed default).leftChild =
                  start := by
                rw [hst4def, ← hst1_used,
                  splitChildren_left_lc prims st1 k i2 hst1_hu hst1_hku,
                  hst1_nodes, hlc]
              have hnodeu1_cnt : (st4.nodes.getD (st.nodesUsed + 1) default).count =
                  cnt - (i2 - start) := by
                rw [hst4def, ← hst1_used,
                  splitChildren_right_count prims st1 k i2 hst1_hu1 hst1_hku,
                  hst1_nodes, hlc, hcnt]
              have hnodeu1_lc : (st4.nodes.getD (st.nodesUsed + 1) default).leftChild =
                  i2 := by
                rw [hst4def, ← hst1_used,
                  splitChildren_right_lc prims st1 k i2 hst1_hu1 hst1_hku]
              have hnode_k4 : st4.nodes.getD k default =
                  { st.nodes.getD k default with
                    leftChild := st.nodesUsed, count := 0 } := by
                rw [hst4def, splitChildren_node_k prims st1 k i2
                  (by rw [hst1_nodes]; exact hk) hst1_hku, hst1_nodes, hst1_used]
              have hfresh4 : ∀ m, st.nodesUsed + 2 ≤ m →
                  st4.nodes.getD m default = default := by
                intro m hm
                rw [hst4def, splitChildren_node_other prims st1 k i2 m
                  (by omega) (by rw [hst1_used]; omega) (by rw [hst1_used]; omega),
                  hst1_nodes]
                exact hfresh m (by omega)
              obtain ⟨L1, L2, L3, L4, L5, L6, L7⟩ :=
                ih st4 st.nodesUsed (d + 1) (i2 - start) start
                  (by rw [hst4_len]; exact hu)
                  (by rw [hst4_used]; omega)
                  hnodeu_cnt hnodeu_lc hcl1 (by omega)
                  (by rw [hst4_ind, hprlen]; omega)
                  (by intro p h1 h2
                      rw [hst4_ind]
                      exact hvalid' p h1 (by omega))
                  (by intro p h1 h2
                      rw [hst4_ind, ← hst1_ind, hst4def, ← hst1_used]
                      exact splitChildren_left_bound prims st1 k i2 hst1_hu hst1_hku p
                        (by rw [hst1_nodes, hlc]; omega)
                        (by rw [hst1_nodes, hlc]; omega))
                  (by intro m hm
                      rw [hst4_used] at hm
                      exact hfresh4 m hm)
                  (by rw [hst4_used, hst4_len]; omega)
              have hL2' : st.nodesUsed + 2 ≤
                  (subdivide cfg prims fuel st4 st.nodesUsed (d + 1)).1.nodesUsed := by
                rw [← hst4_used]; exact L2
              have hL3' : (subdivide cfg prims fuel st4 st.nodesUsed (d + 1)).1.nodesUsed
                  + 2 ≤ st.nodesUsed + 2 + 2 * (i2 - start) := by
                rw [← hst4_used]; exact L3
              set stL := (subdivide cfg prims fuel st4 st.nodesUsed (d + 1)).1
                with hstLdef
              have hindL : stL.indices.length = st.indices.length := by
                rw [L6.1, hst4_ind, hprlen]
              have hLnode_u1 : stL.nodes.getD (st.nodesUsed + 1) default =
                  st4.nodes.getD (st.nodesUsed + 1) default :=
                L4 (st.nodesUsed + 1) (by omega) (by rw [hst4_used]; omega)
              obtain ⟨R1, R2, R3, R4, R5, R6, R7⟩ :=
                ih stL (st.nodesUsed + 1) (d + 1) (cnt - (i2 - start)) i2
                  (by rw [L1, hst4_len]; exact hu1)
                  (by omega)
                  (by rw [hLnode_u1]; exact hnodeu1_cnt)
                  (by rw [hLnode_u1]; exact hnodeu1_lc)
                  (by omega) (by omega)
                  (by rw [hindL]; omega)
                  (by intro p h1 h2
                      rw [L6.2.1 p (Or.inr (by omega)), hst4_ind]
                      exact hvalid' p (by omega) (by omega))
                  (by intro p h1 h2
                      rw [hLnode_u1, L6.2.1 p (Or.inr (by omega)), hst4_ind,
                        ← hst1_ind, hst4def, ← hst1_used]
                      exact splitChildren_right_bound prims st1 k i2 hst1_hu1 hst1_hku
                        p h1 (by rw [hst1_nodes, hlc, hcnt]; omega))
                  L5
                  (by rw [L1, hst4_len]; omega)
              set stR := (subdivide cfg prims fuel stL (st.nodesUsed + 1) (d + 1)).1
                with hstRdef
              have hnode_k_R : stR.nodes.getD k default =
                  { st.nodes.getD k default with
                    leftChild := st.nodesUsed, count := 0 } := by
                rw [R4 k (by omega) (by omega),
                  L4 k (by omega) (by rw [hst4_used]; omega), hnode_k4]
              have hsg4 : SegPerm st.indices st4.indices start cnt := by
                rw [hst4_ind]; exact hsg
              have hsgL : SegPerm st4.indices stL.indices start cnt :=
                segPerm_of_sub L6 le_rfl (by omega)
                  (by rw [hst4_ind, hprlen]; omega)
              have hsgR : SegPerm stL.indices stR.indices start cnt :=
                segPerm_of_sub R6 (by omega) (by omega) (by rw [hindL]; omega)
              have hsgFinal : SegPerm st.indices stR.indices start cnt :=
                segPerm_trans (segPerm_trans hsg4 hsgL) hsgR
              refine ⟨?_, ?_, ?_, ?_, ?_, hsgFinal, ?_⟩
              · rw [R1, L1, hst4_len]
              · omega
              · omega
              · intro m hmk hmu
                rw [R4 m (by omega) (by omega),
                  L4 m (by omega) (by rw [hst4_used]; omega),
                  hst4def, splitChildren_node_other prims st1 k i2 m hmk
                    (by rw [hst1_used]; omega) (by rw [hst1_used]; omega),
                  hst1_nodes]
              · exact R5
              · have hTL2 : Tree cfg stR.nodes stR.indices prims st.nodesUsed (d + 1)
                    start (i2 - start)
                    (insert st.nodesUsed
                      (Finset.Ico (st.nodesUsed + 2) stL.nodesUsed)) := by
                  have ht := Tree.transport L7 stR.nodes stR.indices R1 R6.1
                    (by intro j hj
                        rw [hst4_used] at hj
                        simp only [Finset.mem_insert, Finset.mem_Ico] at hj
                        rcases hj with rfl | hj
                        · exact R4 st.nodesUsed (by omega) (by omega)
                        · exact R4 j (by omega) (by omega))
                    (by intro p h1 h2
                        exact R6.2.1 p (Or.inl (by omega)))
                  rw [hst4_used] at ht
                  exact ht
                have hTR2 : Tree cfg stR.nodes stR.indices prims (st.nodesUsed + 1)
                    (d + 1) (start + (i2 - start)) (cnt - (i2 - start))
                    (insert (st.nodesUsed + 1)
                      (Finset.Ico stL.nodesUsed stR.nodesUsed)) := by
                  rw [show start + (i2 - start) = i2 by omega]
                  exact R7
                have hboundFin := segPerm_window_pred hsgFinal hlen
                  (fun v => AabbLe (primAabb prims v) (st.nodes.getD k default).aabb)
                  hbound
                have htree := @Tree.internal cfg stR.nodes stR.indices prims
                  k d start cnt (i2 - start)
                  st.nodesUsed
                  (insert st.nodesUsed (Finset.Ico (st.nodesUsed + 2) stL.nodesUsed))
                  (insert (st.nodesUsed + 1) (Finset.Ico stL.nodesUsed stR.nodesUsed))
                  (by rw [R1, L1, hst4_len]; exact hk)
                  (by rw [hnode_k_R])
                  (by rw [hnode_k_R])
                  hused hcl1 hcl2
                  (by intro p h1 h2
                      rw [hnode_k_R]
                      exact hboundFin p h1 h2)
                  hTL2 hTR2
                  (by rw [Finset.disjoint_left]
                      intro a ha hb
                      simp only [Finset.mem_insert, Finset.mem_Ico] at ha hb
                      omega)
                  (by simp only [Finset.mem_insert, Finset.mem_Ico]
                      omega)
                  (by simp only [Finset.mem_insert, Finset.mem_Ico]
                      omega)
                have hw : insert k
                    ((insert st.nodesUsed
                      (Finset.Ico (st.nodesUsed + 2) stL.nodesUsed)) ∪
                     (insert (st.nodesUsed + 1)
                      (Finset.Ico stL.nodesUsed stR.nodesUsed))) =
                    insert k (Finset.Ico st.nodesUsed stR.nodesUsed) := by
                  ext a
                  simp only [Finset.mem_insert, Finset.mem_union, Finset.mem_Ico]
                  omega
                exact hw ▸ htree

/-! ## Transport to the truncated pool and tree partition lemmas -/

theorem getD_take_lt {α : Type} (l : List α) (u j : ℕ) (d : α) (h : j < u) :
    (l.take u).getD j d = l.getD j d := by
  by_cases hj : j < l.length
  · rw [List.getD_eq_getElem _ _ (by rw [List.length_take]; omega),
      List.getD_eq_getElem _ _ hj]
    exact List.getElem_take ..
  · rw [List.getD_eq_default _ _ (by rw [List.length_take]; omega),
      List.getD_eq_default _ _ (by omega)]

/-- Transport a subtree to a (possibly shorter) node pool that still
contains all its nodes and agrees on them. -/
theorem Tree.transport' {cfg nodes inds prims k d start cnt w}
    (t : Tree cfg nodes inds prims k d start cnt w)
    (nodes' : List BvhNode) (inds' : List ℕ)
    (hilen : inds'.length = inds.length)
    (hw : ∀ j ∈ w, j < nodes'.length)
    (hn : ∀ j ∈ w, nodes'.getD j default = nodes.getD j default)
    (hi : ∀ p, start ≤ p → p < start + cnt → inds'.getD p 0 = inds.getD p 0) :
    Tree cfg nodes' inds' prims k d start cnt w := by
  induction t with
  | leaf k d start cnt hk hcnt hlc hpos hlen hvalid hbound hreason =>
    have hk' := hn k (Finset.mem_singleton_self k)
    refine Tree.leaf k d start cnt (hw k (Finset.mem_singleton_self k))
      (by rw [hk', hcnt]) (by rw [hk', hlc]) hpos (by omega) ?_ ?_ ?_
    · intro p h1 h2
      rw [hi p h1 h2]
      exact hvalid p h1 h2
    · intro p h1 h2
      rw [hi p h1 h2, hk']
      exact hbound p h1 h2
    · rcases hreason with h | h | h
      · exact Or.inl h
      · exact Or.inr (Or.inl h)
      · refine Or.inr (Or.inr ?_)
        unfold NoBeneficialSplit at h ⊢
        rw [noBeneficialSplitB_congr cfg nodes nodes' inds inds' prims k hk' ?_]
        · exact h
        · intro i hic
          rw [hcnt] at hic
          rw [hlc]
          exact hi (start + i) (by omega) (by omega)
  | internal k d start cnt cl u wl wr hk hcnt0 hlc hku hclpos hcllt hbound hl hr
      hdisj hkl hkr ihl ihr =>
    have hkmem : k ∈ insert k (wl ∪ wr) := Finset.mem_insert_self k _
    have hk' := hn k hkmem
    refine Tree.internal k d start cnt cl u wl wr (hw k hkmem) (by rw [hk', hcnt0])
      (by rw [hk', hlc]) hku hclpos hcllt ?_ ?_ ?_ hdisj hkl hkr
    · intro p h1 h2
      rw [hi p h1 h2, hk']
      exact hbound p h1 h2
    · refine ihl (fun j hj => hw j (Finset.mem_insert_of_mem (Finset.mem_union_left _ hj)))
        (fun j hj => hn j (Finset.mem_insert_of_mem (Finset.mem_union_left _ hj)))
        (fun p h1 h2 => hi p h1 (by omega))
    · refine ihr (fun j hj => hw j (Finset.mem_insert_of_mem (Finset.mem_union_right _ hj)))
        (fun j hj => hn j (Finset.mem_insert_of_mem (Finset.mem_union_right _ hj)))
        (fun p h1 h2 => hi p (by omega) (by omega))

/-- Every positive-count (leaf) node of a subtree has its window inside the
subtree's window. -/
theorem tree_leaf_window_sub {cfg nodes inds prims k d start cnt w}
    (t : Tree cfg nodes inds prims k d start cnt w) :
    ∀ j ∈ w, 0 < (nodes.getD j default).count →
      start ≤ (nodes.getD j default).leftChild ∧
      (nodes.getD j default).leftChild + (nodes.getD j default).count ≤
        start + cnt := by
  induction t with
  | leaf k d start cnt hk hcnt hlc hpos hlen hvalid hbound hreason =>
    intro j hj _
    rw [Finset.mem_singleton] at hj
    subst hj
    rw [hcnt, hlc]
    omega
  | internal k d start cnt cl u wl wr hk hcnt0 hlc hku hclpos hcllt hbound hl hr
      hdisj hkl hkr ihl ihr =>
    intro j hj hcj
    rcases Finset.mem_insert.mp hj with rfl | hj
    · rw [hcnt0] at hcj
      exact absurd hcj (by omega)
    · rcases Finset.mem_union.mp hj with hj | hj
      · have := ihl j hj hcj
        omega
      · have := ihr j hj hcj
        omega

/-- `NodeAt nodes j d`: node `j` of the node array sits at depth `d` of
the BVH, i.e. it is the root (node 0 at depth 0) or the left/right child —
through the stored `left_child`/`left_child + 1` links of an internal
(`count = 0`) node — of a node at the previous depth.  This pins each
node's depth by the built array itself. -/
inductive NodeAt (nodes : List BvhNode) : ℕ → ℕ → Prop
  | root : NodeAt nodes 0 0
  | left {k d} : NodeAt nodes k d → (nodes.getD k default).count = 0 →
      NodeAt nodes (nodes.getD k default).leftChild (d + 1)
  | right {k d} : NodeAt nodes k d → (nodes.getD k default).count = 0 →
      NodeAt nodes ((nodes.getD k default).leftChild + 1) (d + 1)

/-- A subtree rooted at a zero-count node is internal, and its two stored
children root subtrees one level deeper. -/
theorem tree_internal_children {cfg nodes inds prims k d start cnt w}
    (t : Tree cfg nodes inds prims k d start cnt w)
    (hc : (nodes.getD k default).count = 0) :
    ∃ cl wl wr,
      Tree cfg nodes inds prims (nodes.getD k default).leftChild (d + 1)
        start cl wl ∧
      Tree cfg nodes inds prims ((nodes.getD k default).leftChild + 1) (d + 1)
        (start + cl) (cnt - cl) wr := by
  cases t with
  | leaf _ _ _ _ hk hcnt hlc hpos hlen hvalid hbound hreason =>
    rw [hc] at hcnt
    exact absurd hcnt (by omega)
  | internal _ _ _ _ cl u wl wr hk hcnt0 hlc hku hclpos hcllt hbound hl hr
      hdisj hkl hkr =>
    rw [hlc]
    exact ⟨cl, wl, wr, hl, hr⟩

/-- Every node reachable at depth `d` from the root roots a subtree at
exactly that depth. -/
theorem node_at_subtree {cfg nodes inds prims cnt w}
    (troot : Tree cfg nodes inds prims 0 0 0 cnt w) :
    ∀ {j dj}, NodeAt nodes j dj →
      ∃ s c w', Tree cfg nodes inds prims j dj s c w' := by
  intro j dj h
  induction h with
  | root => exact ⟨0, cnt, w, troot⟩
  | left hk hc ih =>
    obtain ⟨s, c, w', ht⟩ := ih
    obtain ⟨cl, wl, wr, hl, hr⟩ := tree_internal_children ht hc
    exact ⟨s, cl, wl, hl⟩
  | right hk hc ih =>
    obtain ⟨s, c, w', ht⟩ := ih
    obtain ⟨cl, wl, wr, hl, hr⟩ := tree_internal_children ht hc
    exact ⟨s + cl, c - cl, wr, hr⟩

/-- A positive-count node rooting a subtree at depth `dj` is a leaf and
carries a stop reason at that depth. -/
theorem tree_leaf_reason_at {cfg nodes inds prims j dj s c w'}
    (t : Tree cfg nodes inds prims j dj s c w')
    (hcj : 0 < (nodes.getD j default).count) :
    (nodes.getD j default).count ≤ cfg.maxShapesPerNode ∨ cfg.maxDepth ≤ dj ∨
      NoBeneficialSplit cfg nodes inds prims j := by
  cases t with
  | leaf _ _ _ _ hk hcnt hlc hpos hlen hvalid hbound hreason =>
    rcases hreason with h | h | h
    · exact Or.inl (by rw [hcnt]; exact h)
    · exact Or.inr (Or.inl h)
    · exact Or.inr (Or.inr h)
  | internal _ _ _ _ cl u wl wr hk hcnt0 hlc hku hclpos hcllt hbound hl hr
      hdisj hkl hkr =>
    rw [hcnt0] at hcj
    exact absurd hcj (by omega)

/-- The leaf windows of a subtree partition its window: every position is
covered by exactly one positive-count node of the subtree. -/
theorem tree_partition {cfg nodes inds prims k d start cnt w}
    (t : Tree cfg nodes inds prims k d start cnt w) :
    ∀ p, start ≤ p → p < start + cnt →
      (∃ j ∈ w, 0 < (nodes.getD j default).count ∧
        (nodes.getD j default).leftChild ≤ p ∧
        p < (nodes.getD j default).leftChild + (nodes.getD j default).count) ∧
      (∀ j1 ∈ w, ∀ j2 ∈ w,
        0 < (nodes.getD j1 default).count →
        (nodes.getD j1 default).leftChild ≤ p →
        p < (nodes.getD j1 default).leftChild + (nodes.getD j1 default).count →
        0 < (nodes.getD j2 default).count →
        (nodes.getD j2 default).leftChild ≤ p →
        p < (nodes.getD j2 default).leftChild + (nodes.getD j2 default).count →
        j1 = j2) := by
  induction t with
  | leaf k d start cnt hk hcnt hlc hpos hlen hvalid hbound hreason =>
    intro p h1 h2
    constructor
    · exact ⟨k, Finset.mem_singleton_self k, by rw [hcnt]; omega,
        by rw [hlc]; omega, by rw [hlc, hcnt]; omega⟩
    · intro j1 hj1 j2 hj2 _ _ _ _ _ _
      rw [Finset.mem_singleton] at hj1 hj2
      rw [hj1, hj2]
  | internal k d start cnt cl u wl wr hk hcnt0 hlc hku hclpos hcllt hbound hl hr
      hdisj hkl hkr ihl ihr =>
    intro p h1 h2
    have hsubL := tree_leaf_window_sub hl
    have hsubR := tree_leaf_window_sub hr
    constructor
    · by_cases hp : p < start + cl
      · obtain ⟨⟨j, hj, hcj, ha, hb⟩, _⟩ := ihl p h1 hp
        exact ⟨j, Finset.mem_insert_of_mem (Finset.mem_union_left _ hj), hcj, ha, hb⟩
      · obtain ⟨⟨j, hj, hcj, ha, hb⟩, _⟩ := ihr p (by omega) (by omega)
        exact ⟨j, Finset.mem_insert_of_mem (Finset.mem_union_right _ hj), hcj, ha, hb⟩
    · intro j1 hj1 j2 hj2 hc1 ha1 hb1 hc2 ha2 hb2
      have hnotk : ∀ j ∈ insert k (wl ∪ wr), 0 < (nodes.getD j default).count →
          j ∈ wl ∨ j ∈ wr := by
        intro j hj hcj
        rcases Finset.mem_insert.mp hj with rfl | hj
        · rw [hcnt0] at hcj
          exact absurd hcj (by omega)
        · exact Finset.mem_union.mp hj
      rcases hnotk j1 hj1 hc1 with h1l | h1r
      · rcases hnotk j2 hj2 hc2 with h2l | h2r
        · by_cases hp : p < start + cl
          · exact (ihl p h1 hp).2 j1 h1l j2 h2l hc1 ha1 hb1 hc2 ha2 hb2
          · have := hsubL j1 h1l hc1
            omega
        · have w1 := hsubL j1 h1l hc1
          have w2 := hsubR j2 h2r hc2
          omega
      · rcases hnotk j2 hj2 hc2 with h2l | h2r
        · have w1 := hsubR j1 h1r hc1
          have w2 := hsubL j2 h2l hc2
          omega
        · by_cases hp : start + cl ≤ p
          · exact (ihr p hp (by omega)).2 j1 h1r j2 h2r hc1 ha1 hb1 hc2 ha2 hb2
          · have := hsubR j1 h1r hc1
            omega

/-- Build-level packaging of `subdivide_spec`: pool allocation, index
permutation and the root subtree of the built (truncated) BVH. -/
theorem build_spec (cfg : BvhConfig) (prims : List Prim) (hne : 0 < prims.length) :
    (buildState cfg prims).1.nodes.length = 2 * prims.length - 1 ∧
    1 ≤ (buildState cfg prims).1.nodesUsed ∧
    (buildState cfg prims).1.nodesUsed ≤ 2 * prims.length - 1 ∧
    (build cfg prims).indices.length = prims.length ∧
    (build cfg prims).indices.Perm (List.range prims.length) ∧
    (build cfg prims).nodes.length = (buildState cfg prims).1.nodesUsed ∧
    Tree cfg (build cfg prims).nodes (build cfg prims).indices prims 0 0 0
      prims.length (Finset.Ico 0 (buildState cfg prims).1.nodesUsed) := by
  set nodes1 := (List.replicate (2 * prims.length - 1) (default : BvhNode)).set 0
    ⟨Aabb.empty, 0, prims.length⟩ with hnodes1
  set st1 := updateBounds prims ⟨List.range prims.length, nodes1, 1⟩ 0 with hst1
  have hA : buildState cfg prims = subdivide cfg prims prims.length st1 0 0 := rfl
  have hlen1 : st1.nodes.length = 2 * prims.length - 1 := by
    rw [hst1, updateBounds_nodes_length]
    show nodes1.length = 2 * prims.length - 1
    rw [hnodes1, List.length_set, List.length_replicate]
  have hnode1_0 : nodes1.getD 0 default = ⟨Aabb.empty, 0, prims.length⟩ := by
    rw [hnodes1]
    exact getD_set_at _ _ _ _ (by rw [List.length_replicate]; omega)
  have hcnt0 : (st1.nodes.getD 0 default).count = prims.length := by
    rw [hst1, updateBounds_count]
    show (nodes1.getD 0 default).count = prims.length
    rw [hnode1_0]
  have hlc0 : (st1.nodes.getD 0 default).leftChild = 0 := by
    rw [hst1, updateBounds_leftChild]
    show (nodes1.getD 0 default).leftChild = 0
    rw [hnode1_0]
  have hfresh1 : ∀ m, 1 ≤ m → st1.nodes.getD m default = default := by
    intro m hm
    rw [hst1, updateBounds_node_other _ _ _ _ (by omega)]
    show nodes1.getD m default = default
    rw [hnodes1, getD_set_other _ _ _ _ _ (by omega)]
    by_cases hmlt : m < 2 * prims.length - 1
    · rw [List.getD_eq_getElem _ _ (by rw [List.length_replicate]; omega)]
      exact List.getElem_replicate ..
    · rw [List.getD_eq_default _ _ (by rw [List.length_replicate]; omega)]
  have hvalid1 : ∀ p, 0 ≤ p → p < 0 + prims.length →
      st1.indices.getD p 0 < prims.length := by
    intro p _ h2
    show (List.range prims.length).getD p 0 < prims.length
    rw [List.getD_eq_getElem _ _ (by rw [List.length_range]; omega),
      List.getElem_range]
    omega
  have hbound1 : ∀ p, 0 ≤ p → p < 0 + prims.length →
      AabbLe (primAabb prims (st1.indices.getD p 0))
        (st1.nodes.getD 0 default).aabb := by
    intro p h1 h2
    rw [hst1, updateBounds_indices]
    refine updateBounds_bound prims _ 0 ?_ p ?_ ?_
    · show 0 < nodes1.length
      rw [hnodes1, List.length_set, List.length_replicate]
      omega
    · show (nodes1.getD 0 default).leftChild ≤ p
      rw [hnode1_0]
      exact Nat.zero_le p
    · show p < (nodes1.getD 0 default).leftChild + (nodes1.getD 0 default).count
      rw [hnode1_0]
      show p < 0 + prims.length
      omega
  obtain ⟨B1, B2, B3, B4, B5, B6, B7⟩ :=
    subdivide_spec cfg prims prims.length st1 0 0 prims.length 0
      (by rw [hlen1]; omega)
      (by rw [hst1, updateBounds_nodesUsed]; exact Nat.one_pos)
      hcnt0 hlc0 hne le_rfl
      (by show 0 + prims.length ≤ (List.range prims.length).length
          rw [List.length_range]
          omega)
      hvalid1 hbound1
      (by intro m hm
          exact hfresh1 m hm)
      (by rw [hlen1]
          show 1 + 2 * prims.length ≤ 2 * prims.length - 1 + 2
          omega)
  have hused1 : 1 ≤ (buildState cfg prims).1.nodesUsed := by
    rw [hA]
    exact le_trans (by rw [hst1, updateBounds_nodesUsed]) B2
  have husedle : (buildState cfg prims).1.nodesUsed ≤ 2 * prims.length - 1 := by
    rw [hA]
    have : (subdivide cfg prims prims.length st1 0 0).1.nodesUsed + 2 ≤
        st1.nodesUsed + 2 * prims.length := B3
    have h1' : st1.nodesUsed = 1 := by rw [hst1, updateBounds_nodesUsed]
    omega
  have hpoollen : (buildState cfg prims).1.nodes.length = 2 * prims.length - 1 := by
    rw [hA, B1, hlen1]
  have hbuild_ind : (build cfg prims).indices = (buildState cfg prims).1.indices := rfl
  have hbuild_nodes : (build cfg prims).nodes =
      (buildState cfg prims).1.nodes.take (buildState cfg prims).1.nodesUsed := rfl
  have hindlen : (build cfg prims).indices.length = prims.length := by
    rw [hbuild_ind, hA]
    have := B6.1
    rw [this]
    show (List.range prims.length).length = prims.length
    rw [List.length_range]
  have hperm : (build cfg prims).indices.Perm (List.range prims.length) := by
    rw [hbuild_ind, hA]
    have hp := segPerm_to_perm B6
      (by show 0 + prims.length ≤ (List.range prims.length).length
          rw [List.length_range]
          omega)
    exact hp
  have hblen : (build cfg prims).nodes.length = (buildState cfg prims).1.nodesUsed := by
    rw [hbuild_nodes, List.length_take, hpoollen]
    omega
  refine ⟨hpoollen, hused1, husedle, hindlen, hperm, hblen, ?_⟩
  have hwico : insert 0 (Finset.Ico st1.nodesUsed
      (subdivide cfg prims prims.length st1 0 0).1.nodesUsed) =
      Finset.Ico 0 (buildState cfg prims).1.nodesUsed := by
    have h1' : st1.nodesUsed = 1 := by rw [hst1, updateBounds_nodesUsed]
    have h2' : (buildState cfg prims).1.nodesUsed =
        (subdivide cfg prims prims.length st1 0 0).1.nodesUsed := by rw [hA]
    rw [h1', h2']
    have hge := hused1
    rw [h2'] at hge
    ext a
    simp only [Finset.mem_insert, Finset.mem_Ico]
    omega
  have htree := B7
  rw [hwico] at htree
  refine Tree.transport' htree (build cfg prims).nodes (build cfg prims).indices
    (by rw [hbuild_ind, hA]) ?_ ?_ (fun p _ _ => by rw [hbuild_ind, hA])
  · intro j hj
    rw [Finset.mem_Ico] at hj
    rw [hblen]
    exact hj.2
  · intro j hj
    rw [Finset.mem_Ico] at hj
    rw [hbuild_nodes, getD_take_lt _ _ _ _ hj.2, hA]

/-! ## Claim C8: pool allocation -/

/-- C8: for a non-empty primitive list the builder preallocates a pool of
exactly `2·N − 1` nodes, never uses more than that (so child allocation
stays inside the pool), the truncated node array of the returned BVH has
length at most `2·N − 1`, and node 0 roots a well-formed subtree covering
all `N` primitives. -/
theorem claim_c8_pool_allocation (cfg : BvhConfig) (prims : List Prim)
    (hne : 0 < prims.length) :
    (buildState cfg prims).1.nodes.length = 2 * prims.length - 1 ∧
    (buildState cfg prims).1.nodesUsed ≤ 2 * prims.length - 1 ∧
    (build cfg prims).nodes.length ≤ 2 * prims.length - 1 ∧
    ∃ w, Tree cfg (build cfg prims).nodes (build cfg prims).indices prims 0 0 0
      prims.length w := by
  obtain ⟨h1, h2, h3, h4, h5, h6, h7⟩ := build_spec cfg prims hne
  exact ⟨h1, h3, by rw [h6]; exact h3, ⟨_, h7⟩⟩

/-- C8 witness: the two-cube sample scene. -/
theorem claim_c8_pool_allocation_witness :
    0 < samplePrims.length ∧
    ((buildState sampleConfig samplePrims).1.nodes.length =
        2 * samplePrims.length - 1 ∧
      (buildState sampleConfig samplePrims).1.nodesUsed ≤
        2 * samplePrims.length - 1 ∧
      (build sampleConfig samplePrims).nodes.length ≤ 2 * samplePrims.length - 1 ∧
      ∃ w, Tree sampleConfig (build sampleConfig samplePrims).nodes
        (build sampleConfig samplePrims).indices samplePrims 0 0 0
        samplePrims.length w) :=
  ⟨by decide, claim_c8_pool_allocation sampleConfig samplePrims (by decide)⟩

/-! ## Claim C10: index permutation and leaf partition -/

/-- C10: after a build over `N` primitives the stored index array is a
permutation of `0..N`, and every position `p < N` is covered by exactly one
positive-count (leaf) node's range `[left_child, left_child + count)`. -/
theorem claim_c10_index_partition (cfg : BvhConfig) (prims : List Prim)
    (hne : 0 < prims.length) :
    (build cfg prims).indices.Perm (List.range prims.length) ∧
    ∀ p, p < prims.length →
      ∃ j, (j < (build cfg prims).nodes.length ∧
          0 < ((build cfg prims).nodes.getD j default).count ∧
          ((build cfg prims).nodes.getD j default).leftChild ≤ p ∧
          p < ((build cfg prims).nodes.getD j default).leftChild +
            ((build cfg prims).nodes.getD j default).count) ∧
        ∀ j', j' < (build cfg prims).nodes.length →
          0 < ((build cfg prims).nodes.getD j' default).count →
          ((build cfg prims).nodes.getD j' default).leftChild ≤ p →
          p < ((build cfg prims).nodes.getD j' default).leftChild +
            ((build cfg prims).nodes.getD j' default).count →
          j' = j := by
  obtain ⟨h1, h2, h3, h4, h5, h6, h7⟩ := build_spec cfg prims hne
  refine ⟨h5, ?_⟩
  intro p hp
  obtain ⟨⟨j, hj, hcj, ha, hb⟩, huniq⟩ :=
    tree_partition h7 p (Nat.zero_le p) (by omega)
  refine ⟨j, ⟨by rw [h6]; exact (Finset.mem_Ico.mp hj).2, hcj, ha, hb⟩, ?_⟩
  intro j' hlen' hc' ha' hb'
  refine huniq j' (Finset.mem_Ico.mpr ⟨Nat.zero_le _, ?_⟩) j hj hc' ha' hb' hcj ha hb
  rw [← h6]
  exact hlen'

/-- C10 witness: the two-cube sample scene. -/
theorem claim_c10_index_partition_witness :
    0 < samplePrims.length ∧
    ((build sampleConfig samplePrims).indices.Perm
        (List.range samplePrims.length) ∧
      ∀ p, p < samplePrims.length →
        ∃ j, (j < (build sampleConfig samplePrims).nodes.length ∧
            0 < ((build sampleConfig samplePrims).nodes.getD j default).count ∧
            ((build sampleConfig samplePrims).nodes.getD j default).leftChild ≤ p ∧
            p < ((build sampleConfig samplePrims).nodes.getD j default).leftChild +
              ((build sampleConfig samplePrims).nodes.getD j default).count) ∧
          ∀ j', j' < (build sampleConfig samplePrims).nodes.length →
            0 < ((build sampleConfig samplePrims).nodes.getD j' default).count →
            ((build sampleConfig samplePrims).nodes.getD j' default).leftChild ≤ p →
            p < ((build sampleConfig samplePrims).nodes.getD j' default).leftChild +
              ((build sampleConfig samplePrims).nodes.getD j' default).count →
            j' = j) :=
  ⟨by decide, claim_c10_index_partition sampleConfig samplePrims (by decide)⟩

/-! ## Claim C5: the leaf cap and its exceptions -/

/-- Fixtures for the C5 counterexample: a depth cap of 1 with 8 disjoint
half-cubes along the x axis. -/
def cfg5 : BvhConfig := ⟨1, 1, 2, 3, 1⟩

def cube8 (k : ℕ) : Aabb := ⟨v3 k 0 0, v3 (k + 1 / 2) (1 / 2) (1 / 2)⟩

def prims8 : List Prim := [(cube8 0).toPrim, (cube8 1).toPrim, (cube8 2).toPrim,
  (cube8 3).toPrim, (cube8 4).toPrim, (cube8 5).toPrim, (cube8 6).toPrim,
  (cube8 7).toPrim]

/-- C5 counterexample: `cfg5` passes `BvhConfig::new` validation, yet the
BVH built over the 8 half-cubes has leaf node 1 holding 4 > 3 shapes while
its best SAH split (axis 0 at 7/4) is *not* degenerate — it would place 2
shapes on each side.  The leaf exists only because of the depth cap, an
exception the claim does not allow. -/
theorem claim_c5_counterexample :
    BvhConfig.new 1 1 2 3 1 = Except.ok cfg5 ∧
    cfg5.maxShapesPerNode = 3 ∧
    (build cfg5 prims8).nodes.length = 3 ∧
    ((build cfg5 prims8).nodes.getD 1 default).count = 4 ∧
    findBestSplit cfg5 (build cfg5 prims8).nodes (build cfg5 prims8).indices
      prims8 1 = some ⟨0, 7 / 4, 43 / 15⟩ ∧
    countLt prims8 (build cfg5 prims8).indices 0 (7 / 4)
      ((build cfg5 prims8).nodes.getD 1 default).leftChild
      ((build cfg5 prims8).nodes.getD 1 default).count = 2 := by
  refine ⟨by rfl, by rfl, by rfl, by rfl, by rfl, by rfl⟩

/-- C5 (amended): every positive-count (leaf) node of a built BVH, at the
depth `d` it actually occupies (pinned by the stored child links via
`NodeAt`), either respects the leaf cap, or sits at the depth cap, or
admits no beneficial SAH split (degenerate partitions included). -/
theorem claim_c5_leaf_cap_or_stop (cfg : BvhConfig) (prims : List Prim)
    (hne : 0 < prims.length) (j d : ℕ)
    (hreach : NodeAt (build cfg prims).nodes j d)
    (hcj : 0 < ((build cfg prims).nodes.getD j default).count) :
    ((build cfg prims).nodes.getD j default).count ≤ cfg.maxShapesPerNode ∨
    cfg.maxDepth ≤ d ∨
    NoBeneficialSplit cfg (build cfg prims).nodes (build cfg prims).indices
      prims j := by
  obtain ⟨h1, h2, h3, h4, h5, h6, h7⟩ := build_spec cfg prims hne
  obtain ⟨s, c, w', ht⟩ := node_at_subtree h7 hreach
  exact tree_leaf_reason_at ht hcj

/-- C5 amended witness: the counterexample's oversized leaf (node 1, the
root's left child, at depth 1) is certified to stop for one of the amended
reasons (here: the depth cap `max_depth = 1`). -/
theorem claim_c5_leaf_cap_or_stop_witness :
    (0 < prims8.length ∧
      0 < ((build cfg5 prims8).nodes.getD 1 default).count) ∧
    (((build cfg5 prims8).nodes.getD 1 default).count ≤ cfg5.maxShapesPerNode ∨
      cfg5.maxDepth ≤ 1 ∨
      NoBeneficialSplit cfg5 (build cfg5 prims8).nodes
        (build cfg5 prims8).indices prims8 1) :=
  ⟨⟨by decide, by decide⟩,
    claim_c5_leaf_cap_or_stop cfg5 prims8 (by decide) 1 1
      (show NodeAt (build cfg5 prims8).nodes 1 1 from
        @NodeAt.left (build cfg5 prims8).nodes 0 0 NodeAt.root (by decide))
      (by decide)⟩

/-! ## Claim C1: BVH traversal equals brute force -/

/-- Bridge a pointwise property over the stored index window to one over
the raw primitive indices, through the index permutation. -/
theorem perm_window_iff (cfg : BvhConfig) (prims : List Prim)
    (hlen : (build cfg prims).indices.length = prims.length)
    (hperm : (build cfg prims).indices.Perm (List.range prims.length))
    (P : ℕ → Prop) :
    (∀ p, p < prims.length → P ((build cfg prims).indices.getD p 0)) ↔
      (∀ i, i < prims.length → P i) := by
  constructor
  · intro h i hi
    have hmem : i ∈ (build cfg prims).indices :=
      hperm.mem_iff.mpr (List.mem_range.mpr hi)
    obtain ⟨p, hp, hval⟩ := List.getElem_of_mem hmem
    have hh := h p (by rw [← hlen]; exact hp)
    rw [List.getD_eq_getElem _ _ hp, hval] at hh
    exact hh
  · intro h p hp
    have hplen : p < (build cfg prims).indices.length := by rw [hlen]; exact hp
    have hmem : (build cfg prims).indices.getD p 0 ∈ (build cfg prims).indices := by
      rw [List.getD_eq_getElem _ _ hplen]
      exact List.getElem_mem hplen
    exact h _ (List.mem_range.mp (hperm.mem_iff.mp hmem))

/-- C1: for every non-empty primitive list whose shapes honour the
`Bounded` contract for the ray (a hitting shape's own box passes the slab
test) and report finite hit distances, `bvh.intersect` over the built BVH
agrees with the brute-force closest hit: it returns `none` exactly when no
primitive hits, and otherwise an in-bounds index whose own hit it returns,
of minimal distance among all primitive hits. -/
theorem claim_c1_bvh_equals_brute_force (cfg : BvhConfig) (prims : List Prim)
    (r : Ray) (hne : 0 < prims.length)
    (H1 : ∀ i h', (prims.getD i default).intersect r = some h' →
      (prims.getD i default).aabb.intersectAny r = true)
    (H2 : ∀ i h', (prims.getD i default).intersect r = some h' →
      h'.distance < maxValue) :
    ((build cfg prims).intersect r prims = none ↔
      ∀ i, i < prims.length → (prims.getD i default).intersect r = none) ∧
    (∀ i h, (build cfg prims).intersect r prims = some (i, h) →
      i < prims.length ∧ (prims.getD i default).intersect r = some h ∧
      ∀ i', i' < prims.length → ∀ h',
        (prims.getD i' default).intersect r = some h' →
        h.distance ≤ h'.distance) := by
  obtain ⟨h1, h2, h3, h4, h5, h6, h7⟩ := build_spec cfg prims hne
  have hspec := tree_intersect_spec cfg (build cfg prims) prims r h7 H1 H2
    ((build cfg prims).indices.length + 1) (by rw [h4]; omega)
  have hrun : (build cfg prims).intersect r prims =
      (build cfg prims).intersectRec prims r
        ((build cfg prims).indices.length + 1) 0 := rfl
  constructor
  · rw [hrun, hspec.1]
    have := perm_window_iff cfg prims h4 h5
      (fun v => (prims.getD v default).intersect r = none)
    constructor
    · intro h
      exact this.mp (fun p hp => h p (Nat.zero_le p) (by omega))
    · intro h p _ hp
      exact this.mpr h p (by omega)
  · intro i h hres
    rw [hrun] at hres
    obtain ⟨⟨p, _, hp2, hpi, hhit⟩, hmin⟩ := hspec.2 i h hres
    have hilt : i < prims.length := by
      have hplen : p < (build cfg prims).indices.length := by rw [h4]; omega
      have hmem : (build cfg prims).indices.getD p 0 ∈ (build cfg prims).indices := by
        rw [List.getD_eq_getElem _ _ hplen]
        exact List.getElem_mem hplen
      rw [hpi] at hmem
      exact List.mem_range.mp (h5.mem_iff.mp hmem)
    refine ⟨hilt, hhit, ?_⟩
    have := perm_window_iff cfg prims h4 h5
      (fun v => ∀ h', (prims.getD v default).intersect r = some h' →
        h.distance ≤ h'.distance)
    refine this.mp ?_
    intro q hq h' hh'
    exact hmin q (Nat.zero_le q) (by omega) h' hh'

/-- C1 witness: the two-cube sample scene, whose two hits are at distances
2 and 5 and whose boxes pass their own slab tests. -/
theorem claim_c1_bvh_equals_brute_force_witness :
    0 < samplePrims.length ∧
    (((build sampleConfig samplePrims).intersect sampleRay samplePrims = none ↔
      ∀ i, i < samplePrims.length →
        (samplePrims.getD i default).intersect sampleRay = none) ∧
    (∀ i h, (build sampleConfig samplePrims).intersect sampleRay samplePrims =
        some (i, h) →
      i < samplePrims.length ∧
      (samplePrims.getD i default).intersect sampleRay = some h ∧
      ∀ i', i' < samplePrims.length → ∀ h',
        (samplePrims.getD i' default).intersect sampleRay = some h' →
        h.distance ≤ h'.distance)) :=
  ⟨by decide,
    claim_c1_bvh_equals_brute_force sampleConfig samplePrims sampleRay (by decide)
      (by
        intro i h' hh
        match i with
        | 0 => decide
        | 1 => decide
        | n + 2 =>
          rw [show samplePrims.getD (n + 2) default = default from
            List.getD_eq_default _ _ (by show 2 ≤ n + 2; omega)] at hh
          exact Option.noConfusion hh)
      (by
        intro i h' hh
        match i with
        | 0 =>
          rw [show (samplePrims.getD 0 default).intersect sampleRay =
            some ⟨2, fun j => if j = 2 then -1 else 0,
              fun j => if j = 2 then -1 else 0⟩ from rfl] at hh
          cases hh
          decide
        | 1 =>
          rw [show (samplePrims.getD 1 default).intersect sampleRay =
            some ⟨5, fun j => if j = 2 then -1 else 0,
              fun j => if j = 2 then -1 else 0⟩ from rfl] at hh
          cases hh
          decide
        | n + 2 =>
          rw [show samplePrims.getD (n + 2) default = default from
            List.getD_eq_default _ _ (by show 2 ≤ n + 2; omega)] at hh
          exact Option.noConfusion hh)⟩

end Geodesic
